import Mathlib

/-! # neoinit: the service supervision engine of `src/neoinit.c`

A shallow embedding of `start_service_with_deps`, `stop_service_with_deps`,
`handle_status_change` and `emergency_shutdown`, followed by theorems about
them.

Conventions of the embedding.

* The two parallel arrays `services[]` and `service_extras[]` share their
  index; they are embedded as one list of pairs, of length `service_count`.
  A slot outside the list reads as the zero-initialised record of a C static
  array.
* The operating system is an oracle `OS`: the value returned by the n-th
  system call is a function of the call counter `State.tick`.
* Every system call of interest is appended to `State.trace`.
* The oracle gives a value for every system call, so the embedding describes
  the runs in which each system call returns.  `neoinit.c` installs no
  handler for SIGALRM; a `waitpid` that blocks until the timer of line 181
  expires is not such a run, and nothing is stated about it.
* The C recursion is unbounded.  The embedding recurses structurally on a
  recursion budget; `Outcome.overflow` says the budget ran out, so a call
  that overflows at every budget is a call that never returns.
* The loops of `neoinit.c` read names, `deps`, `dep_count` and
  `service_count`, which no function of the file writes (`start_cfg`,
  `stop_cfg`); the embedding reads them once, when the loop is entered.
* `fork()` returns 0 in the forked child, whose image is replaced; the
  supervisor is the process in which it returns a pid or -1.
-/

namespace Neoinit

/-- The enum `service_status_t` of `include/neoinit.h`. -/
inductive service_status_t
  | SERVICE_STOPPED
  | SERVICE_STARTING
  | SERVICE_RUNNING
  | SERVICE_RELOADING
  | SERVICE_STOPPING
  | SERVICE_RESTARTING
  | SERVICE_FAILED
  | SERVICE_MAINTENANCE
  deriving DecidableEq, Repr

open service_status_t

/-- The fields of `service_t` (`include/neoinit.h`) that `neoinit.c` reads or
writes: `services[i].name`, `.status`, `.pid`, `.exit_code`. -/
structure service_t where
  name : String
  status : service_status_t
  pid : Int
  exit_code : Int
  deriving DecidableEq, Repr

/-- The struct `service_extra_t` of `src/neoinit.c`.  `deps` stands for
`deps[0 .. dep_count)`, and likewise `wants` and `conflicts`.  The lock, the
notification descriptor and the child-side fields (working directory,
environment) carry no supervisor-side state and are left out. -/
structure service_extra_t where
  deps : List String
  wants : List String
  conflicts : List String
  restart_attempts : Int
  start_time : Int
  stop_time : Int
  enabled : Bool
  critical : Bool
  exit_status : Int
  restart_delay : Int
  watchdog_usec : Int
  timeout_start_usec : Int
  timeout_stop_usec : Int
  deriving DecidableEq, Repr

/-- A zero-initialised `service_t`, as in a C static array. -/
def service_zero : service_t :=
  { name := "", status := SERVICE_STOPPED, pid := 0, exit_code := 0 }

/-- A zero-initialised `service_extra_t`, as in a C static array. -/
def extra_zero : service_extra_t :=
  { deps := [], wants := [], conflicts := [], restart_attempts := 0,
    start_time := 0, stop_time := 0, enabled := false, critical := false,
    exit_status := 0, restart_delay := 0, watchdog_usec := 0,
    timeout_start_usec := 0, timeout_stop_usec := 0 }

/-- The signal number of SIGTERM. -/
def SIGTERM : Int := 15

/-- The value of EXIT_FAILURE. -/
def EXIT_FAILURE : Int := 1

/-- System calls recorded in the trace, in the order they are made. -/
inductive Event
  /-- The call `fork()` made while starting `services[idx]` returned `pid`. -/
  | fork (idx : Nat) (pid : Int)
  /-- The call `epoll_ctl(EPOLL_CTL_ADD)` for `services[idx]`. -/
  | epoll_add (idx : Nat)
  /-- The call `kill(pid, sig)` made while stopping `services[idx]` returned `rc`. -/
  | kill (idx : Nat) (pid : Int) (sig : Int) (rc : Int)
  /-- The call `alarm(secs)`. -/
  | alarm (secs : Int)
  /-- The call `waitpid(pid, &status, 0)` stored `status`. -/
  | waitpid (idx : Nat) (pid : Int) (status : Int)
  /-- The call `epoll_ctl(EPOLL_CTL_DEL)` for `services[idx]`. -/
  | epoll_del (idx : Nat)
  /-- The call `sleep(secs)`. -/
  | sleep (secs : Int)
  deriving DecidableEq, Repr

/-- The operating system as an oracle: what the system call made at counter
value `n` returns.  `fork` gives the return value of `fork()`, `kill` the
return value of `kill(pid, sig)`, `waitpid` the status word stored through the
pointer, `time` the value of `time(NULL)`. -/
structure OS where
  fork : Nat → Int
  kill : Nat → Int → Int → Int
  waitpid : Nat → Int → Int
  time : Nat → Int

/-- The mutable state of the supervisor: the service table, the flag
`running`, the system-call counter and the trace of system calls. -/
structure State where
  table : List (service_t × service_extra_t)
  running : Bool
  tick : Nat
  trace : List Event
  deriving DecidableEq, Repr

/-- How a call ends. -/
inductive Outcome
  /-- The call returned `rc` (0 for a `void` function). -/
  | returned (rc : Int)
  /-- The recursion budget ran out before the call returned. -/
  | overflow
  /-- This process is the forked child (`fork()` returned 0): its image is
  replaced by `execlp` or it ends in `exit(EXIT_FAILURE)`; the call does not
  return. -/
  | child
  /-- The process ended in `exit(status)`. -/
  | exited (status : Int)
  deriving DecidableEq, Repr

/-- The global `service_count`. -/
def service_count (s : State) : Nat := s.table.length

/-- The record `services[i]`. -/
def svc (s : State) (i : Nat) : service_t :=
  (s.table[i]?.getD (service_zero, extra_zero)).1

/-- The record `service_extras[i]`. -/
def ext (s : State) (i : Nat) : service_extra_t :=
  (s.table[i]?.getD (service_zero, extra_zero)).2

/-- The names `services[0].name, ..., services[service_count - 1].name`. -/
def names (s : State) : List String := s.table.map (fun r => r.1.name)

/-- Modelled from the spec: `find_service_idx` is declared in
`include/neoinit.h` and its body is not part of the sources.  Per the
registry contract `lookup(name) -> handle | NotFound` with the name as the
unique key: the index of the first record of that name, `none` (the C value
-1) when no record has it. -/
def find_service_idx (s : State) (service_name : String) : Option Nat :=
  if (names s).indexOf service_name < (names s).length
  then some ((names s).indexOf service_name) else none

/-- Write `services[i]` and `service_extras[i]`. -/
def set_slot (s : State) (i : Nat) (v : service_t) (e : service_extra_t) : State :=
  { s with table := s.table.set i (v, e) }

/-- One system call: advance the counter and record the event. -/
def syscall (s : State) (e : Event) : State :=
  { s with tick := s.tick + 1, trace := s.trace ++ [e] }

/-- Lines 115-119 of `neoinit.c`, the loop of `start_service_with_deps` over
`extra->deps`, with the recursive call as a parameter.  `returned 0`: the
loop ran to its end; `returned (-1)`: the `return -1` of line 117 fired; any
other outcome: a recursive call did not return. -/
def start_deps (call : State → String → Outcome × State) :
    List String → State → Outcome × State
  | [], s => (Outcome.returned 0, s)
  | d :: ds, s =>
    match call s d with
    | (Outcome.returned rc, s1) =>
      if rc ≠ 0 then (Outcome.returned (-1), s1) else start_deps call ds s1
    | (o, s1) => (o, s1)

/-- Lines 146-148 of `neoinit.c`: record the child's pid, set the status to
`SERVICE_RUNNING` and stamp `start_time`. -/
def mark_running (s : State) (service_idx : Nat) (pid now : Int) : State :=
  set_slot s service_idx
    { svc s service_idx with pid := pid, status := SERVICE_RUNNING }
    { ext s service_idx with start_time := now }

/-- Lines 121-158 of `neoinit.c`: what `start_service_with_deps` does for
`services[service_idx]` once the loop over its dependencies is through. -/
def start_spawn (os : OS) (s : State) (service_idx : Nat) : Outcome × State :=
  if (svc s service_idx).status = SERVICE_RUNNING then (Outcome.returned 0, s)
  else
    let pid := os.fork s.tick
    let s1 := syscall s (Event.fork service_idx pid)
    if pid = 0 then (Outcome.child, s1)
    else if pid > 0 then
      (Outcome.returned 0,
        syscall (mark_running s1 service_idx pid (os.time s1.tick)) (Event.epoll_add service_idx))
    else (Outcome.returned (-1), s1)

/-- The function `start_service_with_deps` of `neoinit.c` (lines 109-159),
with a recursion budget as first argument. -/
def start_service_with_deps (os : OS) : Nat → State → String → Outcome × State
  | 0, s, _ => (Outcome.overflow, s)
  | fuel + 1, s, service_name =>
    match find_service_idx s service_name with
    | none => (Outcome.returned (-1), s)
    | some service_idx =>
      match start_deps (start_service_with_deps os fuel) (ext s service_idx).deps s with
      | (Outcome.returned rc, s1) =>
        if rc ≠ 0 then (Outcome.returned (-1), s1) else start_spawn os s1 service_idx
      | (o, s1) => (o, s1)

/-- The names `services[i].name` for which the loop of lines 167-174 calls
`stop_service_with_deps`, in call order: for each record `i` in table order,
once for every entry of its `deps` equal to `service_name`. -/
def dependents (s : State) (service_name : String) : List String :=
  s.table.flatMap (fun r => (r.2.deps.filter (fun d => d = service_name)).map (fun _ => r.1.name))

/-- Lines 167-174 of `neoinit.c`: the recursive stops of the dependents; the
result of each is discarded. -/
def stop_dependents (call : State → String → Outcome × State) :
    List String → State → Outcome × State
  | [], s => (Outcome.returned 0, s)
  | n :: ns, s =>
    match call s n with
    | (Outcome.returned _, s1) => stop_dependents call ns s1
    | (o, s1) => (o, s1)

/-- Lines 186-188 of `neoinit.c`: set the status to `SERVICE_STOPPED`, record
the wait status as exit code and stamp `stop_time`. -/
def mark_stopped (s : State) (service_idx : Nat) (status now : Int) : State :=
  set_slot s service_idx
    { svc s service_idx with status := SERVICE_STOPPED, exit_code := status }
    { ext s service_idx with stop_time := now }

/-- Lines 181-191 of `neoinit.c`, after `kill` has returned 0: arm the alarm,
wait for the process, disarm the alarm, mark the service stopped and drop
its notification descriptor from the epoll set. -/
def stop_reap (os : OS) (s : State) (service_idx : Nat) (pid : Int) : State :=
  let s2 := syscall s (Event.alarm (Int.tdiv (ext s service_idx).timeout_stop_usec 1000000))
  let status := os.waitpid s2.tick pid
  let s3 := syscall s2 (Event.waitpid service_idx pid status)
  let s4 := syscall s3 (Event.alarm 0)
  syscall (mark_stopped s4 service_idx status (os.time s4.tick)) (Event.epoll_del service_idx)

/-- Lines 176-195 of `neoinit.c`: what `stop_service_with_deps` does for
`services[service_idx]` once its dependents are through. -/
def stop_signal (os : OS) (s : State) (service_idx : Nat) : Outcome × State :=
  if (svc s service_idx).status = SERVICE_STOPPED then (Outcome.returned 0, s)
  else
    let pid := (svc s service_idx).pid
    let rc := os.kill s.tick pid SIGTERM
    let s1 := syscall s (Event.kill service_idx pid SIGTERM rc)
    if rc = 0 then (Outcome.returned 0, stop_reap os s1 service_idx pid)
    else (Outcome.returned (-1), s1)

/-- The function `stop_service_with_deps` of `neoinit.c` (lines 161-196),
with a recursion budget as first argument. -/
def stop_service_with_deps (os : OS) : Nat → State → String → Outcome × State
  | 0, s, _ => (Outcome.overflow, s)
  | fuel + 1, s, service_name =>
    match find_service_idx s service_name with
    | none => (Outcome.returned (-1), s)
    | some service_idx =>
      match stop_dependents (stop_service_with_deps os fuel) (dependents s service_name) s with
      | (Outcome.returned _, s1) => stop_signal os s1 service_idx
      | (o, s1) => (o, s1)

/-- The loop of `emergency_shutdown` (lines 241-245) over the indices it is
given, in that order; the status is read when the index is reached. -/
def shutdown_loop (call : State → String → Outcome × State) :
    List Nat → State → Outcome × State
  | [], s => (Outcome.returned 0, s)
  | i :: is, s =>
    if (svc s i).status = SERVICE_RUNNING then
      match call s (svc s i).name with
      | (Outcome.returned _, s1) => shutdown_loop call is s1
      | (o, s1) => (o, s1)
    else shutdown_loop call is s

/-- The function `emergency_shutdown` of `neoinit.c` (lines 239-249): the
indices run from `service_count - 1` down to 0, and the function ends in
`exit(EXIT_FAILURE)`. -/
def emergency_shutdown (os : OS) (fuel : Nat) (s : State) : Outcome × State :=
  let s0 := { s with running := false }
  match shutdown_loop (stop_service_with_deps os fuel) (List.range (service_count s0)).reverse s0 with
  | (Outcome.returned _, s1) => (Outcome.exited EXIT_FAILURE, s1)
  | (o, s1) => (o, s1)

/-- Lines 209-210 of `neoinit.c`: `extra->restart_attempts++` followed by
`sleep(extra->restart_delay)`. -/
def restart_bump (s : State) (service_idx : Nat) : State :=
  let s1 := set_slot s service_idx (svc s service_idx)
    { ext s service_idx with restart_attempts := (ext s service_idx).restart_attempts + 1 }
  syscall s1 (Event.sleep (ext s1 service_idx).restart_delay)

/-- The function `handle_status_change` of `neoinit.c` (lines 198-213).  A
call of `emergency_shutdown` does not return, so the second test is reached
only when the first one fails. -/
def handle_status_change (os : OS) (fuel : Nat) (s : State) (service_idx : Nat) :
    Outcome × State :=
  if (svc s service_idx).status = SERVICE_FAILED ∧ (ext s service_idx).critical = true then
    emergency_shutdown os fuel s
  else if (svc s service_idx).status = SERVICE_FAILED ∧ (ext s service_idx).restart_attempts < 3 then
    match start_service_with_deps os fuel (restart_bump s service_idx)
        (svc (restart_bump s service_idx) service_idx).name with
    | (Outcome.returned _, s3) => (Outcome.returned 0, s3)
    | (o, s3) => (o, s3)
  else (Outcome.returned 0, s)

/-- A small table builder: a record with the given name, status, pid and
dependency list, everything else as `initialize_system` leaves it. -/
def mk (name : String) (status : service_status_t) (pid : Int) (deps : List String) :
    service_t × service_extra_t :=
  ({ name := name, status := status, pid := pid, exit_code := 0 },
   { extra_zero with deps := deps, enabled := true, restart_delay := 1,
                     timeout_start_usec := 90000000, timeout_stop_usec := 90000000 })

/-- A state holding the given table, before any system call. -/
def init (table : List (service_t × service_extra_t)) : State :=
  { table := table, running := true, tick := 0, trace := [] }

/-- An operating system in which every `fork` succeeds with child pid
`100 + n` and every signal is delivered. -/
def os_ok : OS :=
  { fork := fun n => 100 + n, kill := fun _ _ _ => 0, waitpid := fun _ _ => 0, time := fun n => n }

/-- An operating system in which every `fork` fails and every `kill` fails. -/
def os_fail : OS :=
  { fork := fun _ => -1, kill := fun _ _ _ => -1, waitpid := fun _ _ => 0, time := fun n => n }

/-- The static part of the table: for each record its name and its list of
hard dependencies. -/
def cfg (s : State) : List (String × List String) :=
  s.table.map (fun r => (r.1.name, r.2.deps))

/-- Service `i` hard-depends on service `j`: some entry of `deps` of record
`i` resolves to index `j`. -/
def depends_on (s : State) (i j : Nat) : Prop :=
  ∃ d ∈ (ext s i).deps, find_service_idx s d = some j

/-- The hard-dependency relation has no cycle: no service reaches itself
through one or more `deps` edges. -/
def acyclic (s : State) : Prop :=
  ∀ i, ¬ Relation.TransGen (depends_on s) i i

/-- A checkable certificate of acyclicity: `rank` strictly decreases along
every `deps` edge of the table. -/
def rank_ok (s : State) (rank : List Nat) : Bool :=
  (List.range s.table.length).all (fun i =>
    (ext s i).deps.all (fun d =>
      match find_service_idx s d with
      | none => true
      | some j => decide (rank.getD j 0 < rank.getD i 0)))

/-- The status of `services[j]` is `SERVICE_RUNNING`. -/
def is_running (s : State) (j : Nat) : Prop :=
  (svc s j).status = SERVICE_RUNNING

/-- Some `fork()` was called for `services[j]` in the trace. -/
def forked (tr : List Event) (j : Nat) : Prop :=
  ∃ p, Event.fork j p ∈ tr

/-- A process was spawned for `services[j]` in the trace: a `fork()` for it
returned a child pid to the supervisor. -/
def spawned (tr : List Event) (j : Nat) : Prop :=
  ∃ p, 0 < p ∧ Event.fork j p ∈ tr

/-- Recogniser of the `fork()` events of `services[j]`. -/
def is_fork (j : Nat) : Event → Bool
  | Event.fork i _ => decide (i = j)
  | _ => false

/-- Every service reachable from `j` through `deps` edges (`j` included) has
all its dependency names registered and the services they name running. -/
def dep_closed (s : State) (j : Nat) : Prop :=
  ∀ k, Relation.ReflTransGen (depends_on s) j k →
    ∀ d ∈ (ext s k).deps, ∃ i, find_service_idx s d = some i ∧ is_running s i

/-- The supervisor's view of `fork()`: it never returns 0 there (0 is what
the child sees). -/
def supervisor (os : OS) : Prop := ∀ n, os.fork n ≠ 0

/-- What one call of `start_service_with_deps` (or a run of such calls) does,
from state `s` to state `s1` with outcome `o`, appending `tr` to the trace. -/
structure StartInv (s : State) (o : Outcome) (s1 : State) (tr : List Event) : Prop where
  trace_eq : s1.trace = s.trace ++ tr
  cfg_eq : cfg s1 = cfg s
  keep : ∀ j, ¬ forked tr j → s1.table[j]? = s.table[j]?
  fresh : ∀ j, is_running s j → ¬ forked tr j
  run_iff : ∀ j, is_running s1 j ↔ (is_running s j ∨ spawned tr j)
  pos : o = Outcome.returned 0 → ∀ j p, Event.fork j p ∈ tr → 0 < p
  once : ∀ j, tr.countP (is_fork j) ≤ 1
  topo : ∀ pre i p post, tr = pre ++ Event.fork i p :: post →
    ∀ d ∈ (ext s i).deps, ∃ j, find_service_idx s d = some j ∧ (is_running s j ∨ spawned pre j)
  closed : ∀ j, forked tr j → dep_closed s1 j
  rc : ∀ r, o = Outcome.returned r → r = 0 ∨ r = -1

/-- What one call `start_service_with_deps(name)` guarantees on top of
`StartInv`: on success the target is registered and running with all it
reaches; and every `fork()` made is for a service the target reaches. -/
def StartPost (name : String) (s : State) (o : Outcome) (s1 : State) (tr : List Event) : Prop :=
  StartInv s o s1 tr ∧
  (o = Outcome.returned 0 →
    ∃ idx, find_service_idx s name = some idx ∧ is_running s1 idx ∧ dep_closed s1 idx) ∧
  (∀ j, forked tr j →
    ∃ idx, find_service_idx s name = some idx ∧ Relation.ReflTransGen (depends_on s) idx j)

/-- The states the supervisor can reach from `s`: the closure of the five
elementary state changes made by `neoinit.c`. -/
inductive Reach (os : OS) : State → State → Prop
  /-- Nothing happened. -/
  | refl (s : State) : Reach os s s
  /-- Lines 121-158: the tail of a start. -/
  | spawn {s s1 : State} (i : Nat) : Reach os s s1 → Reach os s (start_spawn os s1 i).2
  /-- Lines 176-195: the tail of a stop. -/
  | signal {s s1 : State} (i : Nat) : Reach os s s1 → Reach os s (stop_signal os s1 i).2
  /-- Lines 209-210: `restart_attempts++` and `sleep(restart_delay)`. -/
  | bump {s s1 : State} (i : Nat) : Reach os s s1 → Reach os s (restart_bump s1 i)
  /-- Line 240: `running = false`. -/
  | halt {s s1 : State} : Reach os s s1 → Reach os s { s1 with running := false }

/-- A call the event loop or the control surface can make. -/
inductive Call
  | start (name : String)
  | stop (name : String)
  | status_change (service_idx : Nat)
  deriving DecidableEq, Repr

/-- Run one call. -/
def run_call (os : OS) (fuel : Nat) (s : State) : Call → Outcome × State
  | Call.start name => start_service_with_deps os fuel s name
  | Call.stop name => stop_service_with_deps os fuel s name
  | Call.status_change service_idx => handle_status_change os fuel s service_idx

/-- Run a sequence of calls, one after the other, for as long as they
return. -/
def run_calls (os : OS) (fuel : Nat) : State → List Call → Outcome × State
  | s, [] => (Outcome.returned 0, s)
  | s, c :: cs =>
    match run_call os fuel s c with
    | (Outcome.returned _, s1) => run_calls os fuel s1 cs
    | (o, s1) => (o, s1)

/-- The statuses in which a service has a process: STARTING, RUNNING,
STOPPING, RELOADING. -/
def active : service_status_t → Bool
  | SERVICE_STARTING => true
  | SERVICE_RUNNING => true
  | SERVICE_STOPPING => true
  | SERVICE_RELOADING => true
  | _ => false

/-- The invariant of the data model: for every service of the table, the pid
is set (non-zero) if and only if the status is an active one. -/
def pid_iff_active (s : State) : Prop :=
  ∀ i, i < service_count s → ((svc s i).pid ≠ 0 ↔ active (svc s i).status = true)

/-- One half of the invariant: every service of the table whose status is an
active one has its pid set. -/
def pid_if_active (s : State) : Prop :=
  ∀ i, i < service_count s → active (svc s i).status = true → (svc s i).pid ≠ 0

instance (s : State) : Decidable (pid_iff_active s) := by
  unfold pid_iff_active
  infer_instance

instance (s : State) : Decidable (pid_if_active s) := by
  unfold pid_if_active
  infer_instance

/-- The forks of the trace `tr` come in a valid start order relative to the
state `s` the trace started from: when `fork()` is called for service `i`,
every hard dependency of `i` names a registered service that was RUNNING in
`s` or was spawned earlier in `tr`. -/
def start_order_ok (s : State) (tr : List Event) : Prop :=
  ∀ pre i p post, tr = pre ++ Event.fork i p :: post →
    ∀ d ∈ (ext s i).deps,
      ∃ j, find_service_idx s d = some j ∧ (is_running s j ∨ spawned pre j)

/-- The diamond: A requires B and C, B requires D, C requires D; all
stopped. -/
def diamond : State :=
  init [mk "A" SERVICE_STOPPED 0 ["B", "C"], mk "B" SERVICE_STOPPED 0 ["D"],
        mk "C" SERVICE_STOPPED 0 ["D"], mk "D" SERVICE_STOPPED 0 []]

/-- The cycle of hard dependencies: A requires B, B requires C, C requires A,
with the given statuses. -/
def cycle3 (a b c : service_status_t) : State :=
  init [mk "A" a 0 ["B"], mk "B" b 0 ["C"], mk "C" c 0 ["A"]]

/-- A requires B; B has no dependency. -/
def chain2 (a b : service_status_t) : State :=
  init [mk "A" a 0 ["B"], mk "B" b 0 []]

/-- A requires B and X; B has no dependency; no service is named X. -/
def missing_dep : State :=
  init [mk "A" SERVICE_STOPPED 0 ["B", "X"], mk "B" SERVICE_STOPPED 0 []]

/-- One service A with the given status and pid, and no dependency. -/
def single (a : service_status_t) (pid : Int) : State :=
  init [mk "A" a pid []]

/-- The service named `a` lists the name `b` among its hard dependencies:
some record of the table has name `a` and `b` in its `deps`. -/
def requires (s : State) (a b : String) : Prop :=
  ∃ r ∈ s.table, r.1.name = a ∧ b ∈ r.2.deps

/-- The hard-dependency relation between service names has no cycle.  On a
table whose names are unique this is `acyclic`; in general it implies it
(`acyclic_of_names_acyclic`). -/
def names_acyclic (s : State) : Prop :=
  ∀ a, ¬ Relation.TransGen (requires s) a a

/-- The record `services[i]` is the one `find_service_idx` returns for its
own name: no earlier record has the same name. -/
def registered (s : State) (i : Nat) : Prop :=
  find_service_idx s (svc s i).name = some i

/-- The status of `services[j]` is `SERVICE_STOPPED`. -/
def is_stopped (s : State) (j : Nat) : Prop :=
  (svc s j).status = SERVICE_STOPPED

/-- Some `kill()` was issued for `services[j]` in the trace. -/
def killed (tr : List Event) (j : Nat) : Prop :=
  ∃ pid sig rc, Event.kill j pid sig rc ∈ tr

/-- The process of `services[j]` was waited for in the trace. -/
def reaped (tr : List Event) (j : Nat) : Prop :=
  ∃ pid status, Event.waitpid j pid status ∈ tr

/-- Signal delivery succeeds: every `kill()` returns 0. -/
def delivers (os : OS) : Prop := ∀ n pid sig, os.kill n pid sig = 0

/-- Every service that transitively requires the name `n` is registered and
stopped. -/
def dependents_stopped (s : State) (n : String) : Prop :=
  ∀ a, Relation.TransGen (requires s) a n → ∃ i, find_service_idx s a = some i ∧ is_stopped s i

/-- The signals of the trace `tr` come in a dependency-safe order relative to
the state `s` the trace started from: when `kill()` is issued for service
`j`, every service that transitively requires `j` is registered and was
STOPPED in `s` or has been reaped earlier in `tr`. -/
def stop_order_ok (s : State) (tr : List Event) : Prop :=
  ∀ pre j pid sig rc post, tr = pre ++ Event.kill j pid sig rc :: post →
    ∀ a, Relation.TransGen (requires s) a (svc s j).name →
      ∃ i, find_service_idx s a = some i ∧ (is_stopped s i ∨ reaped pre i)

/-- The events a stop can add to the trace: `kill`, `alarm`, `waitpid` and
`epoll_ctl(EPOLL_CTL_DEL)`. -/
def is_stop_event : Event → Bool
  | Event.kill _ _ _ _ => true
  | Event.alarm _ => true
  | Event.waitpid _ _ _ => true
  | Event.epoll_del _ => true
  | _ => false

/-- What one call of `stop_service_with_deps` (or a run of such calls) does,
from state `s` to state `s1` with outcome `o`, appending `tr` to the trace. -/
structure StopInv (os : OS) (s : State) (o : Outcome) (s1 : State) (tr : List Event) : Prop where
  trace_eq : s1.trace = s.trace ++ tr
  cfg_eq : cfg s1 = cfg s
  keep : ∀ j, ¬ killed tr j → s1.table[j]? = s.table[j]?
  fresh : ∀ j, is_stopped s j → ¬ killed tr j
  stop_iff : ∀ j, is_stopped s1 j ↔ (is_stopped s j ∨ reaped tr j)
  same_or_stopped : ∀ j, (svc s1 j).status = (svc s j).status ∨ is_stopped s1 j
  sigterm : ∀ j pid sig rc, Event.kill j pid sig rc ∈ tr → sig = SIGTERM
  events : ∀ e ∈ tr, is_stop_event e = true
  reap_kill : ∀ pre j pid status post, tr = pre ++ Event.waitpid j pid status :: post →
    Event.kill j pid SIGTERM 0 ∈ pre
  order : delivers os → stop_order_ok s tr
  outcome : o = Outcome.overflow ∨ o = Outcome.returned 0 ∨ o = Outcome.returned (-1)

/-- What one call `stop_service_with_deps(name)` guarantees on top of
`StopInv`: it returns 0 exactly when the target ends STOPPED; when signals
are delivered a call on a registered name that returns leaves everything
that requires the target stopped; and every signal sent is for a service
that requires the target (or the target itself). -/
def StopPost (os : OS) (name : String) (s : State) (o : Outcome) (s1 : State)
    (tr : List Event) : Prop :=
  StopInv os s o s1 tr ∧
  (∀ idx, find_service_idx s name = some idx →
    ∀ r, o = Outcome.returned r → (r = 0 ↔ is_stopped s1 idx)) ∧
  (find_service_idx s name = none → o = Outcome.overflow ∨ o = Outcome.returned (-1)) ∧
  (delivers os → ∀ idx, find_service_idx s name = some idx → ∀ r, o = Outcome.returned r →
    dependents_stopped s1 name ∧ is_stopped s1 idx) ∧
  (∀ j, killed tr j → Relation.ReflTransGen (requires s) (svc s j).name name)

/-- A requires B, with the given statuses and pids. -/
def pair (a : service_status_t) (pa : Int) (b : service_status_t) (pb : Int) : State :=
  init [mk "A" a pa ["B"], mk "B" b pb []]

/-- A checkable certificate that the relation between names is acyclic: the
rank of a name (looked up at the index of its first record, 0 when the name is
not registered) strictly decreases from every record to each of its `deps`. -/
def names_rank_ok (s : State) (rank : List Nat) : Bool :=
  s.table.all (fun r =>
    r.2.deps.all (fun d =>
      decide (rank.getD ((names s).indexOf d) 0 < rank.getD ((names s).indexOf r.1.name) 0)))

/-- X lists Y in its `conflicts`; X is stopped and Y is running with pid 9. -/
def conflict_pair : State :=
  init [((mk "X" SERVICE_STOPPED 0 []).1, { (mk "X" SERVICE_STOPPED 0 []).2 with conflicts := ["Y"] }),
        mk "Y" SERVICE_RUNNING 9 []]

/-- T lists W in its `wants`; both are stopped. -/
def wants_pair : State :=
  init [((mk "T" SERVICE_STOPPED 0 []).1, { (mk "T" SERVICE_STOPPED 0 []).2 with wants := ["W"] }),
        mk "W" SERVICE_STOPPED 0 []]

/-- The events a start can add to the trace: a `fork()` or an
`epoll_ctl(EPOLL_CTL_ADD)`. -/
def is_start_event (e : Event) : Prop :=
  (∃ j p, e = Event.fork j p) ∨ (∃ j, e = Event.epoll_add j)

/-- The signal number of SIGKILL. -/
def SIGKILL : Int := 9

/-- One FAILED service A marked `critical`, with the given number of restart
attempts. -/
def critical_failed (attempts : Int) : State :=
  init [((mk "A" SERVICE_FAILED 0 []).1,
         { (mk "A" SERVICE_FAILED 0 []).2 with critical := true, restart_attempts := attempts })]

/-- The field `restart_attempts` of `service_extras[j]`. -/
def attempts (s : State) (j : Nat) : Int := (ext s j).restart_attempts

/-- The test of line 207-208 is reached and holds: `services[idx]` is FAILED,
not critical, and has fewer than 3 restart attempts; `handle_status_change`
then restarts it. -/
def restarts (s : State) (idx : Nat) : Prop :=
  (svc s idx).status = SERVICE_FAILED ∧ (ext s idx).critical = false ∧
    (ext s idx).restart_attempts < 3

instance (s : State) (idx : Nat) : Decidable (restarts s idx) := by
  unfold restarts
  infer_instance

/-- The number of automatic restarts of `services[j]` made along a sequence
of calls: the calls `handle_status_change(j)` reached in a state in which the
restart branch (lines 207-212) is taken. -/
def auto_restarts (os : OS) (fuel : Nat) : State → List Call → Nat → Nat
  | _, [], _ => 0
  | s, c :: cs, j =>
    (if c = Call.status_change j ∧ restarts s j then 1 else 0) +
      match run_call os fuel s c with
      | (Outcome.returned _, s1) => auto_restarts os fuel s1 cs j
      | _ => 0

/-- An operating system in which every `fork` succeeds and `kill` fails
exactly when the signalled process is `pid`. -/
def os_kill_fails (pid : Int) : OS :=
  { fork := fun n => 100 + n, kill := fun _ p _ => if p = pid then -1 else 0,
    waitpid := fun _ _ => 0, time := fun n => n }

/-- The diamond with every service RUNNING: A (pid 11) requires B (pid 12)
and C (pid 13), which both require D (pid 14). -/
def diamond_running : State :=
  init [mk "A" SERVICE_RUNNING 11 ["B", "C"], mk "B" SERVICE_RUNNING 12 ["D"],
        mk "C" SERVICE_RUNNING 13 ["D"], mk "D" SERVICE_RUNNING 14 []]

/-! ## Basic facts about the table -/

theorem names_eq_cfg (s : State) : names s = (cfg s).map Prod.fst := by
  simp [names, cfg, List.map_map, Function.comp_def]

theorem deps_eq_cfg (s : State) (j : Nat) :
    (ext s j).deps = (((cfg s)[j]?).map Prod.snd).getD [] := by
  unfold ext cfg
  rw [List.getElem?_map]
  cases s.table[j]? <;> simp [extra_zero]

theorem find_congr {s s' : State} (h : cfg s' = cfg s) (n : String) :
    find_service_idx s' n = find_service_idx s n := by
  simp only [find_service_idx, names_eq_cfg, h]

theorem deps_congr {s s' : State} (h : cfg s' = cfg s) (j : Nat) :
    (ext s' j).deps = (ext s j).deps := by
  simp only [deps_eq_cfg, h]

theorem depends_on_congr {s s' : State} (h : cfg s' = cfg s) :
    depends_on s' = depends_on s := by
  funext i j
  simp only [depends_on, deps_congr h, find_congr h]

theorem find_lt {s : State} {n : String} {i : Nat} (h : find_service_idx s n = some i) :
    i < s.table.length := by
  unfold find_service_idx at h
  split at h
  · rename_i hlt
    simp only [Option.some.injEq] at h
    subst h
    simpa [names] using hlt
  · exact absurd h (by simp)

theorem depends_on_lt {s : State} {i j : Nat} (h : depends_on s i j) : j < s.table.length := by
  obtain ⟨d, _, hd⟩ := h
  exact find_lt hd

@[simp]
theorem table_syscall (s : State) (e : Event) : (syscall s e).table = s.table := rfl
@[simp]
theorem trace_syscall (s : State) (e : Event) : (syscall s e).trace = s.trace ++ [e] := rfl
@[simp]
theorem tick_syscall (s : State) (e : Event) : (syscall s e).tick = s.tick + 1 := rfl
@[simp]
theorem running_syscall (s : State) (e : Event) : (syscall s e).running = s.running := rfl
@[simp]
theorem svc_syscall (s : State) (e : Event) (j : Nat) : svc (syscall s e) j = svc s j := rfl
@[simp]
theorem ext_syscall (s : State) (e : Event) (j : Nat) : ext (syscall s e) j = ext s j := rfl
@[simp]
theorem cfg_syscall (s : State) (e : Event) : cfg (syscall s e) = cfg s := rfl
@[simp]
theorem trace_set_slot (s : State) (i : Nat) (v : service_t) (e : service_extra_t) :
    (set_slot s i v e).trace = s.trace := rfl
@[simp]
theorem tick_set_slot (s : State) (i : Nat) (v : service_t) (e : service_extra_t) :
    (set_slot s i v e).tick = s.tick := rfl
@[simp]
theorem table_set_slot (s : State) (i : Nat) (v : service_t) (e : service_extra_t) :
    (set_slot s i v e).table = s.table.set i (v, e) := rfl

theorem slot_eta (s : State) (i : Nat) (h : i < s.table.length) :
    s.table[i]? = some (svc s i, ext s i) := by
  simp [svc, ext, List.getElem?_eq_getElem h]

theorem svc_set_slot_self (s : State) (i : Nat) (v : service_t) (e : service_extra_t)
    (h : i < s.table.length) : svc (set_slot s i v e) i = v := by
  simp [svc, set_slot, List.getElem?_set, h]

theorem svc_set_slot_ne (s : State) (i j : Nat) (v : service_t) (e : service_extra_t)
    (h : i ≠ j) : svc (set_slot s i v e) j = svc s j := by
  simp [svc, set_slot, List.getElem?_set, h]

theorem ext_set_slot_self (s : State) (i : Nat) (v : service_t) (e : service_extra_t)
    (h : i < s.table.length) : ext (set_slot s i v e) i = e := by
  simp [ext, set_slot, List.getElem?_set, h]

theorem ext_set_slot_ne (s : State) (i j : Nat) (v : service_t) (e : service_extra_t)
    (h : i ≠ j) : ext (set_slot s i v e) j = ext s j := by
  simp [ext, set_slot, List.getElem?_set, h]

theorem slot_set_slot_ne (s : State) (i j : Nat) (v : service_t) (e : service_extra_t)
    (h : i ≠ j) : (set_slot s i v e).table[j]? = s.table[j]? := by
  simp [set_slot, List.getElem?_set, h]

theorem cfg_set_slot (s : State) (i : Nat) (v : service_t) (e : service_extra_t)
    (hv : v.name = (svc s i).name) (he : e.deps = (ext s i).deps) :
    cfg (set_slot s i v e) = cfg s := by
  apply List.ext_getElem?
  intro j
  simp only [cfg, set_slot, List.getElem?_map, List.getElem?_set]
  by_cases hij : i = j
  · subst hij
    by_cases hlt : i < s.table.length
    · simp [hlt, slot_eta s i hlt, hv, he]
    · simp [hlt, List.getElem?_eq_none (Nat.le_of_not_lt hlt)]
  · simp [hij]

theorem svc_set_slot (s : State) (i j : Nat) (v : service_t) (e : service_extra_t) :
    svc (set_slot s i v e) j = svc s j ∨ (j = i ∧ svc (set_slot s i v e) j = v) := by
  by_cases hij : i = j
  · subst hij
    by_cases hlt : i < s.table.length
    · exact Or.inr ⟨rfl, svc_set_slot_self s i v e hlt⟩
    · left
      simp [svc, set_slot, List.getElem?_set, hlt, List.getElem?_eq_none (Nat.le_of_not_lt hlt)]
  · exact Or.inl (svc_set_slot_ne s i j v e hij)

@[simp]
theorem trace_mark_running (s : State) (i : Nat) (p n : Int) :
    (mark_running s i p n).trace = s.trace := rfl
@[simp]
theorem tick_mark_running (s : State) (i : Nat) (p n : Int) :
    (mark_running s i p n).tick = s.tick := rfl
@[simp]
theorem length_mark_running (s : State) (i : Nat) (p n : Int) :
    (mark_running s i p n).table.length = s.table.length := by
  simp [mark_running]
@[simp]
theorem cfg_mark_running (s : State) (i : Nat) (p n : Int) :
    cfg (mark_running s i p n) = cfg s :=
  cfg_set_slot s i _ _ rfl rfl

theorem slot_mark_running_ne (s : State) (i j : Nat) (p n : Int) (h : j ≠ i) :
    (mark_running s i p n).table[j]? = s.table[j]? :=
  slot_set_slot_ne s i j _ _ (Ne.symm h)

theorem svc_mark_running_self (s : State) (i : Nat) (p n : Int) (h : i < s.table.length) :
    svc (mark_running s i p n) i = { svc s i with pid := p, status := SERVICE_RUNNING } :=
  svc_set_slot_self s i _ _ h

theorem svc_mark_running (s : State) (i j : Nat) (p n : Int) :
    svc (mark_running s i p n) j = svc s j ∨
      (j = i ∧ svc (mark_running s i p n) j = { svc s i with pid := p, status := SERVICE_RUNNING }) :=
  svc_set_slot s i j _ _

@[simp]
theorem trace_mark_stopped (s : State) (i : Nat) (p n : Int) :
    (mark_stopped s i p n).trace = s.trace := rfl
@[simp]
theorem tick_mark_stopped (s : State) (i : Nat) (p n : Int) :
    (mark_stopped s i p n).tick = s.tick := rfl
@[simp]
theorem length_mark_stopped (s : State) (i : Nat) (p n : Int) :
    (mark_stopped s i p n).table.length = s.table.length := by
  simp [mark_stopped]
@[simp]
theorem cfg_mark_stopped (s : State) (i : Nat) (p n : Int) :
    cfg (mark_stopped s i p n) = cfg s :=
  cfg_set_slot s i _ _ rfl rfl

theorem svc_mark_stopped_self (s : State) (i : Nat) (p n : Int) (h : i < s.table.length) :
    svc (mark_stopped s i p n) i = { svc s i with status := SERVICE_STOPPED, exit_code := p } :=
  svc_set_slot_self s i _ _ h

theorem svc_mark_stopped (s : State) (i j : Nat) (p n : Int) :
    svc (mark_stopped s i p n) j = svc s j ∨
      (j = i ∧ svc (mark_stopped s i p n) j =
        { svc s i with status := SERVICE_STOPPED, exit_code := p }) :=
  svc_set_slot s i j _ _

@[simp]
theorem trace_stop_reap (os : OS) (s : State) (i : Nat) (pid : Int) :
    (stop_reap os s i pid).trace = s.trace ++
      [Event.alarm (Int.tdiv (ext s i).timeout_stop_usec 1000000),
       Event.waitpid i pid (os.waitpid (s.tick + 1) pid), Event.alarm 0, Event.epoll_del i] := by
  simp [stop_reap]
@[simp]
theorem length_stop_reap (os : OS) (s : State) (i : Nat) (pid : Int) :
    (stop_reap os s i pid).table.length = s.table.length := by
  simp [stop_reap]
@[simp]
theorem cfg_stop_reap (os : OS) (s : State) (i : Nat) (pid : Int) :
    cfg (stop_reap os s i pid) = cfg s := by
  simp [stop_reap]

theorem svc_stop_reap (os : OS) (s : State) (i j : Nat) (pid : Int) :
    svc (stop_reap os s i pid) j = svc s j ∨
      (j = i ∧ (svc (stop_reap os s i pid) j).status = SERVICE_STOPPED ∧
        (svc (stop_reap os s i pid) j).pid = (svc s i).pid) := by
  unfold stop_reap
  simp only [svc_syscall]
  rcases svc_mark_stopped (syscall (syscall (syscall s
      (Event.alarm (Int.tdiv (ext s i).timeout_stop_usec 1000000)))
      (Event.waitpid i pid (os.waitpid (syscall s
        (Event.alarm (Int.tdiv (ext s i).timeout_stop_usec 1000000))).tick pid)))
      (Event.alarm 0)) i j (os.waitpid (syscall s
        (Event.alarm (Int.tdiv (ext s i).timeout_stop_usec 1000000))).tick pid)
      (os.time (syscall (syscall (syscall s
      (Event.alarm (Int.tdiv (ext s i).timeout_stop_usec 1000000)))
      (Event.waitpid i pid (os.waitpid (syscall s
        (Event.alarm (Int.tdiv (ext s i).timeout_stop_usec 1000000))).tick pid)))
      (Event.alarm 0)).tick) with h | ⟨hj, h⟩
  · exact Or.inl h
  · right
    refine ⟨hj, ?_, ?_⟩
    · rw [h]
    · rw [h]
      rfl

theorem svc_stop_reap_self (os : OS) (s : State) (i : Nat) (pid : Int) (h : i < s.table.length) :
    (svc (stop_reap os s i pid) i).status = SERVICE_STOPPED := by
  unfold stop_reap
  simp only [svc_syscall]
  rw [svc_mark_stopped_self _ _ _ _ (by simpa using h)]

/-! ## The invariant of a start -/

theorem svc_of_slot_eq {s s' : State} {j : Nat} (h : s'.table[j]? = s.table[j]?) :
    svc s' j = svc s j := by
  simp [svc, h]

theorem ext_of_slot_eq {s s' : State} {j : Nat} (h : s'.table[j]? = s.table[j]?) :
    ext s' j = ext s j := by
  simp [ext, h]

theorem forked_append {t1 t2 : List Event} {j : Nat} :
    forked (t1 ++ t2) j ↔ forked t1 j ∨ forked t2 j := by
  simp only [forked, List.mem_append]
  constructor
  · rintro ⟨p, h | h⟩
    · exact Or.inl ⟨p, h⟩
    · exact Or.inr ⟨p, h⟩
  · rintro (⟨p, h⟩ | ⟨p, h⟩)
    · exact ⟨p, Or.inl h⟩
    · exact ⟨p, Or.inr h⟩

theorem spawned_append {t1 t2 : List Event} {j : Nat} :
    spawned (t1 ++ t2) j ↔ spawned t1 j ∨ spawned t2 j := by
  simp only [spawned, List.mem_append]
  constructor
  · rintro ⟨p, hp, h | h⟩
    · exact Or.inl ⟨p, hp, h⟩
    · exact Or.inr ⟨p, hp, h⟩
  · rintro (⟨p, hp, h⟩ | ⟨p, hp, h⟩)
    · exact ⟨p, hp, Or.inl h⟩
    · exact ⟨p, hp, Or.inr h⟩

theorem spawned_forked {tr : List Event} {j : Nat} (h : spawned tr j) : forked tr j := by
  obtain ⟨p, _, hp⟩ := h
  exact ⟨p, hp⟩

theorem countP_fork_eq_zero {tr : List Event} {j : Nat} (h : ¬ forked tr j) :
    tr.countP (is_fork j) = 0 := by
  rw [List.countP_eq_zero]
  intro e he hf
  cases e with
  | fork i p =>
    simp only [is_fork, decide_eq_true_eq] at hf
    subst hf
    exact h ⟨p, he⟩
  | _ => simp [is_fork] at hf

theorem forked_of_countP_pos {tr : List Event} {j : Nat} (h : 0 < tr.countP (is_fork j)) :
    forked tr j := by
  rw [List.countP_pos_iff] at h
  obtain ⟨e, he, hf⟩ := h
  cases e with
  | fork i p =>
    simp only [is_fork, decide_eq_true_eq] at hf
    subst hf
    exact ⟨p, he⟩
  | _ => simp [is_fork] at hf

theorem dep_closed_mono {s s' : State} (hc : cfg s' = cfg s)
    (hr : ∀ j, is_running s j → is_running s' j) {j : Nat} (h : dep_closed s j) :
    dep_closed s' j := by
  intro k hk d hd
  rw [depends_on_congr hc] at hk
  rw [deps_congr hc] at hd
  obtain ⟨i, hi, hri⟩ := h k hk d hd
  exact ⟨i, by rw [find_congr hc]; exact hi, hr i hri⟩

theorem dep_closed_of_deps {s : State} {idx : Nat}
    (h : ∀ d ∈ (ext s idx).deps, ∃ j, find_service_idx s d = some j ∧ is_running s j ∧ dep_closed s j) :
    dep_closed s idx := by
  intro k hk d hd
  rcases Relation.ReflTransGen.cases_head hk with heq | ⟨j, hj, hjk⟩
  · subst heq
    obtain ⟨i, hi, hri, _⟩ := h d hd
    exact ⟨i, hi, hri⟩
  · obtain ⟨d0, hd0, hf0⟩ := hj
    obtain ⟨i, hi, _, hci⟩ := h d0 hd0
    rw [hf0] at hi
    cases hi
    exact hci k hjk d hd

theorem StartInv.refl (s : State) (o : Outcome) (h : ∀ r, o = Outcome.returned r → r = 0 ∨ r = -1) :
    StartInv s o s [] where
  trace_eq := by simp
  cfg_eq := rfl
  keep := fun _ _ => rfl
  fresh := fun _ _ hf => by obtain ⟨p, hp⟩ := hf; simp at hp
  run_iff := fun j => by simp [spawned]
  pos := fun _ _ _ hp => by simp at hp
  once := fun _ => by simp
  topo := fun pre i p post h => by simp at h
  closed := fun _ hf => by obtain ⟨p, hp⟩ := hf; simp at hp
  rc := h

theorem StartInv.running_mono {s s1 : State} {o : Outcome} {tr : List Event}
    (h : StartInv s o s1 tr) (j : Nat) (hj : is_running s j) : is_running s1 j :=
  (h.run_iff j).2 (Or.inl hj)

theorem StartInv.comp {s s1 s2 : State} {o : Outcome} {t1 t2 : List Event}
    (h1 : StartInv s (Outcome.returned 0) s1 t1) (h2 : StartInv s1 o s2 t2) :
    StartInv s o s2 (t1 ++ t2) where
  trace_eq := by rw [h2.trace_eq, h1.trace_eq, List.append_assoc]
  cfg_eq := h2.cfg_eq.trans h1.cfg_eq
  keep := fun j hj => by
    rw [forked_append, not_or] at hj
    rw [h2.keep j hj.2, h1.keep j hj.1]
  fresh := fun j hj hf => by
    rcases forked_append.1 hf with hf | hf
    · exact h1.fresh j hj hf
    · exact h2.fresh j (h1.running_mono j hj) hf
  run_iff := fun j => by
    rw [h2.run_iff, h1.run_iff, spawned_append, or_assoc]
  pos := fun ho j p hp => by
    rcases List.mem_append.1 hp with hp | hp
    · exact h1.pos rfl j p hp
    · exact h2.pos ho j p hp
  once := fun j => by
    rw [List.countP_append]
    by_cases hz : t1.countP (is_fork j) = 0
    · rw [hz, Nat.zero_add]
      exact h2.once j
    · obtain ⟨p, hp⟩ := forked_of_countP_pos (Nat.pos_of_ne_zero hz)
      have hrun : is_running s1 j := (h1.run_iff j).2 (Or.inr ⟨p, h1.pos rfl j p hp, hp⟩)
      rw [countP_fork_eq_zero (h2.fresh j hrun), Nat.add_zero]
      exact h1.once j
  topo := fun pre i p post heq d hd => by
    rcases List.append_eq_append_iff.1 heq with ⟨a, ha, hb⟩ | ⟨c, hc, hd2⟩
    · -- the fork lies in t2
      subst ha
      rw [← deps_congr h1.cfg_eq] at hd
      obtain ⟨j, hj, hr⟩ := h2.topo a i p post hb d hd
      refine ⟨j, by rw [← find_congr h1.cfg_eq]; exact hj, ?_⟩
      rcases hr with hr | hr
      · rcases (h1.run_iff j).1 hr with hr | hr
        · exact Or.inl hr
        · exact Or.inr (spawned_append.2 (Or.inl hr))
      · exact Or.inr (spawned_append.2 (Or.inr hr))
    · cases c with
      | nil =>
        simp only [List.append_nil, List.nil_append] at hc hd2
        subst hc
        rw [← deps_congr h1.cfg_eq] at hd
        obtain ⟨j, hj, hr⟩ := h2.topo [] i p post hd2.symm d hd
        refine ⟨j, by rw [← find_congr h1.cfg_eq]; exact hj, ?_⟩
        rcases hr with hr | hr
        · rcases (h1.run_iff j).1 hr with hr | hr
          · exact Or.inl hr
          · exact Or.inr hr
        · obtain ⟨q, _, hq⟩ := hr
          simp at hq
      | cons e c =>
        simp only [List.cons_append, List.cons.injEq] at hd2
        obtain ⟨he, hpost⟩ := hd2
        subst he
        exact h1.topo pre i p c hc d hd
  closed := fun j hf => by
    rcases forked_append.1 hf with hf | hf
    · exact dep_closed_mono h2.cfg_eq (fun k hk => h2.running_mono k hk) (h1.closed j hf)
    · exact h2.closed j hf
  rc := h2.rc

/-- One `fork()` for `services[idx]`, all of whose dependencies are running. -/
theorem StartInv.of_fork {s s1 : State} {o : Outcome} {idx : Nat} {p : Int} {rest : List Event}
    (htr : s1.trace = s.trace ++ Event.fork idx p :: rest)
    (hcfg : cfg s1 = cfg s)
    (hkeep : ∀ j, j ≠ idx → s1.table[j]? = s.table[j]?)
    (hnot : ¬ is_running s idx)
    (hrun : is_running s1 idx ↔ 0 < p)
    (hrest : ∀ e ∈ rest, ∀ j q, e ≠ Event.fork j q)
    (hdeps : ∀ d ∈ (ext s idx).deps, ∃ j, find_service_idx s d = some j ∧ is_running s j ∧ dep_closed s j)
    (hpos : o = Outcome.returned 0 → 0 < p)
    (hrc : ∀ r, o = Outcome.returned r → r = 0 ∨ r = -1) :
    StartInv s o s1 (Event.fork idx p :: rest) := by
  have hmem : ∀ j q, Event.fork j q ∈ Event.fork idx p :: rest → j = idx ∧ q = p := by
    intro j q h
    rcases List.mem_cons.1 h with h | h
    · cases h
      exact ⟨rfl, rfl⟩
    · exact absurd rfl (hrest _ h j q)
  have hforked : ∀ j, forked (Event.fork idx p :: rest) j → j = idx := by
    rintro j ⟨q, hq⟩
    exact (hmem j q hq).1
  have hmono : ∀ j, is_running s j → is_running s1 j := by
    intro j hj
    have hne : j ≠ idx := by
      rintro rfl
      exact hnot hj
    unfold is_running
    rw [svc_of_slot_eq (hkeep j hne)]
    exact hj
  refine
    { trace_eq := htr
      cfg_eq := hcfg
      keep := fun j hj => hkeep j (fun h => hj (h ▸ ⟨p, List.mem_cons_self _ _⟩))
      fresh := fun j hj hf => hnot ((hforked j hf) ▸ hj)
      run_iff := ?_
      pos := fun ho j q hq => (hmem j q hq).2 ▸ hpos ho
      once := ?_
      topo := ?_
      closed := ?_
      rc := hrc }
  · intro j
    by_cases hj : j = idx
    · subst hj
      rw [hrun]
      constructor
      · intro hp
        exact Or.inr ⟨p, hp, List.mem_cons_self _ _⟩
      · rintro (h | ⟨q, hq, hmq⟩)
        · exact absurd h hnot
        · exact (hmem j q hmq).2 ▸ hq
    · unfold is_running
      rw [svc_of_slot_eq (hkeep j hj)]
      constructor
      · exact Or.inl
      · rintro (h | h)
        · exact h
        · exact absurd (hforked j (spawned_forked h)) hj
  · intro j
    have hz : rest.countP (is_fork j) = 0 :=
      countP_fork_eq_zero (fun ⟨q, hq⟩ => hrest _ hq j q rfl)
    rw [List.countP_cons, hz]
    split <;> simp
  · intro pre i q post heq d hd
    cases pre with
    | nil =>
      simp only [List.nil_append, List.cons.injEq, Event.fork.injEq] at heq
      obtain ⟨⟨hi, _⟩, _⟩ := heq
      subst hi
      obtain ⟨j, hj, hr, _⟩ := hdeps d hd
      exact ⟨j, hj, Or.inl hr⟩
    | cons e pre =>
      simp only [List.cons_append, List.cons.injEq] at heq
      have : Event.fork i q ∈ rest := by
        rw [heq.2]
        simp
      exact absurd rfl (hrest _ this i q)
  · intro j hj
    rw [hforked j hj]
    refine dep_closed_mono hcfg hmono (dep_closed_of_deps hdeps)

/-- The tail of `start_service_with_deps` (lines 121-158) keeps the invariant. -/
theorem start_spawn_inv (os : OS) (s : State) (idx : Nat) (hlt : idx < s.table.length)
    (hdeps : ∀ d ∈ (ext s idx).deps, ∃ j, find_service_idx s d = some j ∧ is_running s j ∧ dep_closed s j) :
    ∃ tr, StartInv s (start_spawn os s idx).1 (start_spawn os s idx).2 tr ∧
      (∀ j, forked tr j → j = idx) ∧
      ((start_spawn os s idx).1 = Outcome.returned 0 →
        is_running (start_spawn os s idx).2 idx ∧ dep_closed (start_spawn os s idx).2 idx) ∧
      (start_spawn os s idx).1 ≠ Outcome.overflow := by
  unfold start_spawn
  by_cases hrun : (svc s idx).status = SERVICE_RUNNING
  · simp only [hrun, if_true]
    refine ⟨[], StartInv.refl s _ (fun r hr => ?_), ?_, fun _ => ⟨hrun, dep_closed_of_deps hdeps⟩, by simp⟩
    · cases hr
      exact Or.inl rfl
    · rintro j ⟨p, hp⟩
      simp at hp
  · simp only [hrun, if_false]
    by_cases h0 : os.fork s.tick = 0
    · simp only [h0, if_true]
      refine ⟨[Event.fork idx 0], StartInv.of_fork (by simp) (by simp) (fun j _ => by simp) hrun ?_
        (by simp) hdeps (by simp) (by simp), ?_, by simp, by simp⟩
      · simp only [is_running, svc_syscall]
        simp [hrun]
      · rintro j ⟨p, hp⟩
        simp at hp
        exact hp.1
    · simp only [h0, if_false]
      by_cases hpos : os.fork s.tick > 0
      · simp only [hpos, if_true]
        have hself : is_running (syscall (mark_running (syscall s (Event.fork idx (os.fork s.tick)))
            idx (os.fork s.tick) (os.time (syscall s (Event.fork idx (os.fork s.tick))).tick))
            (Event.epoll_add idx)) idx := by
          simp only [is_running, svc_syscall]
          rw [svc_mark_running_self _ _ _ _ (by simpa using hlt)]
        have hinv := @StartInv.of_fork s
          (syscall (mark_running (syscall s (Event.fork idx (os.fork s.tick)))
            idx (os.fork s.tick) (os.time (syscall s (Event.fork idx (os.fork s.tick))).tick))
            (Event.epoll_add idx))
          (Outcome.returned 0) idx (os.fork s.tick) [Event.epoll_add idx]
          (by simp) (by simp)
          (fun j hj => by
            simp only [table_syscall]
            rw [slot_mark_running_ne _ _ _ _ _ hj]
            simp)
          hrun ⟨fun _ => hpos, fun _ => hself⟩ (by simp) hdeps (fun _ => hpos)
          (fun r hr => by cases hr; exact Or.inl rfl)
        refine ⟨_, hinv, ?_, fun _ => ⟨hself, hinv.closed idx ⟨_, List.mem_cons_self _ _⟩⟩, by simp⟩
        rintro j ⟨p, hp⟩
        simp at hp
        exact hp.1
      · simp only [hpos, if_false]
        refine ⟨[Event.fork idx (os.fork s.tick)],
          StartInv.of_fork (by simp) (by simp) (fun j _ => by simp) hrun ?_
            (by simp) hdeps (by simp) (fun r hr => by cases hr; exact Or.inr rfl), ?_, by simp, by simp⟩
        · simp only [is_running, svc_syscall]
          constructor
          · intro h
            exact absurd h hrun
          · intro h
            exact absurd h hpos
        · rintro j ⟨p, hp⟩
          simp at hp
          exact hp.1

theorem StartInv.weaken {s s1 : State} {o o1 : Outcome} {tr : List Event}
    (h : StartInv s o s1 tr) (hpos : o1 = Outcome.returned 0 → o = Outcome.returned 0)
    (hrc : ∀ r, o1 = Outcome.returned r → r = 0 ∨ r = -1) : StartInv s o1 s1 tr :=
  { trace_eq := h.trace_eq, cfg_eq := h.cfg_eq, keep := h.keep, fresh := h.fresh,
    run_iff := h.run_iff, pos := fun ho => h.pos (hpos ho), once := h.once, topo := h.topo,
    closed := h.closed, rc := hrc }

theorem length_of_cfg {s s' : State} (h : cfg s' = cfg s) : s'.table.length = s.table.length := by
  have := congrArg List.length h
  simpa [cfg] using this

/-- The loop over the dependencies keeps the invariant, given that each
recursive call does. -/
theorem start_deps_inv (call : State → String → Outcome × State)
    (hcall : ∀ s d, ∃ tr, StartPost d s (call s d).1 (call s d).2 tr) :
    ∀ ds s, ∃ tr, StartInv s (start_deps call ds s).1 (start_deps call ds s).2 tr ∧
      ((start_deps call ds s).1 = Outcome.returned 0 →
        ∀ d ∈ ds, ∃ j, find_service_idx s d = some j ∧
          is_running (start_deps call ds s).2 j ∧ dep_closed (start_deps call ds s).2 j) ∧
      (∀ j, forked tr j →
        ∃ d ∈ ds, ∃ i, find_service_idx s d = some i ∧ Relation.ReflTransGen (depends_on s) i j) := by
  intro ds
  induction ds with
  | nil =>
    intro s
    refine ⟨[], StartInv.refl s _ (fun r hr => ?_), fun _ d hd => by simp at hd, ?_⟩
    · simp only [start_deps, Outcome.returned.injEq] at hr
      exact Or.inl hr.symm
    · rintro j ⟨p, hp⟩
      simp at hp
  | cons d ds ih =>
    intro s
    obtain ⟨t1, h1, hok1, hreach1⟩ := hcall s d
    rcases hc : call s d with ⟨o, s1⟩
    rw [hc] at h1 hok1
    simp only at h1 hok1
    cases o with
    | returned rc =>
      by_cases hrc : rc = 0
      · subst hrc
        have hstep : start_deps call (d :: ds) s = start_deps call ds s1 := by
          simp [start_deps, hc]
        rw [hstep]
        obtain ⟨t2, h2, hok2, hreach2⟩ := ih s1
        refine ⟨t1 ++ t2, h1.comp h2, ?_, ?_⟩
        · intro hret d1 hd1
          rcases List.mem_cons.1 hd1 with heq | hmem
          · subst heq
            obtain ⟨j, hj, hrj, hcj⟩ := hok1 rfl
            exact ⟨j, hj, h2.running_mono j hrj,
              dep_closed_mono h2.cfg_eq (fun k hk => h2.running_mono k hk) hcj⟩
          · obtain ⟨j, hj, hrj, hcj⟩ := hok2 hret d1 hmem
            exact ⟨j, by rw [← find_congr h1.cfg_eq]; exact hj, hrj, hcj⟩
        · intro j hj
          rcases forked_append.1 hj with hj | hj
          · obtain ⟨i, hi, hij⟩ := hreach1 j hj
            exact ⟨d, List.mem_cons_self _ _, i, hi, hij⟩
          · obtain ⟨d1, hd1, i, hi, hij⟩ := hreach2 j hj
            refine ⟨d1, List.mem_cons_of_mem _ hd1, i, by rw [← find_congr h1.cfg_eq]; exact hi, ?_⟩
            rw [← depends_on_congr h1.cfg_eq]
            exact hij
      · have hstep : start_deps call (d :: ds) s = (Outcome.returned (-1), s1) := by
          simp [start_deps, hc, hrc]
        rw [hstep]
        refine ⟨t1, h1.weaken (fun h => by simp at h) (fun r hr => ?_), fun h => by simp at h, ?_⟩
        · simp only [Outcome.returned.injEq] at hr
          exact Or.inr hr.symm
        · intro j hj
          obtain ⟨i, hi, hij⟩ := hreach1 j hj
          exact ⟨d, List.mem_cons_self _ _, i, hi, hij⟩
    | overflow =>
      have hstep : start_deps call (d :: ds) s = (Outcome.overflow, s1) := by
        simp [start_deps, hc]
      rw [hstep]
      refine ⟨t1, h1, fun h => by simp at h, ?_⟩
      intro j hj
      obtain ⟨i, hi, hij⟩ := hreach1 j hj
      exact ⟨d, List.mem_cons_self _ _, i, hi, hij⟩
    | child =>
      have hstep : start_deps call (d :: ds) s = (Outcome.child, s1) := by
        simp [start_deps, hc]
      rw [hstep]
      refine ⟨t1, h1, fun h => by simp at h, ?_⟩
      intro j hj
      obtain ⟨i, hi, hij⟩ := hreach1 j hj
      exact ⟨d, List.mem_cons_self _ _, i, hi, hij⟩
    | exited st =>
      have hstep : start_deps call (d :: ds) s = (Outcome.exited st, s1) := by
        simp [start_deps, hc]
      rw [hstep]
      refine ⟨t1, h1, fun h => by simp at h, ?_⟩
      intro j hj
      obtain ⟨i, hi, hij⟩ := hreach1 j hj
      exact ⟨d, List.mem_cons_self _ _, i, hi, hij⟩

/-- Every call of `start_service_with_deps` keeps the invariant, at every
recursion budget. -/
theorem start_inv (os : OS) : ∀ fuel s name,
    ∃ tr, StartPost name s (start_service_with_deps os fuel s name).1
      (start_service_with_deps os fuel s name).2 tr := by
  intro fuel
  induction fuel with
  | zero =>
    intro s name
    exact ⟨[], StartInv.refl s _ (fun r hr => by simp [start_service_with_deps] at hr),
      fun h => by simp [start_service_with_deps] at h,
      fun j ⟨p, hp⟩ => by simp at hp⟩
  | succ fuel ih =>
    intro s name
    cases hf : find_service_idx s name with
    | none =>
      have hstep : start_service_with_deps os (fuel + 1) s name = (Outcome.returned (-1), s) := by
        simp [start_service_with_deps, hf]
      rw [hstep]
      exact ⟨[], StartInv.refl s _ (fun r hr => by
          simp only [Outcome.returned.injEq] at hr
          exact Or.inr hr.symm),
        fun h => by simp at h, fun j ⟨p, hp⟩ => by simp at hp⟩
    | some idx =>
      obtain ⟨t1, h1, hok1, hreach1⟩ :=
        start_deps_inv (start_service_with_deps os fuel) ih (ext s idx).deps s
      have hreach : ∀ j, forked t1 j → Relation.ReflTransGen (depends_on s) idx j := by
        intro j hj
        obtain ⟨d, hd, i, hi, hij⟩ := hreach1 j hj
        exact Relation.ReflTransGen.head ⟨d, hd, hi⟩ hij
      rcases hc : start_deps (start_service_with_deps os fuel) (ext s idx).deps s with ⟨o, s1⟩
      rw [hc] at h1 hok1
      simp only at h1 hok1
      cases o with
      | returned rc =>
        by_cases hrc : rc = 0
        · subst hrc
          have hstep : start_service_with_deps os (fuel + 1) s name = start_spawn os s1 idx := by
            simp [start_service_with_deps, hf, hc]
          rw [hstep]
          have hlt : idx < s1.table.length := by
            rw [length_of_cfg h1.cfg_eq]
            exact find_lt hf
          have hdeps : ∀ d ∈ (ext s1 idx).deps,
              ∃ j, find_service_idx s1 d = some j ∧ is_running s1 j ∧ dep_closed s1 j := by
            intro d hd
            rw [deps_congr h1.cfg_eq] at hd
            obtain ⟨j, hj, hr⟩ := hok1 rfl d hd
            exact ⟨j, by rw [find_congr h1.cfg_eq]; exact hj, hr⟩
          obtain ⟨t2, h2, hself, hok2, _⟩ := start_spawn_inv os s1 idx hlt hdeps
          refine ⟨t1 ++ t2, h1.comp h2, fun hret => ⟨idx, hf, hok2 hret⟩, ?_⟩
          intro j hj
          rcases forked_append.1 hj with hj | hj
          · exact ⟨idx, hf, hreach j hj⟩
          · exact ⟨idx, hf, by rw [hself j hj]⟩
        · have hstep : start_service_with_deps os (fuel + 1) s name = (Outcome.returned (-1), s1) := by
            simp [start_service_with_deps, hf, hc, hrc]
          rw [hstep]
          refine ⟨t1, h1.weaken (fun h => by simp at h) (fun r hr => ?_), fun h => by simp at h,
            fun j hj => ⟨idx, hf, hreach j hj⟩⟩
          simp only [Outcome.returned.injEq] at hr
          exact Or.inr hr.symm
      | overflow =>
        have hstep : start_service_with_deps os (fuel + 1) s name = (Outcome.overflow, s1) := by
          simp [start_service_with_deps, hf, hc]
        rw [hstep]
        exact ⟨t1, h1, fun h => by simp at h, fun j hj => ⟨idx, hf, hreach j hj⟩⟩
      | child =>
        have hstep : start_service_with_deps os (fuel + 1) s name = (Outcome.child, s1) := by
          simp [start_service_with_deps, hf, hc]
        rw [hstep]
        exact ⟨t1, h1, fun h => by simp at h, fun j hj => ⟨idx, hf, hreach j hj⟩⟩
      | exited st =>
        have hstep : start_service_with_deps os (fuel + 1) s name = (Outcome.exited st, s1) := by
          simp [start_service_with_deps, hf, hc]
        rw [hstep]
        exact ⟨t1, h1, fun h => by simp at h, fun j hj => ⟨idx, hf, hreach j hj⟩⟩

/-! ## Acyclic tables and termination -/

/-- In an acyclic table the relation "is a hard dependency of" is well
founded: the table is finite and every edge ends at an index of the table. -/
theorem acyclic_wf {s : State} (h : acyclic s) :
    WellFounded (fun j i => depends_on s i j) := by
  let r : Fin s.table.length → Fin s.table.length → Prop := fun a b => depends_on s b.val a.val
  have hirr : ∀ a, ¬ Relation.TransGen r a a := by
    intro a ha
    have h1 : Relation.TransGen (Function.swap (depends_on s)) a.val a.val :=
      Relation.TransGen.lift (fun x : Fin s.table.length => x.val) (fun x y hxy => hxy) ha
    exact h a.val (Relation.transGen_swap.1 h1)
  haveI : IsTrans (Fin s.table.length) (Relation.TransGen r) := ⟨fun _ _ _ => Relation.TransGen.trans⟩
  haveI : IsIrrefl (Fin s.table.length) (Relation.TransGen r) := ⟨hirr⟩
  have hwf : WellFounded (Relation.TransGen r) := Finite.wellFounded_of_trans_of_irrefl _
  have hwf1 : WellFounded r := Subrelation.wf (fun h => Relation.TransGen.single h) hwf
  have hacc : ∀ a : Fin s.table.length, Acc (fun j i => depends_on s i j) a.val := by
    intro a
    induction a using hwf1.induction with
    | _ a ih => exact Acc.intro _ (fun j hj => ih ⟨j, depends_on_lt hj⟩ hj)
  exact ⟨fun i => Acc.intro _ (fun j hj => hacc ⟨j, depends_on_lt hj⟩)⟩

/-- A rank that decreases along every edge certifies acyclicity. -/
theorem acyclic_of_rank_ok {s : State} (rank : List Nat) (h : rank_ok s rank = true) :
    acyclic s := by
  have hedge : ∀ i j, depends_on s i j → rank.getD j 0 < rank.getD i 0 := by
    rintro i j ⟨d, hd, hf⟩
    by_cases hi : i < s.table.length
    · simp only [rank_ok, List.all_eq_true, List.mem_range] at h
      have := h i hi d hd
      rw [hf] at this
      simpa using this
    · have : (ext s i).deps = [] := by
        simp [ext, List.getElem?_eq_none (Nat.le_of_not_lt hi), extra_zero]
      rw [this] at hd
      simp at hd
  have hpath : ∀ i j, Relation.TransGen (depends_on s) i j → rank.getD j 0 < rank.getD i 0 := by
    intro i j hij
    induction hij with
    | single h1 => exact hedge _ _ h1
    | tail _ h2 ih => exact lt_trans (hedge _ _ h2) ih
  intro i hi
  exact lt_irrefl _ (hpath i i hi)

theorem acyclic_congr {s s' : State} (h : cfg s' = cfg s) (ha : acyclic s) : acyclic s' := by
  unfold acyclic
  rw [depends_on_congr h]
  exact ha

theorem start_cfg (os : OS) (fuel : Nat) (s : State) (name : String) :
    cfg (start_service_with_deps os fuel s name).2 = cfg s := by
  obtain ⟨tr, h, _⟩ := start_inv os fuel s name
  exact h.cfg_eq

theorem start_deps_no_overflow (call : State → String → Outcome × State) (s0 : State)
    (hcfg : ∀ s d, cfg (call s d).2 = cfg s) :
    ∀ ds, (∀ d ∈ ds, ∀ s, cfg s = cfg s0 → (call s d).1 ≠ Outcome.overflow) →
      ∀ s, cfg s = cfg s0 → (start_deps call ds s).1 ≠ Outcome.overflow := by
  intro ds
  induction ds with
  | nil =>
    intro _ s _
    simp [start_deps]
  | cons d ds ih =>
    intro hno s hs
    have h1 := hno d (List.mem_cons_self _ _) s hs
    have h2 := hcfg s d
    rcases hc : call s d with ⟨o, s1⟩
    rw [hc] at h1 h2
    simp only at h1 h2
    cases o with
    | returned rc =>
      by_cases hrc : rc = 0
      · subst hrc
        have hstep : start_deps call (d :: ds) s = start_deps call ds s1 := by
          simp [start_deps, hc]
        rw [hstep]
        exact ih (fun d1 hd1 => hno d1 (List.mem_cons_of_mem _ hd1)) s1 (h2.trans hs)
      · simp [start_deps, hc, hrc]
    | overflow => exact absurd rfl h1
    | child => simp [start_deps, hc]
    | exited st => simp [start_deps, hc]

theorem chain_reaches {s : State} {a x : Nat} {l : List Nat}
    (h : List.Chain (depends_on s) a l) (hx : x ∈ l) : Relation.TransGen (depends_on s) a x := by
  haveI : IsTrans Nat (Relation.TransGen (depends_on s)) := ⟨fun _ _ _ => Relation.TransGen.trans⟩
  exact List.Chain.rel (List.Chain.imp (fun _ _ hab => Relation.TransGen.single hab) h) hx

theorem chain_nodup {s : State} (hac : acyclic s) :
    ∀ (l : List Nat) (a : Nat), List.Chain (depends_on s) a l → (a :: l).Nodup := by
  intro l
  induction l with
  | nil => intro a _; simp
  | cons b l ih =>
    intro a h
    have hb := ih b (List.chain_cons.1 h).2
    refine List.nodup_cons.2 ⟨fun hmem => hac a (chain_reaches h hmem), hb⟩

/-- In an acyclic table a path of hard dependency edges that starts at a
record of the table visits at most `service_count` records. -/
theorem chain_length {s : State} (hac : acyclic s) {a : Nat} {l : List Nat}
    (ha : a < s.table.length) (h : List.Chain (depends_on s) a l) :
    l.length + 1 ≤ service_count s := by
  have hnd := chain_nodup hac l a h
  have hsub : a :: l ⊆ List.range s.table.length := by
    intro x hx
    rcases List.mem_cons.1 hx with heq | hmem
    · rw [heq]; exact List.mem_range.2 ha
    · obtain ⟨y, _, hyx⟩ := Relation.TransGen.tail'_iff.1 (chain_reaches h hmem)
      exact List.mem_range.2 (depends_on_lt hyx)
  have := (List.Nodup.subperm hnd hsub).length_le
  simpa [service_count] using this

theorem start_spawn_no_overflow (os : OS) (s : State) (i : Nat) :
    (start_spawn os s i).1 ≠ Outcome.overflow := by
  unfold start_spawn
  split
  · simp
  · simp only
    split
    · simp
    · split <;> simp

/-- A start does not run out of a budget that exceeds the length of every
path of hard dependency edges out of the target. -/
theorem start_no_overflow_of_depth (os : OS) : ∀ fuel s name, 1 ≤ fuel →
    (∀ idx, find_service_idx s name = some idx →
      ∀ l, List.Chain (depends_on s) idx l → l.length + 1 < fuel) →
    (start_service_with_deps os fuel s name).1 ≠ Outcome.overflow := by
  intro fuel
  induction fuel with
  | zero => intro s name h1; omega
  | succ fuel ih =>
    intro s name _ hdepth
    cases hf : find_service_idx s name with
    | none => simp [start_service_with_deps, hf]
    | some idx =>
      have hfuel : 1 ≤ fuel := by
        have := hdepth idx hf [] List.Chain.nil
        simp at this
        omega
      have hloop := start_deps_no_overflow (start_service_with_deps os fuel) s
        (fun s d => start_cfg os fuel s d) (ext s idx).deps
        (fun d hd s1 hs1 => ih s1 d hfuel (fun j hj l hl => by
          have hj0 : find_service_idx s d = some j := by rw [← find_congr hs1]; exact hj
          rw [depends_on_congr hs1] at hl
          have := hdepth idx hf (j :: l) (List.chain_cons.2 ⟨⟨d, hd, hj0⟩, hl⟩)
          simp at this
          omega)) s rfl
      rcases hc : start_deps (start_service_with_deps os fuel) (ext s idx).deps s with ⟨o, s1⟩
      rw [hc] at hloop
      simp only at hloop
      cases o with
      | returned rc =>
        by_cases hrc : rc = 0
        · subst hrc
          have hstep : start_service_with_deps os (fuel + 1) s name = start_spawn os s1 idx := by
            simp [start_service_with_deps, hf, hc]
          rw [hstep]
          exact start_spawn_no_overflow os s1 idx
        · simp [start_service_with_deps, hf, hc, hrc]
      | overflow => exact absurd rfl hloop
      | child => simp [start_service_with_deps, hf, hc]
      | exited st => simp [start_service_with_deps, hf, hc]

/-- In an acyclic table a start of any name returns (or ends in the forked
child) at every recursion budget larger than `service_count`. -/
theorem start_terminates (os : OS) (s : State) (hac : acyclic s) (name : String)
    (fuel : Nat) (hfuel : service_count s < fuel) :
    (start_service_with_deps os fuel s name).1 ≠ Outcome.overflow := by
  refine start_no_overflow_of_depth os fuel s name (by omega) (fun idx hf l hl => ?_)
  have := chain_length hac (find_lt hf) hl
  omega

/-! ## Reachable states -/

theorem Reach.trans {os : OS} {a b c : State} (h1 : Reach os a b) (h2 : Reach os b c) :
    Reach os a c := by
  induction h2 with
  | refl => exact h1
  | spawn i _ ih => exact Reach.spawn i ih
  | signal i _ ih => exact Reach.signal i ih
  | bump i _ ih => exact Reach.bump i ih
  | halt _ ih => exact Reach.halt ih

theorem start_deps_rel (R : State → State → Prop)
    (htrans : ∀ a b c, R a b → R b c → R a c)
    (call : State → String → Outcome × State) (hcall : ∀ s d, R s (call s d).2)
    (hrefl : ∀ s, R s s) :
    ∀ ds s, R s (start_deps call ds s).2 := by
  intro ds
  induction ds with
  | nil => intro s; exact hrefl s
  | cons d ds ih =>
    intro s
    have h1 := hcall s d
    rcases hc : call s d with ⟨o, s1⟩
    rw [hc] at h1
    cases o with
    | returned rc =>
      by_cases hrc : rc = 0
      · have hstep : start_deps call (d :: ds) s = start_deps call ds s1 := by
          simp [start_deps, hc, hrc]
        rw [hstep]
        exact htrans _ _ _ h1 (ih s1)
      · simpa [start_deps, hc, hrc] using h1
    | overflow => simpa [start_deps, hc] using h1
    | child => simpa [start_deps, hc] using h1
    | exited st => simpa [start_deps, hc] using h1

/-- A reflexive and transitive relation that holds across lines 121-158 holds
across every call of `start_service_with_deps`. -/
theorem start_rel (os : OS) (R : State → State → Prop) (hrefl : ∀ s, R s s)
    (htrans : ∀ a b c, R a b → R b c → R a c)
    (hstep : ∀ s i, R s (start_spawn os s i).2) :
    ∀ fuel s name, R s (start_service_with_deps os fuel s name).2 := by
  intro fuel
  induction fuel with
  | zero => intro s name; exact hrefl s
  | succ fuel ih =>
    intro s name
    cases hf : find_service_idx s name with
    | none => simpa [start_service_with_deps, hf] using hrefl s
    | some idx =>
      have h1 := start_deps_rel R htrans (start_service_with_deps os fuel) ih hrefl (ext s idx).deps s
      rcases hc : start_deps (start_service_with_deps os fuel) (ext s idx).deps s with ⟨o, s1⟩
      rw [hc] at h1
      cases o with
      | returned rc =>
        by_cases hrc : rc = 0
        · have hst : start_service_with_deps os (fuel + 1) s name = start_spawn os s1 idx := by
            simp [start_service_with_deps, hf, hc, hrc]
          rw [hst]
          exact htrans _ _ _ h1 (hstep s1 idx)
        · simpa [start_service_with_deps, hf, hc, hrc] using h1
      | overflow => simpa [start_service_with_deps, hf, hc] using h1
      | child => simpa [start_service_with_deps, hf, hc] using h1
      | exited st => simpa [start_service_with_deps, hf, hc] using h1

theorem stop_dependents_rel (R : State → State → Prop)
    (htrans : ∀ a b c, R a b → R b c → R a c)
    (call : State → String → Outcome × State) (hcall : ∀ s d, R s (call s d).2)
    (hrefl : ∀ s, R s s) :
    ∀ ns s, R s (stop_dependents call ns s).2 := by
  intro ns
  induction ns with
  | nil => intro s; exact hrefl s
  | cons n ns ih =>
    intro s
    have h1 := hcall s n
    rcases hc : call s n with ⟨o, s1⟩
    rw [hc] at h1
    cases o with
    | returned rc =>
      have hstep : stop_dependents call (n :: ns) s = stop_dependents call ns s1 := by
        simp [stop_dependents, hc]
      rw [hstep]
      exact htrans _ _ _ h1 (ih s1)
    | overflow => simpa [stop_dependents, hc] using h1
    | child => simpa [stop_dependents, hc] using h1
    | exited st => simpa [stop_dependents, hc] using h1

/-- A reflexive and transitive relation that holds across lines 176-195 holds
across every call of `stop_service_with_deps`. -/
theorem stop_rel (os : OS) (R : State → State → Prop) (hrefl : ∀ s, R s s)
    (htrans : ∀ a b c, R a b → R b c → R a c)
    (hstep : ∀ s i, R s (stop_signal os s i).2) :
    ∀ fuel s name, R s (stop_service_with_deps os fuel s name).2 := by
  intro fuel
  induction fuel with
  | zero => intro s name; exact hrefl s
  | succ fuel ih =>
    intro s name
    cases hf : find_service_idx s name with
    | none => simpa [stop_service_with_deps, hf] using hrefl s
    | some idx =>
      have h1 := stop_dependents_rel R htrans (stop_service_with_deps os fuel) ih hrefl
        (dependents s name) s
      rcases hc : stop_dependents (stop_service_with_deps os fuel) (dependents s name) s with ⟨o, s1⟩
      rw [hc] at h1
      cases o with
      | returned rc =>
        have hst : stop_service_with_deps os (fuel + 1) s name = stop_signal os s1 idx := by
          simp [stop_service_with_deps, hf, hc]
        rw [hst]
        exact htrans _ _ _ h1 (hstep s1 idx)
      | overflow => simpa [stop_service_with_deps, hf, hc] using h1
      | child => simpa [stop_service_with_deps, hf, hc] using h1
      | exited st => simpa [stop_service_with_deps, hf, hc] using h1

theorem start_reach (os : OS) (fuel : Nat) (s : State) (name : String) :
    Reach os s (start_service_with_deps os fuel s name).2 :=
  start_rel os (Reach os) Reach.refl (fun _ _ _ => Reach.trans)
    (fun s i => Reach.spawn i (Reach.refl s)) fuel s name

theorem stop_reach (os : OS) (fuel : Nat) (s : State) (name : String) :
    Reach os s (stop_service_with_deps os fuel s name).2 :=
  stop_rel os (Reach os) Reach.refl (fun _ _ _ => Reach.trans)
    (fun s i => Reach.signal i (Reach.refl s)) fuel s name

theorem shutdown_loop_reach (os : OS) (call : State → String → Outcome × State)
    (hcall : ∀ s d, Reach os s (call s d).2) :
    ∀ l s, Reach os s (shutdown_loop call l s).2 := by
  intro l
  induction l with
  | nil => intro s; exact Reach.refl s
  | cons i l ih =>
    intro s
    by_cases hr : (svc s i).status = SERVICE_RUNNING
    · have h1 := hcall s (svc s i).name
      rcases hc : call s (svc s i).name with ⟨o, s1⟩
      rw [hc] at h1
      cases o with
      | returned rc =>
        have hstep : shutdown_loop call (i :: l) s = shutdown_loop call l s1 := by
          simp [shutdown_loop, hr, hc]
        rw [hstep]
        exact h1.trans (ih s1)
      | overflow => simpa [shutdown_loop, hr, hc] using h1
      | child => simpa [shutdown_loop, hr, hc] using h1
      | exited st => simpa [shutdown_loop, hr, hc] using h1
    · have hstep : shutdown_loop call (i :: l) s = shutdown_loop call l s := by
        simp [shutdown_loop, hr]
      rw [hstep]
      exact ih s

theorem emergency_shutdown_reach (os : OS) (fuel : Nat) (s : State) :
    Reach os s (emergency_shutdown os fuel s).2 := by
  have h0 : Reach os s { s with running := false } := Reach.halt (Reach.refl s)
  have h1 := shutdown_loop_reach os (stop_service_with_deps os fuel) (stop_reach os fuel)
    (List.range (service_count { s with running := false })).reverse { s with running := false }
  unfold emergency_shutdown
  rcases hc : shutdown_loop (stop_service_with_deps os fuel)
    (List.range (service_count { s with running := false })).reverse { s with running := false } with ⟨o, s1⟩
  rw [hc] at h1
  cases o <;> simpa [hc] using h0.trans h1

theorem handle_status_change_reach (os : OS) (fuel : Nat) (s : State) (idx : Nat) :
    Reach os s (handle_status_change os fuel s idx).2 := by
  unfold handle_status_change
  split
  · exact emergency_shutdown_reach os fuel s
  · split
    · have h0 : Reach os s (restart_bump s idx) := Reach.bump idx (Reach.refl s)
      have h1 := start_reach os fuel (restart_bump s idx) (svc (restart_bump s idx) idx).name
      rcases hc : start_service_with_deps os fuel (restart_bump s idx)
        (svc (restart_bump s idx) idx).name with ⟨o, s1⟩
      rw [hc] at h1
      cases o <;> exact h0.trans h1
    · exact Reach.refl s

theorem run_call_reach (os : OS) (fuel : Nat) (s : State) (c : Call) :
    Reach os s (run_call os fuel s c).2 := by
  cases c with
  | start name => exact start_reach os fuel s name
  | stop name => exact stop_reach os fuel s name
  | status_change idx => exact handle_status_change_reach os fuel s idx

theorem run_calls_reach (os : OS) (fuel : Nat) :
    ∀ cs s, Reach os s (run_calls os fuel s cs).2 := by
  intro cs
  induction cs with
  | nil => intro s; exact Reach.refl s
  | cons c cs ih =>
    intro s
    have h1 := run_call_reach os fuel s c
    rcases hc : run_call os fuel s c with ⟨o, s1⟩
    rw [hc] at h1
    cases o with
    | returned rc =>
      have hstep : run_calls os fuel s (c :: cs) = run_calls os fuel s1 cs := by
        simp [run_calls, hc]
      rw [hstep]
      exact h1.trans (ih s1)
    | overflow => simpa [run_calls, hc] using h1
    | child => simpa [run_calls, hc] using h1
    | exited st => simpa [run_calls, hc] using h1

/-! ## What the elementary steps do to a record -/

theorem start_spawn_svc (os : OS) (s : State) (i j : Nat) :
    svc (start_spawn os s i).2 j = svc s j ∨
      (0 < (svc (start_spawn os s i).2 j).pid ∧
        (svc (start_spawn os s i).2 j).status = SERVICE_RUNNING) := by
  unfold start_spawn
  split
  · exact Or.inl rfl
  · simp only
    split
    · exact Or.inl rfl
    · split
      · rename_i hpos
        simp only [svc_syscall]
        rcases svc_mark_running (syscall s (Event.fork i (os.fork s.tick))) i j (os.fork s.tick)
          (os.time (syscall s (Event.fork i (os.fork s.tick))).tick) with h | ⟨_, h⟩
        · exact Or.inl h
        · right
          rw [h]
          exact ⟨hpos, rfl⟩
      · exact Or.inl rfl

theorem stop_signal_svc (os : OS) (s : State) (i j : Nat) :
    svc (stop_signal os s i).2 j = svc s j ∨
      ((svc (stop_signal os s i).2 j).status = SERVICE_STOPPED ∧
        (svc (stop_signal os s i).2 j).pid = (svc s j).pid ∧ j = i) := by
  unfold stop_signal
  split
  · exact Or.inl rfl
  · simp only
    split
    · rcases svc_stop_reap os (syscall s (Event.kill i (svc s i).pid SIGTERM
        (os.kill s.tick (svc s i).pid SIGTERM))) i j (svc s i).pid with h | ⟨hj, h1, h2⟩
      · exact Or.inl h
      · right
        subst hj
        exact ⟨h1, h2, rfl⟩
    · exact Or.inl rfl

theorem restart_bump_svc (s : State) (i j : Nat) : svc (restart_bump s i) j = svc s j := by
  unfold restart_bump
  simp only [svc_syscall]
  rcases svc_set_slot s i j (svc s i)
    { ext s i with restart_attempts := (ext s i).restart_attempts + 1 } with h | ⟨hj, h⟩
  · exact h
  · rw [h, hj]

/-- Along every reachable state change, a record either keeps its status and
pid, or is running with a positive pid, or is stopped. -/
theorem reach_svc {os : OS} {s s1 : State} (h : Reach os s s1) (j : Nat) :
    ((svc s1 j).status = (svc s j).status ∧ (svc s1 j).pid = (svc s j).pid) ∨
      (0 < (svc s1 j).pid ∧ (svc s1 j).status = SERVICE_RUNNING) ∨
      (svc s1 j).status = SERVICE_STOPPED := by
  induction h with
  | refl => exact Or.inl ⟨rfl, rfl⟩
  | spawn i _ ih =>
    rcases start_spawn_svc os _ i j with h | h
    · rw [h]; exact ih
    · exact Or.inr (Or.inl h)
  | signal i _ ih =>
    rcases stop_signal_svc os _ i j with h | h
    · rw [h]; exact ih
    · exact Or.inr (Or.inr h.1)
  | bump i _ ih =>
    rw [restart_bump_svc]; exact ih
  | halt _ ih => exact ih

theorem length_of_reach {os : OS} {s s1 : State} (h : Reach os s s1) :
    s1.table.length = s.table.length := by
  induction h with
  | refl => rfl
  | spawn i _ ih =>
    rw [← ih]
    unfold start_spawn
    split
    · rfl
    · simp only
      split
      · rfl
      · split <;> simp
  | signal i _ ih =>
    rw [← ih]
    unfold stop_signal
    split
    · rfl
    · simp only
      split <;> simp
  | bump i _ ih =>
    rw [← ih]
    simp [restart_bump]
  | halt _ ih => exact ih

theorem pid_if_active_reach {os : OS} {s s1 : State} (h : Reach os s s1)
    (hinv : pid_if_active s) : pid_if_active s1 := by
  intro i hi hact
  have hi0 : i < service_count s := by
    unfold service_count at hi ⊢
    rw [← length_of_reach h]
    exact hi
  rcases reach_svc h i with ⟨hs, hp⟩ | ⟨hp, _⟩ | hs
  · rw [hp]
    rw [hs] at hact
    exact hinv i hi0 hact
  · exact ne_of_gt hp
  · rw [hs] at hact
    simp [active] at hact

/-! ## Facts about a stop -/

theorem stop_signal_cfg (os : OS) (s : State) (i : Nat) : cfg (stop_signal os s i).2 = cfg s := by
  unfold stop_signal
  split
  · rfl
  · simp only
    split
    · simp
    · simp

theorem stop_signal_pid (os : OS) (s : State) (i j : Nat) :
    (svc (stop_signal os s i).2 j).pid = (svc s j).pid := by
  rcases stop_signal_svc os s i j with h | ⟨_, h, _⟩
  · rw [h]
  · exact h

theorem stop_signal_ok (os : OS) (s : State) (i : Nat) (hlt : i < s.table.length)
    (h : (stop_signal os s i).1 = Outcome.returned 0) :
    (svc (stop_signal os s i).2 i).status = SERVICE_STOPPED := by
  by_cases hs : (svc s i).status = SERVICE_STOPPED
  · simp [stop_signal, hs]
  · by_cases hrc : os.kill s.tick (svc s i).pid SIGTERM = 0
    · simp only [stop_signal, hs, hrc, if_true, if_false]
      exact svc_stop_reap_self os _ i _ (by simpa using hlt)
    · simp [stop_signal, hs, hrc] at h

theorem stop_cfg (os : OS) (fuel : Nat) (s : State) (name : String) :
    cfg (stop_service_with_deps os fuel s name).2 = cfg s :=
  stop_rel os (fun a b => cfg b = cfg a) (fun _ => rfl) (fun _ _ _ h1 h2 => h2.trans h1)
    (fun s i => stop_signal_cfg os s i) fuel s name

theorem stop_pid (os : OS) (fuel : Nat) (s : State) (name : String) (j : Nat) :
    (svc (stop_service_with_deps os fuel s name).2 j).pid = (svc s j).pid :=
  stop_rel os (fun a b => (svc b j).pid = (svc a j).pid) (fun _ => rfl)
    (fun _ _ _ h1 h2 => h2.trans h1) (fun s i => stop_signal_pid os s i j) fuel s name

/-- A stop that returns 0 leaves the target with status `SERVICE_STOPPED`. -/
theorem stop_returned_zero (os : OS) (fuel : Nat) (s : State) (name : String) (idx : Nat)
    (hf : find_service_idx s name = some idx)
    (h0 : (stop_service_with_deps os fuel s name).1 = Outcome.returned 0) :
    (svc (stop_service_with_deps os fuel s name).2 idx).status = SERVICE_STOPPED := by
  cases fuel with
  | zero => simp [stop_service_with_deps] at h0
  | succ fuel =>
    have hcfg := stop_dependents_rel (fun a b => cfg b = cfg a) (fun _ _ _ h1 h2 => h2.trans h1)
      (stop_service_with_deps os fuel) (fun s d => stop_cfg os fuel s d) (fun _ => rfl)
      (dependents s name) s
    rcases hc : stop_dependents (stop_service_with_deps os fuel) (dependents s name) s with ⟨o, s1⟩
    rw [hc] at hcfg
    cases o with
    | returned rc =>
      have hst : stop_service_with_deps os (fuel + 1) s name = stop_signal os s1 idx := by
        simp [stop_service_with_deps, hf, hc]
      rw [hst] at h0 ⊢
      exact stop_signal_ok os s1 idx (by rw [length_of_cfg hcfg]; exact find_lt hf) h0
    | overflow => simp [stop_service_with_deps, hf, hc] at h0
    | child => simp [stop_service_with_deps, hf, hc] at h0
    | exited st => simp [stop_service_with_deps, hf, hc] at h0

/-! ## C1: pid and status -/

/-- C1, counterexample.  One service A, RUNNING with pid 7: the table
satisfies "pid set iff status active".  `stop_service_with_deps("A")` with
signal delivery succeeding returns 0 and leaves A with status STOPPED and pid
still 7, so the property no longer holds: the pid is never cleared. -/
theorem C1_pid_survives_stop :
    pid_iff_active (init [mk "A" SERVICE_RUNNING 7 []]) ∧
    (run_calls os_ok 2 (init [mk "A" SERVICE_RUNNING 7 []]) [Call.stop "A"]).1
      = Outcome.returned 0 ∧
    (svc (run_calls os_ok 2 (init [mk "A" SERVICE_RUNNING 7 []]) [Call.stop "A"]).2 0).status
      = SERVICE_STOPPED ∧
    (svc (run_calls os_ok 2 (init [mk "A" SERVICE_RUNNING 7 []]) [Call.stop "A"]).2 0).pid = 7 ∧
    ¬ pid_iff_active (run_calls os_ok 2 (init [mk "A" SERVICE_RUNNING 7 []]) [Call.stop "A"]).2 := by
  decide

/-- C1, amended.  One direction of the invariant is kept by every sequence of
`start_service_with_deps`, `stop_service_with_deps` and
`handle_status_change` calls: if every service with an active status
(STARTING, RUNNING, STOPPING, RELOADING) has a non-zero pid before, the same
holds after the calls.  And a service that has just been stopped
successfully has status STOPPED, its pid field being left as it was. -/
theorem C1_active_has_pid (os : OS) (fuel : Nat) (s : State) (calls : List Call)
    (h : pid_if_active s) :
    pid_if_active (run_calls os fuel s calls).2 ∧
    (∀ name idx, find_service_idx s name = some idx →
      (stop_service_with_deps os fuel s name).1 = Outcome.returned 0 →
      (svc (stop_service_with_deps os fuel s name).2 idx).status = SERVICE_STOPPED ∧
      (svc (stop_service_with_deps os fuel s name).2 idx).pid = (svc s idx).pid) :=
  ⟨pid_if_active_reach (run_calls_reach os fuel calls s) h,
   fun name idx hf h0 => ⟨stop_returned_zero os fuel s name idx hf h0, stop_pid os fuel s name idx⟩⟩

/-- C1, witness: the amended invariant across a stop followed by a start of
a running service A. -/
theorem C1_active_has_pid_witness :
    pid_if_active (init [mk "A" SERVICE_RUNNING 7 []]) ∧
    pid_if_active
      (run_calls os_ok 3 (init [mk "A" SERVICE_RUNNING 7 []]) [Call.stop "A", Call.start "A"]).2 :=
  ⟨by decide,
   (C1_active_has_pid os_ok 3 (init [mk "A" SERVICE_RUNNING 7 []])
      [Call.stop "A", Call.start "A"] (by decide)).1⟩

/-! ## C2 and C3: start order, no double start -/

theorem running_of_closed {s : State} {idx : Nat} (hr : is_running s idx)
    (hc : dep_closed s idx) (k : Nat) (hk : Relation.ReflTransGen (depends_on s) idx k) :
    is_running s k := by
  rcases Relation.ReflTransGen.cases_tail hk with heq | ⟨m, hm, hmk⟩
  · rw [heq]
    exact hr
  · obtain ⟨d, hd, hfd⟩ := hmk
    obtain ⟨i, hi, hri⟩ := hc m hm d hd
    rw [hfd] at hi
    cases hi
    exact hri

/-- C2.  In an acyclic table, with a recursion budget above `service_count`,
`start_service_with_deps(target)` does not run out of budget; the forks it
makes come in a valid topological start order (at each fork, every hard
dependency of the forked service is registered and is RUNNING: it was RUNNING
before the call or was spawned earlier in the call); and when the call
returns 0 the target and everything it reaches through `deps` is RUNNING. -/
theorem C2_start_order (os : OS) (s : State) (target : String) (hac : acyclic s) :
    ∀ fuel, service_count s < fuel →
      (start_service_with_deps os fuel s target).1 ≠ Outcome.overflow ∧
      (∀ tr, (start_service_with_deps os fuel s target).2.trace = s.trace ++ tr →
        start_order_ok s tr) ∧
      ((start_service_with_deps os fuel s target).1 = Outcome.returned 0 →
        ∃ idx, find_service_idx s target = some idx ∧
          ∀ k, Relation.ReflTransGen (depends_on s) idx k →
            is_running (start_service_with_deps os fuel s target).2 k) := by
  intro fuel hfuel
  refine ⟨start_terminates os s hac target fuel hfuel, ?_, ?_⟩
  · intro tr htr
    obtain ⟨tr0, hinv, _, _⟩ := start_inv os fuel s target
    have : tr = tr0 := List.append_cancel_left (htr.symm.trans hinv.trace_eq)
    subst this
    exact hinv.topo
  · intro h0
    obtain ⟨tr0, hinv, hok, _⟩ := start_inv os fuel s target
    obtain ⟨idx, hf, hr, hc⟩ := hok h0
    refine ⟨idx, hf, fun k hk => running_of_closed hr hc k ?_⟩
    rw [depends_on_congr hinv.cfg_eq]
    exact hk

/-- C2, witness: the diamond with every fork succeeding, at budget 5.  The
forks come in the order D, B, C, A and the call returns 0. -/
theorem C2_start_order_witness :
    acyclic diamond ∧
    (start_service_with_deps os_ok 5 diamond "A").2.trace
      = [Event.fork 3 100, Event.epoll_add 3, Event.fork 1 102, Event.epoll_add 1,
         Event.fork 2 104, Event.epoll_add 2, Event.fork 0 106, Event.epoll_add 0] ∧
    (start_service_with_deps os_ok 5 diamond "A").1 ≠ Outcome.overflow ∧
    (∀ tr, (start_service_with_deps os_ok 5 diamond "A").2.trace = diamond.trace ++ tr →
      start_order_ok diamond tr) ∧
    ((start_service_with_deps os_ok 5 diamond "A").1 = Outcome.returned 0 →
      ∃ idx, find_service_idx diamond "A" = some idx ∧
        ∀ k, Relation.ReflTransGen (depends_on diamond) idx k →
          is_running (start_service_with_deps os_ok 5 diamond "A").2 k) :=
  ⟨acyclic_of_rank_ok [2, 1, 1, 0] (by decide), by decide,
   C2_start_order os_ok diamond "A" (acyclic_of_rank_ok [2, 1, 1, 0] (by decide)) 5 (by decide)⟩

theorem start_deps_evidence (call : State → String → Outcome × State)
    (hcfg : ∀ s d, cfg (call s d).2 = cfg s) :
    ∀ ds s s1, start_deps call ds s = (Outcome.returned 0, s1) →
      ∀ d ∈ ds, ∃ s0, cfg s0 = cfg s ∧ (call s0 d).1 = Outcome.returned 0 := by
  intro ds
  induction ds with
  | nil => intro s s1 _ d hd; simp at hd
  | cons d ds ih =>
    intro s s1 h d1 hd1
    have h2 := hcfg s d
    rcases hc : call s d with ⟨o, s2⟩
    rw [hc] at h2
    simp only at h2
    cases o with
    | returned rc =>
      by_cases hrc : rc = 0
      · subst hrc
        have hstep : start_deps call (d :: ds) s = start_deps call ds s2 := by
          simp [start_deps, hc]
        rw [hstep] at h
        rcases List.mem_cons.1 hd1 with heq | hmem
        · subst heq
          exact ⟨s, rfl, by rw [hc]⟩
        · obtain ⟨s0, hs0, hcall⟩ := ih s2 s1 h d1 hmem
          exact ⟨s0, hs0.trans h2, hcall⟩
      · simp [start_deps, hc, hrc] at h
    | overflow => simp [start_deps, hc] at h
    | child => simp [start_deps, hc] at h
    | exited st => simp [start_deps, hc] at h

theorem start_deps_fixed (call : State → String → Outcome × State) (s : State) :
    ∀ ds, (∀ d ∈ ds, call s d = (Outcome.returned 0, s)) →
      start_deps call ds s = (Outcome.returned 0, s) := by
  intro ds
  induction ds with
  | nil => intro _; rfl
  | cons d ds ih =>
    intro h
    have hd := h d (List.mem_cons_self _ _)
    simp only [start_deps, hd]
    simpa using ih (fun d1 hd1 => h d1 (List.mem_cons_of_mem _ hd1))

/-- A start whose target is RUNNING with everything it reaches does nothing
and returns 0, at any budget at which some start of the same name succeeded
on the same static table. -/
theorem start_again (os : OS) : ∀ fuel s0 s name, cfg s0 = cfg s →
    (start_service_with_deps os fuel s0 name).1 = Outcome.returned 0 →
    (∀ idx, find_service_idx s name = some idx → is_running s idx ∧ dep_closed s idx) →
    start_service_with_deps os fuel s name = (Outcome.returned 0, s) := by
  intro fuel
  induction fuel with
  | zero =>
    intro s0 s name _ h0 _
    simp [start_service_with_deps] at h0
  | succ fuel ih =>
    intro s0 s name hcfg h0 hrun
    cases hf : find_service_idx s0 name with
    | none => simp [start_service_with_deps, hf] at h0
    | some idx =>
      have hfs : find_service_idx s name = some idx := by rw [← find_congr hcfg]; exact hf
      obtain ⟨hr, hcl⟩ := hrun idx hfs
      rcases hc : start_deps (start_service_with_deps os fuel) (ext s0 idx).deps s0 with ⟨o, s1⟩
      have hev := start_deps_evidence (start_service_with_deps os fuel)
        (fun s d => start_cfg os fuel s d) (ext s0 idx).deps s0 s1
      have hloop : o = Outcome.returned 0 := by
        cases o with
        | returned rc =>
          by_cases hrc : rc = 0
          · rw [hrc]
          · simp [start_service_with_deps, hf, hc, hrc] at h0
        | overflow => simp [start_service_with_deps, hf, hc] at h0
        | child => simp [start_service_with_deps, hf, hc] at h0
        | exited st => simp [start_service_with_deps, hf, hc] at h0
      subst hloop
      have hfix : start_deps (start_service_with_deps os fuel) (ext s idx).deps s
          = (Outcome.returned 0, s) := by
        apply start_deps_fixed
        intro d hd
        have hd0 : d ∈ (ext s0 idx).deps := by rw [deps_congr hcfg]; exact hd
        obtain ⟨s2, hs2, hcall⟩ := hev hc d hd0
        refine ih s2 s d (hs2.trans hcfg) hcall ?_
        intro i hi
        obtain ⟨i1, hi1, hri1⟩ := hcl idx Relation.ReflTransGen.refl d hd
        rw [hi] at hi1
        cases hi1
        refine ⟨hri1, fun k hk => hcl k (Relation.ReflTransGen.head ⟨d, hd, hi⟩ hk)⟩
      have hr1 : (svc s idx).status = SERVICE_RUNNING := hr
      simp [start_service_with_deps, hfs, hfix, start_spawn, hr1]

/-- C3.  In an acyclic table, with a recursion budget above `service_count`,
one call of `start_service_with_deps` returns or ends in the child, calls
`fork()` at most once for each service and never for a service that was
already RUNNING; and after a call that returned 0, a second call returns 0
and leaves the whole state (records, trace of system calls) as it is. -/
theorem C3_no_double_start (os : OS) (s : State) (target : String) (hac : acyclic s) :
    ∀ fuel, service_count s < fuel →
      (start_service_with_deps os fuel s target).1 ≠ Outcome.overflow ∧
      (∀ tr, (start_service_with_deps os fuel s target).2.trace = s.trace ++ tr →
        ∀ j, tr.countP (is_fork j) ≤ 1 ∧ (is_running s j → ¬ forked tr j)) ∧
      ((start_service_with_deps os fuel s target).1 = Outcome.returned 0 →
        start_service_with_deps os fuel (start_service_with_deps os fuel s target).2 target
          = (Outcome.returned 0, (start_service_with_deps os fuel s target).2)) := by
  intro fuel hfuel
  refine ⟨start_terminates os s hac target fuel hfuel, ?_, ?_⟩
  · intro tr htr j
    obtain ⟨tr0, hinv, _, _⟩ := start_inv os fuel s target
    have : tr = tr0 := List.append_cancel_left (htr.symm.trans hinv.trace_eq)
    subst this
    exact ⟨hinv.once j, hinv.fresh j⟩
  · intro h0
    obtain ⟨tr0, hinv, hok, _⟩ := start_inv os fuel s target
    obtain ⟨idx, hf, hr, hc⟩ := hok h0
    refine start_again os fuel s _ target hinv.cfg_eq.symm h0 ?_
    intro i hi
    rw [find_congr hinv.cfg_eq, hf] at hi
    cases hi
    exact ⟨hr, hc⟩

/-- C3, witness: the diamond with every fork succeeding, at budget 5.  D,
which both B and C require, is forked once. -/
theorem C3_no_double_start_witness :
    acyclic diamond ∧
    (start_service_with_deps os_ok 5 diamond "A").1 = Outcome.returned 0 ∧
    ((start_service_with_deps os_ok 5 diamond "A").2.trace).countP (is_fork 3) = 1 ∧
    (start_service_with_deps os_ok 5 diamond "A").1 ≠ Outcome.overflow ∧
    (∀ tr, (start_service_with_deps os_ok 5 diamond "A").2.trace = diamond.trace ++ tr →
      ∀ j, tr.countP (is_fork j) ≤ 1 ∧ (is_running diamond j → ¬ forked tr j)) ∧
    ((start_service_with_deps os_ok 5 diamond "A").1 = Outcome.returned 0 →
      start_service_with_deps os_ok 5 (start_service_with_deps os_ok 5 diamond "A").2 "A"
        = (Outcome.returned 0, (start_service_with_deps os_ok 5 diamond "A").2)) :=
  ⟨acyclic_of_rank_ok [2, 1, 1, 0] (by decide), by decide, by decide,
   C3_no_double_start os_ok diamond "A" (acyclic_of_rank_ok [2, 1, 1, 0] (by decide)) 5 (by decide)⟩

/-! ## C4: a cycle of hard dependencies -/

/-- A start that returns 0 has met no cycle: nothing the target reaches lies
on a cycle of `deps` edges. -/
theorem start_ok_acyclic (os : OS) : ∀ fuel s name idx,
    (start_service_with_deps os fuel s name).1 = Outcome.returned 0 →
    find_service_idx s name = some idx →
    ∀ k, Relation.ReflTransGen (depends_on s) idx k → ¬ Relation.TransGen (depends_on s) k k := by
  intro fuel
  induction fuel with
  | zero =>
    intro s name idx h0
    simp [start_service_with_deps] at h0
  | succ fuel ih =>
    intro s name idx h0 hf k hk hcyc
    rcases hc : start_deps (start_service_with_deps os fuel) (ext s idx).deps s with ⟨o, s1⟩
    have hev := start_deps_evidence (start_service_with_deps os fuel)
      (fun s d => start_cfg os fuel s d) (ext s idx).deps s s1
    have hloop : o = Outcome.returned 0 := by
      cases o with
      | returned rc =>
        by_cases hrc : rc = 0
        · rw [hrc]
        · simp [start_service_with_deps, hf, hc, hrc] at h0
      | overflow => simp [start_service_with_deps, hf, hc] at h0
      | child => simp [start_service_with_deps, hf, hc] at h0
      | exited st => simp [start_service_with_deps, hf, hc] at h0
    subst hloop
    -- every dependency edge out of the target leads to a node that meets no cycle
    have hdep : ∀ m, depends_on s idx m → ∀ k, Relation.ReflTransGen (depends_on s) m k →
        ¬ Relation.TransGen (depends_on s) k k := by
      rintro m ⟨d, hd, hfd⟩ k hk hcyc
      obtain ⟨s0, hs0, hcall⟩ := hev hc d hd
      refine ih s0 d m hcall (by rw [find_congr hs0]; exact hfd) k ?_ ?_
      · rw [depends_on_congr hs0]; exact hk
      · rw [depends_on_congr hs0]; exact hcyc
    rcases Relation.ReflTransGen.cases_head hk with heq | ⟨m, hm, hmk⟩
    · subst heq
      obtain ⟨m, hm, hmi⟩ := Relation.TransGen.head'_iff.1 hcyc
      exact hdep m hm idx hmi hcyc
    · exact hdep m hm k hmk hcyc

theorem cycle3_overflow (os : OS) (a b c : service_status_t) : ∀ fuel,
    start_service_with_deps os fuel (cycle3 a b c) "A" = (Outcome.overflow, cycle3 a b c) ∧
    start_service_with_deps os fuel (cycle3 a b c) "B" = (Outcome.overflow, cycle3 a b c) ∧
    start_service_with_deps os fuel (cycle3 a b c) "C" = (Outcome.overflow, cycle3 a b c) := by
  intro fuel
  induction fuel with
  | zero => exact ⟨rfl, rfl, rfl⟩
  | succ fuel ih =>
    obtain ⟨hA, hB, hC⟩ := ih
    have fA : find_service_idx (cycle3 a b c) "A" = some 0 := rfl
    have fB : find_service_idx (cycle3 a b c) "B" = some 1 := rfl
    have fC : find_service_idx (cycle3 a b c) "C" = some 2 := rfl
    have dA : (ext (cycle3 a b c) 0).deps = ["B"] := rfl
    have dB : (ext (cycle3 a b c) 1).deps = ["C"] := rfl
    have dC : (ext (cycle3 a b c) 2).deps = ["A"] := rfl
    refine ⟨?_, ?_, ?_⟩
    · simp [start_service_with_deps, fA, dA, start_deps, hB]
    · simp [start_service_with_deps, fB, dB, start_deps, hC]
    · simp [start_service_with_deps, fC, dC, start_deps, hA]

/-- C4, counterexample.  On the table A requires B, B requires C, C requires
A (all stopped), `start_service_with_deps("A")` returns at no recursion
budget: the recursion follows the cycle forever, so no failure result is ever
produced. -/
theorem C4_cycle_not_rejected :
    ¬ ∃ fuel rc, (start_service_with_deps os_ok fuel
        (cycle3 SERVICE_STOPPED SERVICE_STOPPED SERVICE_STOPPED) "A").1 = Outcome.returned rc := by
  rintro ⟨fuel, rc, h⟩
  rw [(cycle3_overflow os_ok SERVICE_STOPPED SERVICE_STOPPED SERVICE_STOPPED fuel).1] at h
  simp at h

/-- C4, amended.  There is no cycle detection.  When the target reaches a
cycle of `deps` edges the call never returns 0, at any recursion budget.  On
the table A requires B, B requires C, C requires A, whatever the statuses
and the operating system, the call on A, B or C runs out of every budget
(it does not return), and up to that point it has made no system call and
changed no record. -/
theorem C4_cycle_never_succeeds (os : OS) (s : State) (target : String) (idx k : Nat)
    (hf : find_service_idx s target = some idx)
    (hreach : Relation.ReflTransGen (depends_on s) idx k)
    (hcyc : Relation.TransGen (depends_on s) k k) :
    (∀ fuel, (start_service_with_deps os fuel s target).1 ≠ Outcome.returned 0) ∧
    (∀ a b c fuel,
      start_service_with_deps os fuel (cycle3 a b c) "A" = (Outcome.overflow, cycle3 a b c) ∧
      start_service_with_deps os fuel (cycle3 a b c) "B" = (Outcome.overflow, cycle3 a b c) ∧
      start_service_with_deps os fuel (cycle3 a b c) "C" = (Outcome.overflow, cycle3 a b c)) :=
  ⟨fun fuel h0 => start_ok_acyclic os fuel s target idx h0 hf k hreach hcyc,
   fun a b c fuel => cycle3_overflow os a b c fuel⟩

/-- C4, witness: the three-cycle, started at A, which lies on the cycle
A, B, C, A. -/
theorem C4_cycle_never_succeeds_witness :
    Relation.TransGen (depends_on (cycle3 SERVICE_STOPPED SERVICE_STOPPED SERVICE_STOPPED)) 0 0 ∧
    ∀ fuel, (start_service_with_deps os_ok fuel
      (cycle3 SERVICE_STOPPED SERVICE_STOPPED SERVICE_STOPPED) "A").1 ≠ Outcome.returned 0 :=
  have h01 : depends_on (cycle3 SERVICE_STOPPED SERVICE_STOPPED SERVICE_STOPPED) 0 1 :=
    ⟨"B", by decide, rfl⟩
  have h12 : depends_on (cycle3 SERVICE_STOPPED SERVICE_STOPPED SERVICE_STOPPED) 1 2 :=
    ⟨"C", by decide, rfl⟩
  have h20 : depends_on (cycle3 SERVICE_STOPPED SERVICE_STOPPED SERVICE_STOPPED) 2 0 :=
    ⟨"A", by decide, rfl⟩
  have hcyc := Relation.TransGen.tail (Relation.TransGen.tail (Relation.TransGen.single h01) h12) h20
  ⟨hcyc, (C4_cycle_never_succeeds os_ok (cycle3 SERVICE_STOPPED SERVICE_STOPPED SERVICE_STOPPED)
    "A" 0 0 rfl Relation.ReflTransGen.refl hcyc).1⟩

/-! ## C5: a failing dependency -/

theorem start_deps_append (call : State → String → Outcome × State) :
    ∀ pre rest s s1, start_deps call pre s = (Outcome.returned 0, s1) →
      start_deps call (pre ++ rest) s = start_deps call rest s1 := by
  intro pre
  induction pre with
  | nil =>
    intro rest s s1 h
    simp only [start_deps, Prod.mk.injEq, true_and] at h
    subst h
    rfl
  | cons d pre ih =>
    intro rest s s1 h
    rcases hc : call s d with ⟨o, s2⟩
    cases o with
    | returned rc =>
      by_cases hrc : rc = 0
      · subst hrc
        have h1 : start_deps call (d :: pre) s = start_deps call pre s2 := by
          simp [start_deps, hc]
        have h2 : start_deps call (d :: pre ++ rest) s = start_deps call (pre ++ rest) s2 := by
          simp [start_deps, hc]
        rw [h1] at h
        rw [h2]
        exact ih rest s2 s1 h
      · simp [start_deps, hc, hrc] at h
    | overflow => simp [start_deps, hc] at h
    | child => simp [start_deps, hc] at h
    | exited st => simp [start_deps, hc] at h

/-- C5.  Acyclic table, registered target whose dependency list is
`pre ++ d :: post`: if the dependencies `pre` start (the loop over them
returns with state `s1`) and the recursive start of `d` then returns a
non-zero code, `start_service_with_deps(target)` returns -1, makes no
`fork()` for the target, and leaves the target's records (status, pid and
all other fields) exactly as they were. -/
theorem C5_dependency_failure_aborts (os : OS) (fuel : Nat) (s s1 : State) (target d : String)
    (idx : Nat) (pre post : List String) (rc : Int)
    (hac : acyclic s)
    (hf : find_service_idx s target = some idx)
    (hdeps : (ext s idx).deps = pre ++ d :: post)
    (hpre : start_deps (start_service_with_deps os fuel) pre s = (Outcome.returned 0, s1))
    (hfail : (start_service_with_deps os fuel s1 d).1 = Outcome.returned rc)
    (hrc : rc ≠ 0) :
    (start_service_with_deps os (fuel + 1) s target).1 = Outcome.returned (-1) ∧
    (∀ tr, (start_service_with_deps os (fuel + 1) s target).2.trace = s.trace ++ tr →
      ¬ forked tr idx) ∧
    svc (start_service_with_deps os (fuel + 1) s target).2 idx = svc s idx ∧
    ext (start_service_with_deps os (fuel + 1) s target).2 idx = ext s idx := by
  rcases hcall : start_service_with_deps os fuel s1 d with ⟨o, s2⟩
  rw [hcall] at hfail
  simp only at hfail
  subst hfail
  have hloop : start_deps (start_service_with_deps os fuel) (ext s idx).deps s
      = (Outcome.returned (-1), s2) := by
    rw [hdeps, start_deps_append _ pre (d :: post) s s1 hpre]
    simp [start_deps, hcall, hrc]
  have hres : start_service_with_deps os (fuel + 1) s target = (Outcome.returned (-1), s2) := by
    simp [start_service_with_deps, hf, hloop]
  obtain ⟨tr0, hinv, _, hreach⟩ :=
    start_deps_inv (start_service_with_deps os fuel) (start_inv os fuel) (ext s idx).deps s
  rw [hloop] at hinv
  simp only at hinv
  have hnot : ¬ forked tr0 idx := by
    intro hfk
    obtain ⟨d1, hd1, i, hi, hij⟩ := hreach idx hfk
    exact hac idx (Relation.TransGen.head' ⟨d1, hd1, hi⟩ hij)
  rw [hres]
  refine ⟨rfl, ?_, svc_of_slot_eq (hinv.keep idx hnot), ext_of_slot_eq (hinv.keep idx hnot)⟩
  intro tr htr
  have : tr = tr0 := List.append_cancel_left (htr.symm.trans hinv.trace_eq)
  subst this
  exact hnot

/-- C5, witness: A requires B, both stopped, and `fork()` fails for B. -/
theorem C5_dependency_failure_aborts_witness :
    (start_service_with_deps os_fail 2 (chain2 SERVICE_STOPPED SERVICE_STOPPED) "A").1
      = Outcome.returned (-1) ∧
    (∀ tr, (start_service_with_deps os_fail 2 (chain2 SERVICE_STOPPED SERVICE_STOPPED) "A").2.trace
        = (chain2 SERVICE_STOPPED SERVICE_STOPPED).trace ++ tr → ¬ forked tr 0) ∧
    svc (start_service_with_deps os_fail 2 (chain2 SERVICE_STOPPED SERVICE_STOPPED) "A").2 0
      = svc (chain2 SERVICE_STOPPED SERVICE_STOPPED) 0 ∧
    ext (start_service_with_deps os_fail 2 (chain2 SERVICE_STOPPED SERVICE_STOPPED) "A").2 0
      = ext (chain2 SERVICE_STOPPED SERVICE_STOPPED) 0 :=
  C5_dependency_failure_aborts os_fail 1 (chain2 SERVICE_STOPPED SERVICE_STOPPED)
    (chain2 SERVICE_STOPPED SERVICE_STOPPED) "A" "B" 0 [] [] (-1)
    (acyclic_of_rank_ok [1, 0] (by decide)) rfl rfl rfl rfl (by decide)

/-! ## C6: a dependency whose status is FAILED -/

/-- C6, counterexample.  A requires B, A is STOPPED and B is FAILED; every
`fork()` succeeds.  `start_service_with_deps("A")` forks B, then forks A, and
returns 0: a FAILED dependency is started like a stopped one, and the target
is spawned. -/
theorem C6_failed_dependency_started :
    (svc (chain2 SERVICE_STOPPED SERVICE_FAILED) 1).status = SERVICE_FAILED ∧
    (start_service_with_deps os_ok 2 (chain2 SERVICE_STOPPED SERVICE_FAILED) "A").1
      = Outcome.returned 0 ∧
    (start_service_with_deps os_ok 2 (chain2 SERVICE_STOPPED SERVICE_FAILED) "A").2.trace
      = [Event.fork 1 100, Event.epoll_add 1, Event.fork 0 102, Event.epoll_add 0] := by
  decide

/-- C6, amended.  When a hard dependency of the target has status FAILED, the
target is forked only after a process has been spawned for that dependency
earlier in the same call; and when the call returns 0 the dependency is
RUNNING. -/
theorem C6_failed_dependency_first (os : OS) (fuel : Nat) (s : State) (target d : String)
    (idx j : Nat)
    (hf : find_service_idx s target = some idx)
    (hd : d ∈ (ext s idx).deps)
    (hj : find_service_idx s d = some j)
    (hfailed : (svc s j).status = SERVICE_FAILED) :
    (∀ tr, (start_service_with_deps os fuel s target).2.trace = s.trace ++ tr →
      ∀ pre p post, tr = pre ++ Event.fork idx p :: post → spawned pre j) ∧
    ((start_service_with_deps os fuel s target).1 = Outcome.returned 0 →
      is_running (start_service_with_deps os fuel s target).2 j) := by
  obtain ⟨tr0, hinv, hok, _⟩ := start_inv os fuel s target
  constructor
  · intro tr htr pre p post hsplit
    have : tr = tr0 := List.append_cancel_left (htr.symm.trans hinv.trace_eq)
    subst this
    obtain ⟨j1, hj1, hr⟩ := hinv.topo pre idx p post hsplit d hd
    rw [hj] at hj1
    cases hj1
    rcases hr with hr | hr
    · unfold is_running at hr
      rw [hfailed] at hr
      exact absurd hr (by decide)
    · exact hr
  · intro h0
    obtain ⟨i, hi, _, hc⟩ := hok h0
    rw [hf] at hi
    cases hi
    have hd1 : d ∈ (ext (start_service_with_deps os fuel s target).2 idx).deps := by
      rw [deps_congr hinv.cfg_eq]; exact hd
    obtain ⟨j1, hj1, hr⟩ := hc idx Relation.ReflTransGen.refl d hd1
    rw [find_congr hinv.cfg_eq, hj] at hj1
    cases hj1
    exact hr

/-- C6, witness: A requires B, B is FAILED, every fork succeeds. -/
theorem C6_failed_dependency_first_witness :
    (∀ tr, (start_service_with_deps os_ok 2 (chain2 SERVICE_STOPPED SERVICE_FAILED) "A").2.trace
        = (chain2 SERVICE_STOPPED SERVICE_FAILED).trace ++ tr →
      ∀ pre p post, tr = pre ++ Event.fork 0 p :: post → spawned pre 1) ∧
    ((start_service_with_deps os_ok 2 (chain2 SERVICE_STOPPED SERVICE_FAILED) "A").1
        = Outcome.returned 0 →
      is_running (start_service_with_deps os_ok 2 (chain2 SERVICE_STOPPED SERVICE_FAILED) "A").2 1) :=
  C6_failed_dependency_first os_ok 2 (chain2 SERVICE_STOPPED SERVICE_FAILED) "A" "B" 0 1
    rfl (by decide) rfl rfl

/-! ## C7: a dependency name that is not registered -/

theorem start_deps_outcome (call : State → String → Outcome × State)
    (h : ∀ s d, (call s d).1 = Outcome.overflow ∨ ∃ rc, (call s d).1 = Outcome.returned rc) :
    ∀ ds s, (start_deps call ds s).1 = Outcome.overflow ∨
      ∃ rc, (start_deps call ds s).1 = Outcome.returned rc := by
  intro ds
  induction ds with
  | nil => intro s; exact Or.inr ⟨0, rfl⟩
  | cons d ds ih =>
    intro s
    have h1 := h s d
    rcases hc : call s d with ⟨o, s1⟩
    rw [hc] at h1
    simp only at h1
    cases o with
    | returned rc =>
      by_cases hrc : rc = 0
      · subst hrc
        have hstep : start_deps call (d :: ds) s = start_deps call ds s1 := by
          simp [start_deps, hc]
        rw [hstep]
        exact ih s1
      · exact Or.inr ⟨-1, by simp [start_deps, hc, hrc]⟩
    | overflow => exact Or.inl (by simp [start_deps, hc])
    | child =>
      rcases h1 with h1 | ⟨rc, h1⟩
      · exact absurd h1 (by simp)
      · exact absurd h1 (by simp)
    | exited st =>
      rcases h1 with h1 | ⟨rc, h1⟩
      · exact absurd h1 (by simp)
      · exact absurd h1 (by simp)

/-- In the supervisor a start returns or runs out of budget; it never ends
the process. -/
theorem start_outcome (os : OS) (hsup : supervisor os) : ∀ fuel s name,
    (start_service_with_deps os fuel s name).1 = Outcome.overflow ∨
      ∃ rc, (start_service_with_deps os fuel s name).1 = Outcome.returned rc := by
  intro fuel
  induction fuel with
  | zero => intro s name; exact Or.inl rfl
  | succ fuel ih =>
    intro s name
    cases hf : find_service_idx s name with
    | none => exact Or.inr ⟨-1, by simp [start_service_with_deps, hf]⟩
    | some idx =>
      have h1 := start_deps_outcome (start_service_with_deps os fuel) ih (ext s idx).deps s
      rcases hc : start_deps (start_service_with_deps os fuel) (ext s idx).deps s with ⟨o, s1⟩
      rw [hc] at h1
      simp only at h1
      cases o with
      | returned rc =>
        by_cases hrc : rc = 0
        · subst hrc
          have hst : start_service_with_deps os (fuel + 1) s name = start_spawn os s1 idx := by
            simp [start_service_with_deps, hf, hc]
          rw [hst]
          right
          unfold start_spawn
          split
          · exact ⟨0, rfl⟩
          · simp only [hsup s1.tick, if_false]
            split
            · exact ⟨0, rfl⟩
            · exact ⟨-1, rfl⟩
        · exact Or.inr ⟨-1, by simp [start_service_with_deps, hf, hc, hrc]⟩
      | overflow => exact Or.inl (by simp [start_service_with_deps, hf, hc])
      | child =>
        rcases h1 with h1 | ⟨rc, h1⟩
        · exact absurd h1 (by simp)
        · exact absurd h1 (by simp)
      | exited st =>
        rcases h1 with h1 | ⟨rc, h1⟩
        · exact absurd h1 (by simp)
        · exact absurd h1 (by simp)

/-- C7, counterexample.  A requires B and X, B is registered and stopped, X is
not registered; every `fork()` succeeds.  `start_service_with_deps("A")`
returns -1, but by then it has started B: B's status went from STOPPED to
RUNNING and its pid from 0 to 100. -/
theorem C7_state_changed_before_missing :
    find_service_idx missing_dep "X" = none ∧
    (svc missing_dep 1).status = SERVICE_STOPPED ∧ (svc missing_dep 1).pid = 0 ∧
    (start_service_with_deps os_ok 2 missing_dep "A").1 = Outcome.returned (-1) ∧
    (svc (start_service_with_deps os_ok 2 missing_dep "A").2 1).status = SERVICE_RUNNING ∧
    (svc (start_service_with_deps os_ok 2 missing_dep "A").2 1).pid = 100 := by
  decide

/-- C7, amended.  Acyclic table, supervisor process, registered target that
reaches (through zero or more `deps` edges) a service one of whose dependency
names is not registered.  With a recursion budget above `service_count`,
`start_service_with_deps(target)` returns -1; no `fork()` is made for the
target and the target's records are unchanged; and every service for which
no `fork()` was made has its records unchanged. -/
theorem C7_missing_dependency_fails (os : OS) (s : State) (target d : String) (idx k : Nat)
    (hsup : supervisor os) (hac : acyclic s)
    (hf : find_service_idx s target = some idx)
    (hreach : Relation.ReflTransGen (depends_on s) idx k)
    (hd : d ∈ (ext s k).deps)
    (hmissing : find_service_idx s d = none) :
    ∀ fuel, service_count s < fuel →
      (start_service_with_deps os fuel s target).1 = Outcome.returned (-1) ∧
      (∀ tr, (start_service_with_deps os fuel s target).2.trace = s.trace ++ tr →
        ¬ forked tr idx ∧
        ∀ j, ¬ forked tr j →
          svc (start_service_with_deps os fuel s target).2 j = svc s j ∧
          ext (start_service_with_deps os fuel s target).2 j = ext s j) ∧
      svc (start_service_with_deps os fuel s target).2 idx = svc s idx ∧
      ext (start_service_with_deps os fuel s target).2 idx = ext s idx := by
  intro fuel hfuel
  obtain ⟨tr0, hinv, hok, _⟩ := start_inv os fuel s target
  -- nothing that reaches the missing name is ever closed under dependencies
  have hopen : ∀ s1, cfg s1 = cfg s → ¬ dep_closed s1 idx := by
    intro s1 hs1 hcl
    have hk : Relation.ReflTransGen (depends_on s1) idx k := by
      rw [depends_on_congr hs1]; exact hreach
    obtain ⟨i, hi, _⟩ := hcl k hk d (by rw [deps_congr hs1]; exact hd)
    rw [find_congr hs1, hmissing] at hi
    cases hi
  have hnot : ¬ forked tr0 idx := fun hfk => hopen _ hinv.cfg_eq (hinv.closed idx hfk)
  have hret : (start_service_with_deps os fuel s target).1 = Outcome.returned (-1) := by
    rcases start_outcome os hsup fuel s target with h | ⟨rc, h⟩
    · exact absurd h (start_terminates os s hac target fuel hfuel)
    · rcases hinv.rc rc h with h0 | h1
      · subst h0
        obtain ⟨i, hi, _, hc⟩ := hok h
        rw [hf] at hi
        cases hi
        exact absurd hc (hopen _ hinv.cfg_eq)
      · rw [h, h1]
  refine ⟨hret, ?_, svc_of_slot_eq (hinv.keep idx hnot), ext_of_slot_eq (hinv.keep idx hnot)⟩
  intro tr htr
  have : tr = tr0 := List.append_cancel_left (htr.symm.trans hinv.trace_eq)
  subst this
  exact ⟨hnot, fun j hj => ⟨svc_of_slot_eq (hinv.keep j hj), ext_of_slot_eq (hinv.keep j hj)⟩⟩

/-- C7, witness: A requires B and the unregistered X, every fork succeeds,
budget 3. -/
theorem C7_missing_dependency_fails_witness :
    supervisor os_ok ∧ acyclic missing_dep ∧
    (start_service_with_deps os_ok 3 missing_dep "A").1 = Outcome.returned (-1) ∧
    (∀ tr, (start_service_with_deps os_ok 3 missing_dep "A").2.trace = missing_dep.trace ++ tr →
      ¬ forked tr 0 ∧
      ∀ j, ¬ forked tr j →
        svc (start_service_with_deps os_ok 3 missing_dep "A").2 j = svc missing_dep j ∧
        ext (start_service_with_deps os_ok 3 missing_dep "A").2 j = ext missing_dep j) ∧
    svc (start_service_with_deps os_ok 3 missing_dep "A").2 0 = svc missing_dep 0 ∧
    ext (start_service_with_deps os_ok 3 missing_dep "A").2 0 = ext missing_dep 0 :=
  have hsup : supervisor os_ok := fun n => by
    show (100 : Int) + (n : Int) ≠ 0
    omega
  ⟨hsup, acyclic_of_rank_ok [1, 0] (by decide),
   C7_missing_dependency_fails os_ok missing_dep "A" "X" 0 0 hsup
     (acyclic_of_rank_ok [1, 0] (by decide)) rfl Relation.ReflTransGen.refl (by decide) rfl
     3 (by decide)⟩

/-! ## C8: a name that is not registered -/

/-- C8.  When `find_service_idx` does not resolve the name, both
`start_service_with_deps` and `stop_service_with_deps` return -1 and leave
the whole state as it is: no record changes and no system call is made (no
fork, no signal), and no dependency or dependent is visited. -/
theorem C8_unknown_name_no_effect (os : OS) (fuel : Nat) (s : State) (name : String)
    (h : find_service_idx s name = none) :
    start_service_with_deps os (fuel + 1) s name = (Outcome.returned (-1), s) ∧
    stop_service_with_deps os (fuel + 1) s name = (Outcome.returned (-1), s) := by
  constructor
  · simp [start_service_with_deps, h]
  · simp [stop_service_with_deps, h]

/-- C8, witness: the name Z in the table of A and B. -/
theorem C8_unknown_name_no_effect_witness :
    start_service_with_deps os_ok 1 (chain2 SERVICE_RUNNING SERVICE_RUNNING) "Z"
      = (Outcome.returned (-1), chain2 SERVICE_RUNNING SERVICE_RUNNING) ∧
    stop_service_with_deps os_ok 1 (chain2 SERVICE_RUNNING SERVICE_RUNNING) "Z"
      = (Outcome.returned (-1), chain2 SERVICE_RUNNING SERVICE_RUNNING) :=
  C8_unknown_name_no_effect os_ok 0 (chain2 SERVICE_RUNNING SERVICE_RUNNING) "Z" rfl

/-! ## C9: the state guard of a start -/

theorem start_spawn_trace (os : OS) (s : State) (i : Nat) (h : ¬ is_running s i) :
    ∃ rest, (start_spawn os s i).2.trace = s.trace ++ Event.fork i (os.fork s.tick) :: rest := by
  have h1 : ¬ (svc s i).status = SERVICE_RUNNING := h
  unfold start_spawn
  simp only [h1, if_false]
  split
  · exact ⟨[], by simp⟩
  · split
    · exact ⟨[Event.epoll_add i], by simp⟩
    · exact ⟨[], by simp⟩

/-- C9, counterexample.  One service A with status STOPPING and pid 7, no
dependency; every `fork()` succeeds.  `start_service_with_deps("A")` forks a
new process, sets the status to RUNNING and the pid to 100, and returns 0:
there is no InvalidState result and the start is not refused. -/
theorem C9_start_from_stopping_spawns :
    (start_service_with_deps os_ok 1 (single SERVICE_STOPPING 7) "A").1 = Outcome.returned 0 ∧
    (start_service_with_deps os_ok 1 (single SERVICE_STOPPING 7) "A").2.trace
      = [Event.fork 0 100, Event.epoll_add 0] ∧
    (svc (start_service_with_deps os_ok 1 (single SERVICE_STOPPING 7) "A").2 0).status
      = SERVICE_RUNNING ∧
    (svc (start_service_with_deps os_ok 1 (single SERVICE_STOPPING 7) "A").2 0).pid = 100 := by
  decide

/-- C9, amended.  The only state guard of a start is RUNNING.  For a
registered target whose status is RUNNING, no `fork()` is made for it and its
records are unchanged, and once the loop over its dependencies is through
the call returns 0 (success, not an InvalidState failure).  For a registered
target of an acyclic table whose status is anything else (STOPPED, FAILED,
STARTING, RELOADING, STOPPING, RESTARTING, MAINTENANCE), once the loop over
its dependencies is through, `fork()` is called for the target. -/
theorem C9_only_running_guards_start (os : OS) (fuel : Nat) (s : State) (target : String)
    (idx : Nat) (hf : find_service_idx s target = some idx) :
    (is_running s idx →
      (∀ tr, (start_service_with_deps os (fuel + 1) s target).2.trace = s.trace ++ tr →
        ¬ forked tr idx) ∧
      svc (start_service_with_deps os (fuel + 1) s target).2 idx = svc s idx ∧
      ext (start_service_with_deps os (fuel + 1) s target).2 idx = ext s idx ∧
      (∀ s1, start_deps (start_service_with_deps os fuel) (ext s idx).deps s
          = (Outcome.returned 0, s1) →
        start_service_with_deps os (fuel + 1) s target = (Outcome.returned 0, s1))) ∧
    (acyclic s → ¬ is_running s idx →
      ∀ s1, start_deps (start_service_with_deps os fuel) (ext s idx).deps s
          = (Outcome.returned 0, s1) →
        ∀ tr, (start_service_with_deps os (fuel + 1) s target).2.trace = s.trace ++ tr →
          forked tr idx) := by
  obtain ⟨t1, hinv1, _, hreach1⟩ :=
    start_deps_inv (start_service_with_deps os fuel) (start_inv os fuel) (ext s idx).deps s
  constructor
  · intro hrun
    obtain ⟨tr0, hinv, _, _⟩ := start_inv os (fuel + 1) s target
    have hnot : ¬ forked tr0 idx := hinv.fresh idx hrun
    refine ⟨?_, svc_of_slot_eq (hinv.keep idx hnot), ext_of_slot_eq (hinv.keep idx hnot), ?_⟩
    · intro tr htr
      have : tr = tr0 := List.append_cancel_left (htr.symm.trans hinv.trace_eq)
      subst this
      exact hnot
    · intro s1 hloop
      rw [hloop] at hinv1
      have hr1 : (svc s1 idx).status = SERVICE_RUNNING := hinv1.running_mono idx hrun
      simp [start_service_with_deps, hf, hloop, start_spawn, hr1]
  · intro hac hnrun s1 hloop tr htr
    rw [hloop] at hinv1
    simp only at hinv1
    have hn1 : ¬ is_running s1 idx := by
      intro hr
      rcases (hinv1.run_iff idx).1 hr with h | h
      · exact hnrun h
      · obtain ⟨d1, hd1, i, hi, hij⟩ := hreach1 idx (spawned_forked h)
        exact hac idx (Relation.TransGen.head' ⟨d1, hd1, hi⟩ hij)
    have hst : start_service_with_deps os (fuel + 1) s target = start_spawn os s1 idx := by
      simp [start_service_with_deps, hf, hloop]
    obtain ⟨rest, hrest⟩ := start_spawn_trace os s1 idx hn1
    rw [hst, hrest, hinv1.trace_eq, List.append_assoc] at htr
    have : tr = t1 ++ Event.fork idx (os.fork s1.tick) :: rest :=
      (List.append_cancel_left htr).symm
    subst this
    exact ⟨os.fork s1.tick, by simp⟩

/-- C9, witness: a running service A without dependency. -/
theorem C9_only_running_guards_start_witness :
    find_service_idx (single SERVICE_RUNNING 7) "A" = some 0 ∧
    (is_running (single SERVICE_RUNNING 7) 0 →
      (∀ tr, (start_service_with_deps os_ok (0 + 1) (single SERVICE_RUNNING 7) "A").2.trace
          = (single SERVICE_RUNNING 7).trace ++ tr → ¬ forked tr 0) ∧
      svc (start_service_with_deps os_ok (0 + 1) (single SERVICE_RUNNING 7) "A").2 0
        = svc (single SERVICE_RUNNING 7) 0 ∧
      ext (start_service_with_deps os_ok (0 + 1) (single SERVICE_RUNNING 7) "A").2 0
        = ext (single SERVICE_RUNNING 7) 0 ∧
      (∀ s1, start_deps (start_service_with_deps os_ok 0) (ext (single SERVICE_RUNNING 7) 0).deps
            (single SERVICE_RUNNING 7) = (Outcome.returned 0, s1) →
        start_service_with_deps os_ok (0 + 1) (single SERVICE_RUNNING 7) "A"
          = (Outcome.returned 0, s1))) :=
  ⟨rfl, (C9_only_running_guards_start os_ok 0 (single SERVICE_RUNNING 7) "A" 0 rfl).1⟩

/-! ## C10: the state guard of a stop -/

/-- C10, counterexample.  One service A with status FAILED and pid 55, no
dependent; signal delivery succeeds.  `stop_service_with_deps("A")` sends
SIGTERM to pid 55, waits for it, sets the status to STOPPED and returns 0:
there is no InvalidState result and the stop is not refused. -/
theorem C10_stop_from_failed_signals :
    (stop_service_with_deps os_ok 1 (single SERVICE_FAILED 55) "A").1 = Outcome.returned 0 ∧
    (stop_service_with_deps os_ok 1 (single SERVICE_FAILED 55) "A").2.trace
      = [Event.kill 0 55 SIGTERM 0, Event.alarm 90, Event.waitpid 0 55 0, Event.alarm 0,
         Event.epoll_del 0] ∧
    (svc (stop_service_with_deps os_ok 1 (single SERVICE_FAILED 55) "A").2 0).status
      = SERVICE_STOPPED := by
  decide

/-- C10, amended.  The only state guard of a stop is STOPPED.  Let `s1` be
the state once the stops of the dependents are through.  If the target is
STOPPED in `s1` the call returns 0 and does nothing more.  From every other
status (RUNNING, STARTING, RELOADING, and also FAILED, STOPPING, RESTARTING,
MAINTENANCE) SIGTERM is sent to the recorded pid: when it is delivered the
status becomes STOPPED and the call returns 0; when it is not, the call
returns -1 and the target's record is as in `s1`. -/
theorem C10_only_stopped_guards_stop (os : OS) (fuel : Nat) (s s1 : State) (target : String)
    (idx : Nat) (r : Int)
    (hf : find_service_idx s target = some idx)
    (hloop : stop_dependents (stop_service_with_deps os fuel) (dependents s target) s
      = (Outcome.returned r, s1)) :
    ((svc s1 idx).status = SERVICE_STOPPED →
      stop_service_with_deps os (fuel + 1) s target = (Outcome.returned 0, s1)) ∧
    ((svc s1 idx).status ≠ SERVICE_STOPPED →
      (∃ rest, (stop_service_with_deps os (fuel + 1) s target).2.trace = s1.trace ++
        Event.kill idx (svc s1 idx).pid SIGTERM (os.kill s1.tick (svc s1 idx).pid SIGTERM) :: rest) ∧
      (os.kill s1.tick (svc s1 idx).pid SIGTERM = 0 →
        (stop_service_with_deps os (fuel + 1) s target).1 = Outcome.returned 0 ∧
        (svc (stop_service_with_deps os (fuel + 1) s target).2 idx).status = SERVICE_STOPPED) ∧
      (os.kill s1.tick (svc s1 idx).pid SIGTERM ≠ 0 →
        (stop_service_with_deps os (fuel + 1) s target).1 = Outcome.returned (-1) ∧
        svc (stop_service_with_deps os (fuel + 1) s target).2 idx = svc s1 idx)) := by
  have hst : stop_service_with_deps os (fuel + 1) s target = stop_signal os s1 idx := by
    simp [stop_service_with_deps, hf, hloop]
  have hcfg := stop_dependents_rel (fun a b => cfg b = cfg a) (fun _ _ _ h1 h2 => h2.trans h1)
    (stop_service_with_deps os fuel) (fun s d => stop_cfg os fuel s d) (fun _ => rfl)
    (dependents s target) s
  rw [hloop] at hcfg
  have hlt : idx < s1.table.length := by
    rw [length_of_cfg hcfg]; exact find_lt hf
  rw [hst]
  constructor
  · intro hs
    simp [stop_signal, hs]
  · intro hs
    refine ⟨?_, ?_, ?_⟩
    · by_cases hrc : os.kill s1.tick (svc s1 idx).pid SIGTERM = 0
      · refine ⟨[Event.alarm (Int.tdiv (ext s1 idx).timeout_stop_usec 1000000),
          Event.waitpid idx (svc s1 idx).pid (os.waitpid (s1.tick + 1 + 1) (svc s1 idx).pid),
          Event.alarm 0, Event.epoll_del idx], ?_⟩
        simp [stop_signal, hs, hrc]
      · exact ⟨[], by simp [stop_signal, hs, hrc]⟩
    · intro hrc
      have h0 : (stop_signal os s1 idx).1 = Outcome.returned 0 := by
        simp [stop_signal, hs, hrc]
      exact ⟨h0, stop_signal_ok os s1 idx hlt h0⟩
    · intro hrc
      simp [stop_signal, hs, hrc]

/-- C10, witness: a FAILED service A without dependent. -/
theorem C10_only_stopped_guards_stop_witness :
    find_service_idx (single SERVICE_FAILED 55) "A" = some 0 ∧
    ((svc (single SERVICE_FAILED 55) 0).status ≠ SERVICE_STOPPED →
      (∃ rest, (stop_service_with_deps os_ok (0 + 1) (single SERVICE_FAILED 55) "A").2.trace
        = (single SERVICE_FAILED 55).trace ++
          Event.kill 0 (svc (single SERVICE_FAILED 55) 0).pid SIGTERM
            (os_ok.kill (single SERVICE_FAILED 55).tick
              (svc (single SERVICE_FAILED 55) 0).pid SIGTERM) :: rest) ∧
      (os_ok.kill (single SERVICE_FAILED 55).tick (svc (single SERVICE_FAILED 55) 0).pid SIGTERM = 0 →
        (stop_service_with_deps os_ok (0 + 1) (single SERVICE_FAILED 55) "A").1
          = Outcome.returned 0 ∧
        (svc (stop_service_with_deps os_ok (0 + 1) (single SERVICE_FAILED 55) "A").2 0).status
          = SERVICE_STOPPED) ∧
      (os_ok.kill (single SERVICE_FAILED 55).tick (svc (single SERVICE_FAILED 55) 0).pid SIGTERM ≠ 0 →
        (stop_service_with_deps os_ok (0 + 1) (single SERVICE_FAILED 55) "A").1
          = Outcome.returned (-1) ∧
        svc (stop_service_with_deps os_ok (0 + 1) (single SERVICE_FAILED 55) "A").2 0
          = svc (single SERVICE_FAILED 55) 0)) :=
  ⟨rfl, (C10_only_stopped_guards_stop os_ok 0 (single SERVICE_FAILED 55)
    (single SERVICE_FAILED 55) "A" 0 0 rfl rfl).2⟩

/-! ## Names, dependents and the relation between service names -/

theorem requires_cfg (s : State) (a b : String) :
    requires s a b ↔ ∃ c ∈ cfg s, c.1 = a ∧ b ∈ c.2 := by
  simp only [requires, cfg, List.mem_map]
  constructor
  · rintro ⟨r, hr, ha, hb⟩
    exact ⟨_, ⟨r, hr, rfl⟩, ha, hb⟩
  · rintro ⟨c, ⟨r, hr, rfl⟩, ha, hb⟩
    exact ⟨r, hr, ha, hb⟩

theorem requires_congr {s s' : State} (h : cfg s' = cfg s) : requires s' = requires s := by
  funext a b
  simp only [requires_cfg, h]

theorem mem_dependents (s : State) (m n : String) : m ∈ dependents s n ↔ requires s m n := by
  simp only [dependents, requires, List.mem_flatMap, List.mem_map, List.mem_filter,
    decide_eq_true_eq]
  constructor
  · rintro ⟨r, hr, d, ⟨hd, rfl⟩, rfl⟩
    exact ⟨r, hr, rfl, hd⟩
  · rintro ⟨r, hr, rfl, hd⟩
    exact ⟨r, hr, n, ⟨hd, rfl⟩, rfl⟩

theorem find_of_mem_names {s : State} {a : String} (h : a ∈ names s) :
    ∃ i, find_service_idx s a = some i := by
  refine ⟨(names s).indexOf a, ?_⟩
  simp [find_service_idx, List.indexOf_lt_length.2 h]

theorem find_name {s : State} {a : String} {i : Nat} (h : find_service_idx s a = some i) :
    (svc s i).name = a := by
  have hlt := find_lt h
  unfold find_service_idx at h
  split at h
  · rename_i hlt0
    simp only [Option.some.injEq] at h
    have h2 : (names s)[i]? = some a := by
      rw [← h, List.getElem?_eq_getElem hlt0]
      simp
    rw [names, List.getElem?_map, slot_eta s i hlt] at h2
    simpa using h2
  · exact absurd h (by simp)

theorem requires_find {s : State} {a b : String} (h : requires s a b) :
    ∃ i, find_service_idx s a = some i := by
  obtain ⟨r, hr, ha, _⟩ := h
  apply find_of_mem_names
  simp only [names, List.mem_map]
  exact ⟨r, hr, ha⟩

theorem depends_on_requires {s : State} {i j : Nat} (h : depends_on s i j) :
    requires s (svc s i).name (svc s j).name := by
  obtain ⟨d, hd, hf⟩ := h
  rw [find_name hf]
  by_cases hi : i < s.table.length
  · refine ⟨(svc s i, ext s i), ?_, rfl, hd⟩
    have h1 := slot_eta s i hi
    rw [List.getElem?_eq_getElem hi, Option.some.injEq] at h1
    rw [← h1]
    exact List.getElem_mem hi
  · have : (ext s i).deps = [] := by
      simp [ext, List.getElem?_eq_none (Nat.le_of_not_lt hi), extra_zero]
    rw [this] at hd
    simp at hd

/-- Acyclicity between names implies acyclicity between the records that
`find_service_idx` reaches. -/
theorem acyclic_of_names_acyclic {s : State} (h : names_acyclic s) : acyclic s := by
  intro i hi
  exact h (svc s i).name
    (Relation.TransGen.lift (fun k => (svc s k).name) (fun _ _ hab => depends_on_requires hab) hi)

/-! ## The invariant of a stop -/

theorem name_eq_cfg (s : State) (j : Nat) :
    (svc s j).name = (((cfg s)[j]?).map Prod.fst).getD "" := by
  unfold svc cfg
  rw [List.getElem?_map]
  cases s.table[j]? <;> simp [service_zero]

theorem name_congr {s s' : State} (h : cfg s' = cfg s) (j : Nat) :
    (svc s' j).name = (svc s j).name := by
  simp only [name_eq_cfg, h]

theorem killed_append {t1 t2 : List Event} {j : Nat} :
    killed (t1 ++ t2) j ↔ killed t1 j ∨ killed t2 j := by
  simp only [killed, List.mem_append]
  constructor
  · rintro ⟨p, sg, r, h | h⟩
    · exact Or.inl ⟨p, sg, r, h⟩
    · exact Or.inr ⟨p, sg, r, h⟩
  · rintro (⟨p, sg, r, h⟩ | ⟨p, sg, r, h⟩)
    · exact ⟨p, sg, r, Or.inl h⟩
    · exact ⟨p, sg, r, Or.inr h⟩

theorem reaped_append {t1 t2 : List Event} {j : Nat} :
    reaped (t1 ++ t2) j ↔ reaped t1 j ∨ reaped t2 j := by
  simp only [reaped, List.mem_append]
  constructor
  · rintro ⟨p, st, h | h⟩
    · exact Or.inl ⟨p, st, h⟩
    · exact Or.inr ⟨p, st, h⟩
  · rintro (⟨p, st, h⟩ | ⟨p, st, h⟩)
    · exact ⟨p, st, Or.inl h⟩
    · exact ⟨p, st, Or.inr h⟩

theorem slot_stop_reap_ne (os : OS) (s : State) (i j : Nat) (pid : Int) (h : j ≠ i) :
    (stop_reap os s i pid).table[j]? = s.table[j]? := by
  unfold stop_reap mark_stopped
  simp only [table_syscall]
  rw [slot_set_slot_ne _ _ _ _ _ (Ne.symm h)]
  simp

theorem dependents_stopped_mono {s s' : State} (hc : cfg s' = cfg s)
    (hr : ∀ j, is_stopped s j → is_stopped s' j) {n : String} (h : dependents_stopped s n) :
    dependents_stopped s' n := by
  intro a ha
  rw [requires_congr hc] at ha
  obtain ⟨i, hi, hsi⟩ := h a ha
  exact ⟨i, by rw [find_congr hc]; exact hi, hr i hsi⟩

theorem StopInv.idle (os : OS) (s : State) (o : Outcome)
    (h : o = Outcome.overflow ∨ o = Outcome.returned 0 ∨ o = Outcome.returned (-1)) :
    StopInv os s o s [] where
  trace_eq := by simp
  cfg_eq := rfl
  keep := fun _ _ => rfl
  fresh := fun _ _ hk => by obtain ⟨p, sg, r, hp⟩ := hk; simp at hp
  stop_iff := fun j => by simp [reaped]
  same_or_stopped := fun _ => Or.inl rfl
  sigterm := fun _ _ _ _ hp => by simp at hp
  events := fun _ he => by simp at he
  reap_kill := fun pre j pid status post h => by simp at h
  order := fun _ pre j pid sig rc post h => by simp at h
  outcome := h

theorem StopInv.stopped_mono {os : OS} {s s1 : State} {o : Outcome} {tr : List Event}
    (h : StopInv os s o s1 tr) (j : Nat) (hj : is_stopped s j) : is_stopped s1 j :=
  (h.stop_iff j).2 (Or.inl hj)

theorem StopInv.relax {os : OS} {s s1 : State} {o o1 : Outcome} {tr : List Event}
    (h : StopInv os s o s1 tr)
    (ho : o1 = Outcome.overflow ∨ o1 = Outcome.returned 0 ∨ o1 = Outcome.returned (-1)) :
    StopInv os s o1 s1 tr :=
  { trace_eq := h.trace_eq, cfg_eq := h.cfg_eq, keep := h.keep, fresh := h.fresh,
    stop_iff := h.stop_iff, same_or_stopped := h.same_or_stopped, sigterm := h.sigterm,
    events := h.events,
    reap_kill := h.reap_kill, order := h.order, outcome := ho }

theorem StopInv.seq {os : OS} {s s1 s2 : State} {o1 o : Outcome} {t1 t2 : List Event}
    (h1 : StopInv os s o1 s1 t1) (h2 : StopInv os s1 o s2 t2) :
    StopInv os s o s2 (t1 ++ t2) where
  trace_eq := by rw [h2.trace_eq, h1.trace_eq, List.append_assoc]
  cfg_eq := h2.cfg_eq.trans h1.cfg_eq
  keep := fun j hj => by
    rw [killed_append, not_or] at hj
    rw [h2.keep j hj.2, h1.keep j hj.1]
  fresh := fun j hj hk => by
    rcases killed_append.1 hk with hk | hk
    · exact h1.fresh j hj hk
    · exact h2.fresh j (h1.stopped_mono j hj) hk
  stop_iff := fun j => by
    rw [h2.stop_iff, h1.stop_iff, reaped_append, or_assoc]
  same_or_stopped := fun j => by
    rcases h2.same_or_stopped j with h | h
    · rcases h1.same_or_stopped j with h0 | h0
      · exact Or.inl (h.trans h0)
      · right
        unfold is_stopped at h0 ⊢
        rw [h, h0]
    · exact Or.inr h
  sigterm := fun j pid sig rc hm => by
    rcases List.mem_append.1 hm with hm | hm
    · exact h1.sigterm j pid sig rc hm
    · exact h2.sigterm j pid sig rc hm
  events := fun e he => by
    rcases List.mem_append.1 he with he | he
    · exact h1.events e he
    · exact h2.events e he
  reap_kill := fun pre j pid status post heq => by
    rcases List.append_eq_append_iff.1 heq with ⟨c, hc, hb⟩ | ⟨c, hc, hd2⟩
    · subst hc
      exact List.mem_append_right _ (h2.reap_kill c j pid status post hb)
    · cases c with
      | nil =>
        simp only [List.append_nil, List.nil_append] at hc hd2
        subst hc
        exact absurd (h2.reap_kill [] j pid status post hd2.symm) (by simp)
      | cons e c =>
        simp only [List.cons_append, List.cons.injEq] at hd2
        obtain ⟨he, hpost⟩ := hd2
        subst he
        exact h1.reap_kill pre j pid status c hc
  order := fun hdel pre j pid sig rc post heq a ha => by
    have lift : ∀ pre2, (∃ i, find_service_idx s1 a = some i ∧ (is_stopped s1 i ∨ reaped pre2 i)) →
        ∃ i, find_service_idx s a = some i ∧ (is_stopped s i ∨ reaped (t1 ++ pre2) i) := by
      rintro pre2 ⟨i, hi, hr⟩
      refine ⟨i, by rw [← find_congr h1.cfg_eq]; exact hi, ?_⟩
      rcases hr with hr | hr
      · rcases (h1.stop_iff i).1 hr with hr | hr
        · exact Or.inl hr
        · exact Or.inr (reaped_append.2 (Or.inl hr))
      · exact Or.inr (reaped_append.2 (Or.inr hr))
    have ha1 : Relation.TransGen (requires s1) a (svc s1 j).name := by
      rw [requires_congr h1.cfg_eq, name_congr h1.cfg_eq]
      exact ha
    rcases List.append_eq_append_iff.1 heq with ⟨c, hc, hb⟩ | ⟨c, hc, hd2⟩
    · subst hc
      exact lift c (h2.order hdel c j pid sig rc post hb a ha1)
    · cases c with
      | nil =>
        simp only [List.append_nil, List.nil_append] at hc hd2
        subst hc
        simpa using lift [] (h2.order hdel [] j pid sig rc post hd2.symm a ha1)
      | cons e c =>
        simp only [List.cons_append, List.cons.injEq] at hd2
        obtain ⟨he, hpost⟩ := hd2
        subst he
        exact h1.order hdel pre j pid sig rc c hc a ha
  outcome := h2.outcome

/-- One `kill()` for `services[idx]`. -/
theorem StopInv.of_kill {os : OS} {s s1 : State} {o : Outcome} {idx : Nat} {pid rc : Int}
    {rest : List Event}
    (htr : s1.trace = s.trace ++ Event.kill idx pid SIGTERM rc :: rest)
    (hcfg : cfg s1 = cfg s)
    (hkeep : ∀ j, j ≠ idx → s1.table[j]? = s.table[j]?)
    (hnot : ¬ is_stopped s idx)
    (hiff : is_stopped s1 idx ↔ reaped rest idx)
    (hcase : (svc s1 idx).status = (svc s idx).status ∨ is_stopped s1 idx)
    (hrest_kill : ∀ e ∈ rest, ∀ j p sg r, e ≠ Event.kill j p sg r)
    (hrest_events : ∀ e ∈ rest, is_stop_event e = true)
    (hrest_reap : ∀ j, reaped rest j → j = idx)
    (hrest_wait : ∀ pre j p st post, rest = pre ++ Event.waitpid j p st :: post →
      j = idx ∧ p = pid ∧ rc = 0)
    (hdeps : delivers os → dependents_stopped s (svc s idx).name)
    (hout : o = Outcome.overflow ∨ o = Outcome.returned 0 ∨ o = Outcome.returned (-1)) :
    StopInv os s o s1 (Event.kill idx pid SIGTERM rc :: rest) := by
  have hkilled : ∀ j, killed (Event.kill idx pid SIGTERM rc :: rest) j → j = idx := by
    rintro j ⟨p, sg, r, h⟩
    rcases List.mem_cons.1 h with h | h
    · cases h
      rfl
    · exact absurd rfl (hrest_kill _ h j p sg r)
  have hreaped : ∀ j, reaped (Event.kill idx pid SIGTERM rc :: rest) j ↔ reaped rest j := by
    intro j
    constructor
    · rintro ⟨p, st, h⟩
      rcases List.mem_cons.1 h with h | h
      · cases h
      · exact ⟨p, st, h⟩
    · rintro ⟨p, st, h⟩
      exact ⟨p, st, List.mem_cons_of_mem _ h⟩
  refine
    { trace_eq := htr
      cfg_eq := hcfg
      keep := fun j hj => hkeep j (fun h => hj (h ▸ ⟨pid, SIGTERM, rc, List.mem_cons_self _ _⟩))
      fresh := fun j hj hk => hnot ((hkilled j hk) ▸ hj)
      stop_iff := ?_
      same_or_stopped := ?_
      sigterm := ?_
      events := ?_
      reap_kill := ?_
      order := ?_
      outcome := hout }
  · intro j
    rw [hreaped]
    by_cases hj : j = idx
    · subst hj
      rw [hiff]
      constructor
      · exact Or.inr
      · rintro (h | h)
        · exact absurd h hnot
        · exact h
    · unfold is_stopped
      rw [svc_of_slot_eq (hkeep j hj)]
      constructor
      · exact Or.inl
      · rintro (h | h)
        · exact h
        · exact absurd (hrest_reap j h) hj
  · intro j
    by_cases hj : j = idx
    · subst hj
      exact hcase
    · left
      rw [svc_of_slot_eq (hkeep j hj)]
  · intro j p sg r h
    rcases List.mem_cons.1 h with h | h
    · cases h
      rfl
    · exact absurd rfl (hrest_kill _ h j p sg r)
  · intro e he
    rcases List.mem_cons.1 he with h | h
    · rw [h]
      rfl
    · exact hrest_events e h
  · intro pre j p st post heq
    cases pre with
    | nil => simp at heq
    | cons e pre =>
      simp only [List.cons_append, List.cons.injEq] at heq
      obtain ⟨he, hrest⟩ := heq
      obtain ⟨hj, hp, hr⟩ := hrest_wait pre j p st post hrest
      subst he hj hp hr
      exact List.mem_cons_self _ _
  · intro hdel pre j p sg r post heq a ha
    cases pre with
    | nil =>
      simp only [List.nil_append, List.cons.injEq, Event.kill.injEq] at heq
      obtain ⟨⟨hi, _⟩, _⟩ := heq
      subst hi
      obtain ⟨i, hi, hsi⟩ := hdeps hdel a ha
      exact ⟨i, hi, Or.inl hsi⟩
    | cons e pre =>
      simp only [List.cons_append, List.cons.injEq] at heq
      have : Event.kill j p sg r ∈ rest := by
        rw [heq.2]
        simp
      exact absurd rfl (hrest_kill _ this j p sg r)

/-- The tail of `stop_service_with_deps` (lines 176-195) keeps the invariant. -/
theorem stop_signal_inv (os : OS) (s : State) (idx : Nat) (hlt : idx < s.table.length)
    (hdeps : delivers os → dependents_stopped s (svc s idx).name) :
    ∃ tr, StopInv os s (stop_signal os s idx).1 (stop_signal os s idx).2 tr ∧
      (∀ j, killed tr j → j = idx) ∧
      (∀ r, (stop_signal os s idx).1 = Outcome.returned r →
        (r = 0 ↔ is_stopped (stop_signal os s idx).2 idx)) ∧
      (∃ r, (stop_signal os s idx).1 = Outcome.returned r) ∧
      (delivers os → (stop_signal os s idx).1 = Outcome.returned 0) := by
  unfold stop_signal
  by_cases hst : (svc s idx).status = SERVICE_STOPPED
  · simp only [hst, if_true]
    refine ⟨[], StopInv.idle os s _ (Or.inr (Or.inl rfl)), ?_, ?_, ⟨0, rfl⟩, fun _ => trivial⟩
    · rintro j ⟨p, sg, r, hp⟩
      simp at hp
    · intro r hr
      simp only [Outcome.returned.injEq] at hr
      subst hr
      simp [is_stopped, hst]
  · simp only [hst, if_false]
    by_cases hrc : os.kill s.tick (svc s idx).pid SIGTERM = 0
    · simp only [hrc, if_true]
      have hself : is_stopped (stop_reap os (syscall s (Event.kill idx (svc s idx).pid SIGTERM 0))
          idx (svc s idx).pid) idx :=
        svc_stop_reap_self os _ idx _ (by simpa using hlt)
      have hinv := @StopInv.of_kill os s
        (stop_reap os (syscall s (Event.kill idx (svc s idx).pid SIGTERM 0)) idx (svc s idx).pid)
        (Outcome.returned 0) idx (svc s idx).pid 0
        [Event.alarm (Int.tdiv (ext s idx).timeout_stop_usec 1000000),
         Event.waitpid idx (svc s idx).pid (os.waitpid (s.tick + 1 + 1) (svc s idx).pid),
         Event.alarm 0, Event.epoll_del idx]
        (by simp) (by simp)
        (fun j hj => by
          rw [slot_stop_reap_ne _ _ _ _ _ hj]
          simp)
        hst
        ⟨fun _ => ⟨(svc s idx).pid, os.waitpid (s.tick + 1 + 1) (svc s idx).pid, by simp⟩,
          fun _ => hself⟩
        (Or.inr hself)
        (by simp) (by simp [is_stop_event])
        (by
          rintro j ⟨p, st, h⟩
          simp at h
          exact h.1)
        (by
          intro pre j p st post heq
          rcases pre with _ | ⟨e1, _ | ⟨e2, pre⟩⟩
          · simp at heq
          · simp only [List.cons_append, List.nil_append, List.cons.injEq, Event.waitpid.injEq]
              at heq
            exact ⟨heq.2.1.1.symm, heq.2.1.2.1.symm, rfl⟩
          · exfalso
            simp only [List.cons_append, List.cons.injEq] at heq
            obtain ⟨_, _, h3⟩ := heq
            rcases pre with _ | ⟨e3, _ | ⟨e4, pre⟩⟩
            · simp at h3
            · simp at h3
            · simp at h3)
        hdeps (Or.inr (Or.inl rfl))
      refine ⟨_, hinv, ?_, ?_, ⟨0, rfl⟩, fun _ => trivial⟩
      · rintro j ⟨p, sg, r, hp⟩
        simp at hp
        exact hp.1
      · intro r hr
        simp only [Outcome.returned.injEq] at hr
        subst hr
        simp [hself]
    · simp only [hrc, if_false]
      have hns : ¬ is_stopped (syscall s (Event.kill idx (svc s idx).pid SIGTERM
          (os.kill s.tick (svc s idx).pid SIGTERM))) idx := hst
      refine ⟨[Event.kill idx (svc s idx).pid SIGTERM (os.kill s.tick (svc s idx).pid SIGTERM)],
        StopInv.of_kill (by simp) (by simp) (fun j _ => by simp) hst ?_ (Or.inl rfl)
          (by simp) (by simp)
          (by rintro j ⟨p, st, h⟩; simp at h)
          (by intro pre j p st post heq; simp at heq)
          hdeps (Or.inr (Or.inr rfl)), ?_, ?_, ⟨-1, rfl⟩,
        fun hdel => absurd (hdel _ _ _) hrc⟩
      · constructor
        · intro h
          exact absurd h hns
        · rintro ⟨p, st, h⟩
          simp at h
      · rintro j ⟨p, sg, r, hp⟩
        simp at hp
        exact hp.1
      · intro r hr
        simp only [Outcome.returned.injEq] at hr
        subst hr
        constructor
        · intro h
          exact absurd h (by decide)
        · intro h
          exact absurd h hns

/-- The loop over the dependents keeps the invariant, given that each
recursive call does. -/
theorem stop_dependents_inv (os : OS) (call : State → String → Outcome × State)
    (hcall : ∀ s d, ∃ tr, StopPost os d s (call s d).1 (call s d).2 tr) :
    ∀ ns s, ∃ tr, StopInv os s (stop_dependents call ns s).1 (stop_dependents call ns s).2 tr ∧
      (delivers os → ∀ r, (stop_dependents call ns s).1 = Outcome.returned r →
        ∀ m ∈ ns, ∀ i, find_service_idx s m = some i →
          is_stopped (stop_dependents call ns s).2 i ∧
          dependents_stopped (stop_dependents call ns s).2 m) ∧
      (∀ j, killed tr j →
        ∃ m ∈ ns, Relation.ReflTransGen (requires s) (svc s j).name m) := by
  intro ns
  induction ns with
  | nil =>
    intro s
    refine ⟨[], StopInv.idle os s _ (Or.inr (Or.inl rfl)), fun _ _ _ m hm => by simp at hm, ?_⟩
    rintro j ⟨p, sg, r, hp⟩
    simp at hp
  | cons d ds ih =>
    intro s
    obtain ⟨t1, h1, _, _, hdel1, hreach1⟩ := hcall s d
    rcases hc : call s d with ⟨o, s1⟩
    rw [hc] at h1 hdel1
    simp only at h1 hdel1
    have hreachd : ∀ j, killed t1 j →
        ∃ m ∈ d :: ds, Relation.ReflTransGen (requires s) (svc s j).name m :=
      fun j hj => ⟨d, List.mem_cons_self _ _, hreach1 j hj⟩
    cases o with
    | returned rc =>
      have hstep : stop_dependents call (d :: ds) s = stop_dependents call ds s1 := by
        simp [stop_dependents, hc]
      rw [hstep]
      obtain ⟨t2, h2, hdel2, hreach2⟩ := ih s1
      refine ⟨t1 ++ t2, h1.seq h2, ?_, ?_⟩
      · intro hdel r hr m hm i hi
        rcases List.mem_cons.1 hm with heq | hmem
        · subst heq
          obtain ⟨hds, hst⟩ := hdel1 hdel i hi rc rfl
          exact ⟨h2.stopped_mono i hst,
            dependents_stopped_mono h2.cfg_eq (fun k hk => h2.stopped_mono k hk) hds⟩
        · exact hdel2 hdel r hr m hmem i (by rw [find_congr h1.cfg_eq]; exact hi)
      · intro j hj
        rcases killed_append.1 hj with hj | hj
        · exact hreachd j hj
        · obtain ⟨m, hm, hjm⟩ := hreach2 j hj
          refine ⟨m, List.mem_cons_of_mem _ hm, ?_⟩
          rw [← requires_congr h1.cfg_eq, ← name_congr h1.cfg_eq]
          exact hjm
    | overflow =>
      have hstep : stop_dependents call (d :: ds) s = (Outcome.overflow, s1) := by
        simp [stop_dependents, hc]
      rw [hstep]
      exact ⟨t1, h1, fun _ r hr => by simp at hr, hreachd⟩
    | child =>
      rcases h1.outcome with h | h | h <;> simp at h
    | exited st =>
      rcases h1.outcome with h | h | h <;> simp at h

/-- Every call of `stop_service_with_deps` keeps the invariant, at every
recursion budget. -/
theorem stop_inv (os : OS) : ∀ fuel s name,
    ∃ tr, StopPost os name s (stop_service_with_deps os fuel s name).1
      (stop_service_with_deps os fuel s name).2 tr := by
  intro fuel
  induction fuel with
  | zero =>
    intro s name
    exact ⟨[], StopInv.idle os s _ (Or.inl rfl),
      fun _ _ r hr => by simp [stop_service_with_deps] at hr,
      fun _ => Or.inl rfl,
      fun _ _ _ r hr => by simp [stop_service_with_deps] at hr,
      fun j ⟨p, sg, r, hp⟩ => by simp at hp⟩
  | succ fuel ih =>
    intro s name
    cases hf : find_service_idx s name with
    | none =>
      have hstep : stop_service_with_deps os (fuel + 1) s name = (Outcome.returned (-1), s) := by
        simp [stop_service_with_deps, hf]
      rw [hstep]
      refine ⟨[], StopInv.idle os s _ (Or.inr (Or.inr rfl)), ?_, fun _ => Or.inr rfl, ?_, ?_⟩
      · intro idx hidx
        rw [hf] at hidx
        cases hidx
      · intro _ idx hidx
        rw [hf] at hidx
        cases hidx
      · rintro j ⟨p, sg, r, hp⟩
        simp at hp
    | some idx =>
      obtain ⟨t1, h1, hdel1, hreach1⟩ :=
        stop_dependents_inv os (stop_service_with_deps os fuel) ih (dependents s name) s
      have hname : (svc s idx).name = name := find_name hf
      have hreach : ∀ j, killed t1 j →
          Relation.ReflTransGen (requires s) (svc s j).name name := by
        intro j hj
        obtain ⟨m, hm, hjm⟩ := hreach1 j hj
        exact Relation.ReflTransGen.tail hjm ((mem_dependents s m name).1 hm)
      rcases hc : stop_dependents (stop_service_with_deps os fuel) (dependents s name) s with ⟨o, s1⟩
      rw [hc] at h1 hdel1
      simp only at h1 hdel1
      cases o with
      | returned rc =>
        have hstep : stop_service_with_deps os (fuel + 1) s name = stop_signal os s1 idx := by
          simp [stop_service_with_deps, hf, hc]
        rw [hstep]
        have hlt : idx < s1.table.length := by
          rw [length_of_cfg h1.cfg_eq]
          exact find_lt hf
        have hds : delivers os → dependents_stopped s1 name := by
          intro hdel a ha
          obtain ⟨b, hab, hb⟩ := Relation.TransGen.tail'_iff.1 ha
          rw [requires_congr h1.cfg_eq] at hab hb
          obtain ⟨i, hi⟩ := requires_find hb
          obtain ⟨hsi, hdsb⟩ := hdel1 hdel rc rfl b ((mem_dependents s b name).2 hb) i hi
          rcases Relation.reflTransGen_iff_eq_or_transGen.1 hab with heq | htr
          · subst heq
            exact ⟨i, by rw [find_congr h1.cfg_eq]; exact hi, hsi⟩
          · rw [← requires_congr h1.cfg_eq] at htr
            exact hdsb a htr
        have hds1 : delivers os → dependents_stopped s1 (svc s1 idx).name := by
          rw [name_congr h1.cfg_eq, hname]
          exact hds
        obtain ⟨t2, h2, hself, hret, _, hdel2⟩ := stop_signal_inv os s1 idx hlt hds1
        refine ⟨t1 ++ t2, h1.seq h2, ?_, ?_, ?_, ?_⟩
        · intro i hi r hr
          rw [hf] at hi
          cases hi
          exact hret r hr
        · intro hnone
          rw [hf] at hnone
          cases hnone
        · intro hdel i hi r hr
          rw [hf] at hi
          cases hi
          refine ⟨dependents_stopped_mono h2.cfg_eq (fun k hk => h2.stopped_mono k hk) (hds hdel),
            ?_⟩
          exact (hret 0 (hdel2 hdel)).1 rfl
        · intro j hj
          rcases killed_append.1 hj with hj | hj
          · exact hreach j hj
          · rw [hself j hj, hname]
      | overflow =>
        have hstep : stop_service_with_deps os (fuel + 1) s name = (Outcome.overflow, s1) := by
          simp [stop_service_with_deps, hf, hc]
        rw [hstep]
        exact ⟨t1, h1, fun _ _ r hr => by simp at hr, fun _ => Or.inl rfl,
          fun _ _ _ r hr => by simp at hr, hreach⟩
      | child =>
        rcases h1.outcome with h | h | h <;> simp at h
      | exited st =>
        rcases h1.outcome with h | h | h <;> simp at h

/-! ## Termination of a stop -/

theorem chain_nodup_of_irrefl {α : Type} (r : α → α → Prop)
    (h : ∀ a, ¬ Relation.TransGen r a a) :
    ∀ (l : List α) (a : α), List.Chain r a l → (a :: l).Nodup := by
  intro l
  induction l with
  | nil => intro a _; simp
  | cons b l ih =>
    intro a hc
    have hb := ih b (List.chain_cons.1 hc).2
    refine List.nodup_cons.2 ⟨fun hmem => h a ?_, hb⟩
    haveI : IsTrans α (Relation.TransGen r) := ⟨fun _ _ _ => Relation.TransGen.trans⟩
    exact List.Chain.rel (List.Chain.imp (fun _ _ hab => Relation.TransGen.single hab) hc) hmem

theorem chain_pred {α : Type} (r : α → α → Prop) :
    ∀ (l : List α) (a : α), List.Chain r a l → ∀ x ∈ l, ∃ y, r y x := by
  intro l
  induction l with
  | nil => intro a _ x hx; simp at hx
  | cons b l ih =>
    intro a hc x hx
    rcases List.mem_cons.1 hx with heq | hmem
    · rw [heq]
      exact ⟨a, (List.chain_cons.1 hc).1⟩
    · exact ih b (List.chain_cons.1 hc).2 x hmem

/-- In a table whose relation between names is acyclic, a path that walks
from a name to a service that requires it, and on to one that requires that
one, visits at most `service_count` services. -/
theorem dependents_chain_length {s : State} (hac : names_acyclic s) {n : String}
    {l : List String} (h : List.Chain (Function.swap (requires s)) n l) :
    l.length ≤ service_count s := by
  have hirr : ∀ a, ¬ Relation.TransGen (Function.swap (requires s)) a a :=
    fun a ha => hac a (Relation.transGen_swap.1 ha)
  have hnd : l.Nodup := (List.nodup_cons.1 (chain_nodup_of_irrefl _ hirr l n h)).2
  have hsub : l ⊆ names s := by
    intro x hx
    obtain ⟨y, hy⟩ := chain_pred _ l n h x hx
    obtain ⟨r, hr, hname, _⟩ := (hy : requires s x y)
    simp only [names, List.mem_map]
    exact ⟨r, hr, hname⟩
  have := (List.Nodup.subperm hnd hsub).length_le
  simpa [service_count, names] using this

theorem stop_dependents_no_overflow (call : State → String → Outcome × State) (s0 : State)
    (hcfg : ∀ s d, cfg (call s d).2 = cfg s) :
    ∀ ns, (∀ m ∈ ns, ∀ s, cfg s = cfg s0 → (call s m).1 ≠ Outcome.overflow) →
      ∀ s, cfg s = cfg s0 → (stop_dependents call ns s).1 ≠ Outcome.overflow := by
  intro ns
  induction ns with
  | nil =>
    intro _ s _
    simp [stop_dependents]
  | cons d ds ih =>
    intro hno s hs
    have h1 := hno d (List.mem_cons_self _ _) s hs
    have h2 := hcfg s d
    rcases hc : call s d with ⟨o, s1⟩
    rw [hc] at h1 h2
    simp only at h1 h2
    cases o with
    | returned rc =>
      have hstep : stop_dependents call (d :: ds) s = stop_dependents call ds s1 := by
        simp [stop_dependents, hc]
      rw [hstep]
      exact ih (fun d1 hd1 => hno d1 (List.mem_cons_of_mem _ hd1)) s1 (h2.trans hs)
    | overflow => exact absurd rfl h1
    | child => simp [stop_dependents, hc]
    | exited st => simp [stop_dependents, hc]

theorem stop_signal_no_overflow (os : OS) (s : State) (i : Nat) :
    (stop_signal os s i).1 ≠ Outcome.overflow := by
  unfold stop_signal
  split
  · simp
  · simp only
    split <;> simp

/-- A stop does not run out of a budget that exceeds the length of every path
from the target through the services that require it. -/
theorem stop_no_overflow_of_depth (os : OS) : ∀ fuel s name, 1 ≤ fuel →
    (∀ l, List.Chain (Function.swap (requires s)) name l → l.length < fuel) →
    (stop_service_with_deps os fuel s name).1 ≠ Outcome.overflow := by
  intro fuel
  induction fuel with
  | zero => intro s name h1; omega
  | succ fuel ih =>
    intro s name _ hdepth
    cases hf : find_service_idx s name with
    | none => simp [stop_service_with_deps, hf]
    | some idx =>
      have hloop := stop_dependents_no_overflow (stop_service_with_deps os fuel) s
        (fun s d => stop_cfg os fuel s d) (dependents s name)
        (fun m hm s1 hs1 => by
          have hreq : requires s m name := (mem_dependents s m name).1 hm
          have hfuel : 1 ≤ fuel := by
            have := hdepth [m] (List.chain_cons.2 ⟨hreq, List.Chain.nil⟩)
            simp at this
            omega
          refine ih s1 m hfuel (fun l hl => ?_)
          rw [requires_congr hs1] at hl
          have := hdepth (m :: l) (List.chain_cons.2 ⟨hreq, hl⟩)
          simp at this
          omega) s rfl
      rcases hc : stop_dependents (stop_service_with_deps os fuel) (dependents s name) s with ⟨o, s1⟩
      rw [hc] at hloop
      simp only at hloop
      cases o with
      | returned rc =>
        have hstep : stop_service_with_deps os (fuel + 1) s name = stop_signal os s1 idx := by
          simp [stop_service_with_deps, hf, hc]
        rw [hstep]
        exact stop_signal_no_overflow os s1 idx
      | overflow => exact absurd rfl hloop
      | child => simp [stop_service_with_deps, hf, hc]
      | exited st => simp [stop_service_with_deps, hf, hc]

/-- In a table whose relation between names is acyclic a stop of any name
returns at every recursion budget larger than `service_count`. -/
theorem stop_terminates (os : OS) (s : State) (hac : names_acyclic s) (name : String)
    (fuel : Nat) (hfuel : service_count s < fuel) :
    (stop_service_with_deps os fuel s name).1 ≠ Outcome.overflow := by
  refine stop_no_overflow_of_depth os fuel s name (by omega) (fun l hl => ?_)
  have := dependents_chain_length hac hl
  omega

/-- A stop returns 0 or -1 once it does not run out of budget. -/
theorem stop_returns (os : OS) (fuel : Nat) (s : State) (name : String)
    (h : (stop_service_with_deps os fuel s name).1 ≠ Outcome.overflow) :
    (stop_service_with_deps os fuel s name).1 = Outcome.returned 0 ∨
      (stop_service_with_deps os fuel s name).1 = Outcome.returned (-1) := by
  obtain ⟨tr, hinv, _⟩ := stop_inv os fuel s name
  rcases hinv.outcome with h1 | h1 | h1
  · exact absurd h1 h
  · exact Or.inl h1
  · exact Or.inr h1

/-! ## The services a stop visits -/

theorem killed_of_reaped {os : OS} {s s1 : State} {o : Outcome} {tr : List Event}
    (h : StopInv os s o s1 tr) {j : Nat} (hr : reaped tr j) : killed tr j := by
  obtain ⟨pid, status, hmem⟩ := hr
  obtain ⟨pre, post, hsplit⟩ := List.append_of_mem hmem
  have hk := h.reap_kill pre j pid status post hsplit
  exact ⟨pid, SIGTERM, 0, by rw [hsplit]; exact List.mem_append_left _ hk⟩

theorem registered_congr {s s' : State} (h : cfg s' = cfg s) (i : Nat) :
    registered s' i ↔ registered s i := by
  unfold registered
  rw [find_congr h, name_congr h]

/-- Lines 176-195 on a service that is not STOPPED begin with a `kill()` for
it, and make no `kill()` for another service. -/
theorem stop_signal_kills (os : OS) (s : State) (i : Nat) :
    ∃ t, (stop_signal os s i).2.trace = s.trace ++ t ∧ (¬ is_stopped s i → killed t i) ∧
      ∀ j, killed t j → j = i := by
  by_cases hs : (svc s i).status = SERVICE_STOPPED
  · refine ⟨[], by simp [stop_signal, hs], fun h => absurd hs h, ?_⟩
    rintro j ⟨p, sg, r, hp⟩
    simp at hp
  · by_cases hrc : os.kill s.tick (svc s i).pid SIGTERM = 0
    · refine ⟨[Event.kill i (svc s i).pid SIGTERM 0,
        Event.alarm (Int.tdiv (ext s i).timeout_stop_usec 1000000),
        Event.waitpid i (svc s i).pid (os.waitpid (s.tick + 1 + 1) (svc s i).pid),
        Event.alarm 0, Event.epoll_del i], by simp [stop_signal, hs, hrc], fun _ => ?_, ?_⟩
      · exact ⟨(svc s i).pid, SIGTERM, 0, by simp⟩
      · rintro j ⟨p, sg, r, hp⟩
        simp at hp
        exact hp.1
    · refine ⟨[Event.kill i (svc s i).pid SIGTERM (os.kill s.tick (svc s i).pid SIGTERM)],
        by simp [stop_signal, hs, hrc, syscall], fun _ => ?_, ?_⟩
      · exact ⟨(svc s i).pid, SIGTERM, os.kill s.tick (svc s i).pid SIGTERM, by simp⟩
      · rintro j ⟨p, sg, r, hp⟩
        simp at hp
        exact hp.1

theorem stop_dependents_visits (os : OS) (call : State → String → Outcome × State)
    (hinv : ∀ s d, ∃ tr, StopPost os d s (call s d).1 (call s d).2 tr)
    (hvis : ∀ s d idx, find_service_idx s d = some idx →
      ∀ r, (call s d).1 = Outcome.returned r →
      ∀ tr, (call s d).2.trace = s.trace ++ tr →
      ∀ a, Relation.ReflTransGen (requires s) a d →
        ∃ i, find_service_idx s a = some i ∧ (is_stopped s i ∨ killed tr i)) :
    ∀ ns s, (∀ m ∈ ns, ∃ i, find_service_idx s m = some i) →
      ∀ r, (stop_dependents call ns s).1 = Outcome.returned r →
      ∀ tr, (stop_dependents call ns s).2.trace = s.trace ++ tr →
      ∀ m ∈ ns, ∀ a, Relation.ReflTransGen (requires s) a m →
        ∃ i, find_service_idx s a = some i ∧ (is_stopped s i ∨ killed tr i) := by
  intro ns
  induction ns with
  | nil => intro s _ r _ tr _ m hm; simp at hm
  | cons d ds ih =>
    intro s hreg r hr tr htr m hm a ha
    obtain ⟨t1, h1, _⟩ := hinv s d
    have hv := hvis s d
    rcases hc : call s d with ⟨o, s1⟩
    rw [hc] at h1 hv
    simp only at h1 hv
    cases o with
    | returned rc =>
      have hstep : stop_dependents call (d :: ds) s = stop_dependents call ds s1 := by
        simp [stop_dependents, hc]
      rw [hstep] at hr htr
      obtain ⟨t2, h2, _⟩ := stop_dependents_inv os call hinv ds s1
      have htr2 : tr = t1 ++ t2 :=
        List.append_cancel_left (htr.symm.trans (h2.trace_eq.trans
          (by rw [h1.trace_eq, List.append_assoc])))
      subst htr2
      rcases List.mem_cons.1 hm with heq | hmem
      · rw [heq] at ha
        obtain ⟨idx, hidx⟩ := hreg d (List.mem_cons_self _ _)
        obtain ⟨i, hi, hs⟩ := hv idx hidx rc rfl t1 h1.trace_eq a ha
        refine ⟨i, hi, ?_⟩
        rcases hs with hs | hs
        · exact Or.inl hs
        · exact Or.inr (killed_append.2 (Or.inl hs))
      · have hreg2 : ∀ m ∈ ds, ∃ i, find_service_idx s1 m = some i := by
          intro m hm
          obtain ⟨i, hi⟩ := hreg m (List.mem_cons_of_mem _ hm)
          exact ⟨i, by rw [find_congr h1.cfg_eq]; exact hi⟩
        have ha2 : Relation.ReflTransGen (requires s1) a m := by
          rw [requires_congr h1.cfg_eq]
          exact ha
        obtain ⟨i, hi, hs⟩ := ih s1 hreg2 r hr t2 h2.trace_eq m hmem a ha2
        rw [find_congr h1.cfg_eq] at hi
        refine ⟨i, hi, ?_⟩
        rcases hs with hs | hs
        · rcases (h1.stop_iff i).1 hs with h0 | h0
          · exact Or.inl h0
          · exact Or.inr (killed_append.2 (Or.inl (killed_of_reaped h1 h0)))
        · exact Or.inr (killed_append.2 (Or.inr hs))
    | overflow => simp [stop_dependents, hc] at hr
    | child => simp [stop_dependents, hc] at hr
    | exited st => simp [stop_dependents, hc] at hr

/-- A stop of a registered service that returns has visited the target and
every service that transitively requires it: each of them was STOPPED at entry
or has been sent a signal during the call. -/
theorem stop_visits (os : OS) : ∀ fuel s name idx, find_service_idx s name = some idx →
    ∀ r, (stop_service_with_deps os fuel s name).1 = Outcome.returned r →
    ∀ tr, (stop_service_with_deps os fuel s name).2.trace = s.trace ++ tr →
    ∀ a, Relation.ReflTransGen (requires s) a name →
      ∃ i, find_service_idx s a = some i ∧ (is_stopped s i ∨ killed tr i) := by
  intro fuel
  induction fuel with
  | zero => intro s name idx _ r hr; simp [stop_service_with_deps] at hr
  | succ fuel ih =>
    intro s name idx hf r hr tr htr a ha
    obtain ⟨t1, h1, _⟩ := stop_dependents_inv os (stop_service_with_deps os fuel)
      (stop_inv os fuel) (dependents s name) s
    have hregdeps : ∀ m ∈ dependents s name, ∃ i, find_service_idx s m = some i :=
      fun m hm => requires_find ((mem_dependents s m name).1 hm)
    have hloop := stop_dependents_visits os (stop_service_with_deps os fuel) (stop_inv os fuel)
      ih (dependents s name) s hregdeps
    rcases hc : stop_dependents (stop_service_with_deps os fuel) (dependents s name) s with ⟨o, s1⟩
    rw [hc] at h1 hloop
    simp only at h1 hloop
    cases o with
    | returned rc =>
      have hstep : stop_service_with_deps os (fuel + 1) s name = stop_signal os s1 idx := by
        simp [stop_service_with_deps, hf, hc]
      rw [hstep] at hr htr
      obtain ⟨t2, ht2, hk2, _⟩ := stop_signal_kills os s1 idx
      have htr2 : tr = t1 ++ t2 :=
        List.append_cancel_left (htr.symm.trans (ht2.trans
          (by rw [h1.trace_eq, List.append_assoc])))
      subst htr2
      rcases Relation.reflTransGen_iff_eq_or_transGen.1 ha with heq | htg
      · refine ⟨idx, by rw [← heq]; exact hf, ?_⟩
        by_cases hst : is_stopped s1 idx
        · rcases (h1.stop_iff idx).1 hst with h0 | h0
          · exact Or.inl h0
          · exact Or.inr (killed_append.2 (Or.inl (killed_of_reaped h1 h0)))
        · exact Or.inr (killed_append.2 (Or.inr (hk2 hst)))
      · obtain ⟨m, ham, hm⟩ := Relation.TransGen.tail'_iff.1 htg
        obtain ⟨i, hi, hs⟩ := hloop rc rfl t1 h1.trace_eq m ((mem_dependents s m name).2 hm) a ham
        refine ⟨i, hi, ?_⟩
        rcases hs with hs | hs
        · exact Or.inl hs
        · exact Or.inr (killed_append.2 (Or.inl hs))
    | overflow => simp [stop_service_with_deps, hf, hc] at hr
    | child => simp [stop_service_with_deps, hf, hc] at hr
    | exited st => simp [stop_service_with_deps, hf, hc] at hr

theorem stop_dependents_kills_registered (os : OS) (call : State → String → Outcome × State)
    (hinv : ∀ s d, ∃ tr, StopPost os d s (call s d).1 (call s d).2 tr)
    (hreg : ∀ s d tr, (call s d).2.trace = s.trace ++ tr → ∀ j, killed tr j → registered s j) :
    ∀ ns s tr, (stop_dependents call ns s).2.trace = s.trace ++ tr →
      ∀ j, killed tr j → registered s j := by
  intro ns
  induction ns with
  | nil =>
    intro s tr htr j hj
    have : tr = [] := by simpa [stop_dependents] using htr
    subst this
    obtain ⟨p, sg, r, hp⟩ := hj
    simp at hp
  | cons d ds ih =>
    intro s tr htr j hj
    obtain ⟨t1, h1, _⟩ := hinv s d
    have hr1 := hreg s d t1 h1.trace_eq
    have ht1 := h1.trace_eq
    have hcfg1 := h1.cfg_eq
    rcases hc : call s d with ⟨o, s1⟩
    rw [hc] at ht1 hcfg1
    simp only at ht1 hcfg1
    cases o with
    | returned rc =>
      have hstep : stop_dependents call (d :: ds) s = stop_dependents call ds s1 := by
        simp [stop_dependents, hc]
      rw [hstep] at htr
      obtain ⟨t2, h2, _⟩ := stop_dependents_inv os call hinv ds s1
      have htr2 : tr = t1 ++ t2 :=
        List.append_cancel_left (htr.symm.trans (h2.trace_eq.trans
          (by rw [ht1, List.append_assoc])))
      subst htr2
      rcases killed_append.1 hj with hj | hj
      · exact hr1 j hj
      · exact (registered_congr hcfg1 j).1 (ih s1 t2 h2.trace_eq j hj)
    | overflow =>
      have hstep : stop_dependents call (d :: ds) s = (Outcome.overflow, s1) := by
        simp [stop_dependents, hc]
      rw [hstep] at htr
      have : tr = t1 := List.append_cancel_left (htr.symm.trans ht1)
      subst this
      exact hr1 j hj
    | child =>
      have hstep : stop_dependents call (d :: ds) s = (Outcome.child, s1) := by
        simp [stop_dependents, hc]
      rw [hstep] at htr
      have : tr = t1 := List.append_cancel_left (htr.symm.trans ht1)
      subst this
      exact hr1 j hj
    | exited st =>
      have hstep : stop_dependents call (d :: ds) s = (Outcome.exited st, s1) := by
        simp [stop_dependents, hc]
      rw [hstep] at htr
      have : tr = t1 := List.append_cancel_left (htr.symm.trans ht1)
      subst this
      exact hr1 j hj

/-- Every signal a stop sends is for a record that its own name resolves
to. -/
theorem stop_kills_registered (os : OS) : ∀ fuel s name tr,
    (stop_service_with_deps os fuel s name).2.trace = s.trace ++ tr →
    ∀ j, killed tr j → registered s j := by
  intro fuel
  induction fuel with
  | zero =>
    intro s name tr htr j hj
    have : tr = [] := by simpa [stop_service_with_deps] using htr
    subst this
    obtain ⟨p, sg, r, hp⟩ := hj
    simp at hp
  | succ fuel ih =>
    intro s name tr htr j hj
    cases hf : find_service_idx s name with
    | none =>
      have : tr = [] := by simpa [stop_service_with_deps, hf] using htr
      subst this
      obtain ⟨p, sg, r, hp⟩ := hj
      simp at hp
    | some idx =>
      obtain ⟨t1, h1, _⟩ := stop_dependents_inv os (stop_service_with_deps os fuel)
        (stop_inv os fuel) (dependents s name) s
      have hr1 := stop_dependents_kills_registered os (stop_service_with_deps os fuel)
        (stop_inv os fuel) ih (dependents s name) s t1 h1.trace_eq
      have ht1 := h1.trace_eq
      rcases hc : stop_dependents (stop_service_with_deps os fuel) (dependents s name) s
        with ⟨o, s1⟩
      rw [hc] at ht1
      simp only at ht1
      cases o with
      | returned rc =>
        have hstep : stop_service_with_deps os (fuel + 1) s name = stop_signal os s1 idx := by
          simp [stop_service_with_deps, hf, hc]
        rw [hstep] at htr
        obtain ⟨t2, ht2, _, hk2⟩ := stop_signal_kills os s1 idx
        have htr2 : tr = t1 ++ t2 :=
          List.append_cancel_left (htr.symm.trans (ht2.trans
            (by rw [ht1, List.append_assoc])))
        subst htr2
        rcases killed_append.1 hj with hj | hj
        · exact hr1 j hj
        · rw [hk2 j hj]
          unfold registered
          rw [find_name hf]
          exact hf
      | overflow =>
        have hstep : stop_service_with_deps os (fuel + 1) s name = (Outcome.overflow, s1) := by
          simp [stop_service_with_deps, hf, hc]
        rw [hstep] at htr
        have : tr = t1 := List.append_cancel_left (htr.symm.trans ht1)
        subst this
        exact hr1 j hj
      | child =>
        have hstep : stop_service_with_deps os (fuel + 1) s name = (Outcome.child, s1) := by
          simp [stop_service_with_deps, hf, hc]
        rw [hstep] at htr
        have : tr = t1 := List.append_cancel_left (htr.symm.trans ht1)
        subst this
        exact hr1 j hj
      | exited st =>
        have hstep : stop_service_with_deps os (fuel + 1) s name = (Outcome.exited st, s1) := by
          simp [stop_service_with_deps, hf, hc]
        rw [hstep] at htr
        have : tr = t1 := List.append_cancel_left (htr.symm.trans ht1)
        subst this
        exact hr1 j hj

/-! ## C11: stopping a stopped service -/

/-- A rank on names that decreases along every `deps` entry certifies that
the relation between names is acyclic. -/
theorem names_acyclic_of_rank_ok {s : State} (rank : List Nat)
    (h : names_rank_ok s rank = true) : names_acyclic s := by
  have hedge : ∀ a b, requires s a b →
      rank.getD ((names s).indexOf b) 0 < rank.getD ((names s).indexOf a) 0 := by
    rintro a b ⟨r, hr, rfl, hb⟩
    simp only [names_rank_ok, List.all_eq_true, decide_eq_true_eq] at h
    exact h r hr b hb
  have hpath : ∀ a b, Relation.TransGen (requires s) a b →
      rank.getD ((names s).indexOf b) 0 < rank.getD ((names s).indexOf a) 0 := by
    intro a b hab
    induction hab with
    | single h1 => exact hedge _ _ h1
    | tail _ h2 ih => exact lt_trans (hedge _ _ h2) ih
  intro a ha
  exact lt_irrefl _ (hpath a a ha)


theorem stop_dependents_fixed (call : State → String → Outcome × State) (s : State) :
    ∀ ns, (∀ m ∈ ns, call s m = (Outcome.returned 0, s)) →
      stop_dependents call ns s = (Outcome.returned 0, s) := by
  intro ns
  induction ns with
  | nil => intro _; rfl
  | cons d ds ih =>
    intro h
    have hd := h d (List.mem_cons_self _ _)
    simp only [stop_dependents, hd]
    exact ih (fun d1 hd1 => h d1 (List.mem_cons_of_mem _ hd1))

/-- A stop of a stopped service all of whose transitive dependents are
stopped does nothing and returns 0. -/
theorem stop_noop (os : OS) : ∀ fuel s name idx, 1 ≤ fuel →
    (∀ l, List.Chain (Function.swap (requires s)) name l → l.length < fuel) →
    find_service_idx s name = some idx → is_stopped s idx → dependents_stopped s name →
    stop_service_with_deps os fuel s name = (Outcome.returned 0, s) := by
  intro fuel
  induction fuel with
  | zero => intro s name idx h1; omega
  | succ fuel ih =>
    intro s name idx _ hdepth hf hst hds
    have hloop : stop_dependents (stop_service_with_deps os fuel) (dependents s name) s
        = (Outcome.returned 0, s) := by
      apply stop_dependents_fixed
      intro m hm
      have hreq : requires s m name := (mem_dependents s m name).1 hm
      have hfuel : 1 ≤ fuel := by
        have := hdepth [m] (List.chain_cons.2 ⟨hreq, List.Chain.nil⟩)
        simp at this
        omega
      obtain ⟨i, hi, hsi⟩ := hds m (Relation.TransGen.single hreq)
      refine ih s m i hfuel (fun l hl => ?_) hi hsi
        (fun a ha => hds a (Relation.TransGen.tail ha hreq))
      have := hdepth (m :: l) (List.chain_cons.2 ⟨hreq, hl⟩)
      simp at this
      omega
    have hst1 : (svc s idx).status = SERVICE_STOPPED := hst
    simp [stop_service_with_deps, hf, hloop, stop_signal, hst1]

/-- C11, counterexample.  A requires B; A is RUNNING with pid 7 and B is
STOPPED; signals are delivered.  `stop_service_with_deps("B")` returns 0, but
it first stops the dependent A: SIGTERM is sent to pid 7 and A's record goes
from RUNNING to STOPPED. -/
theorem C11_stop_of_stopped_cascades :
    find_service_idx (pair SERVICE_RUNNING 7 SERVICE_STOPPED 0) "B" = some 1 ∧
    (svc (pair SERVICE_RUNNING 7 SERVICE_STOPPED 0) 1).status = SERVICE_STOPPED ∧
    (svc (pair SERVICE_RUNNING 7 SERVICE_STOPPED 0) 0).status = SERVICE_RUNNING ∧
    (stop_service_with_deps os_ok 3 (pair SERVICE_RUNNING 7 SERVICE_STOPPED 0) "B").1
      = Outcome.returned 0 ∧
    (stop_service_with_deps os_ok 3 (pair SERVICE_RUNNING 7 SERVICE_STOPPED 0) "B").2.trace
      = [Event.kill 0 7 SIGTERM 0, Event.alarm 90, Event.waitpid 0 7 0, Event.alarm 0,
         Event.epoll_del 0] ∧
    (svc (stop_service_with_deps os_ok 3 (pair SERVICE_RUNNING 7 SERVICE_STOPPED 0) "B").2 0).status
      = SERVICE_STOPPED := by
  decide

/-- C11, amended.  Table whose relation between names is acyclic, registered
service whose status is STOPPED, recursion budget above `service_count`.
`stop_service_with_deps` returns 0, sends no signal for that service and
leaves its records unchanged.  The services that require it are still visited
first: every service that transitively requires it was STOPPED at entry or is
sent a signal; every signal sent is a SIGTERM for a registered service that
transitively requires the target; such a service ends STOPPED exactly when it
was STOPPED at entry or is reaped during the call, a reap comes only after a
delivered SIGTERM for the same service, and a service that does not end
STOPPED keeps its status.  When signals are delivered, every service that
transitively requires the target ends STOPPED.  When all services that
transitively require it are STOPPED at entry, the call leaves the whole state
(every record, the trace of system calls) as it is. -/
theorem C11_stop_of_stopped (os : OS) (s : State) (name : String) (idx fuel : Nat)
    (hac : names_acyclic s)
    (hf : find_service_idx s name = some idx)
    (hst : is_stopped s idx)
    (hfuel : service_count s < fuel) :
    (stop_service_with_deps os fuel s name).1 = Outcome.returned 0 ∧
    (∀ tr, (stop_service_with_deps os fuel s name).2.trace = s.trace ++ tr → ¬ killed tr idx) ∧
    svc (stop_service_with_deps os fuel s name).2 idx = svc s idx ∧
    ext (stop_service_with_deps os fuel s name).2 idx = ext s idx ∧
    (∀ tr, (stop_service_with_deps os fuel s name).2.trace = s.trace ++ tr →
      (∀ a, Relation.TransGen (requires s) a name →
        ∃ i, find_service_idx s a = some i ∧ (is_stopped s i ∨ killed tr i) ∧
          (is_stopped (stop_service_with_deps os fuel s name).2 i ↔ (is_stopped s i ∨ reaped tr i))) ∧
      (∀ j, killed tr j →
        registered s j ∧ Relation.TransGen (requires s) (svc s j).name name) ∧
      (∀ j pid sig rc, Event.kill j pid sig rc ∈ tr → sig = SIGTERM) ∧
      (∀ pre j pid status post, tr = pre ++ Event.waitpid j pid status :: post →
        Event.kill j pid SIGTERM 0 ∈ pre)) ∧
    (∀ j, (svc (stop_service_with_deps os fuel s name).2 j).status = (svc s j).status ∨ is_stopped (stop_service_with_deps os fuel s name).2 j) ∧
    (delivers os → dependents_stopped (stop_service_with_deps os fuel s name).2 name) ∧
    (dependents_stopped s name →
      (stop_service_with_deps os fuel s name) = (Outcome.returned 0, s)) := by
  obtain ⟨tr0, hinv, hret, _, hdel, hreach⟩ := stop_inv os fuel s name
  have hnot : ¬ killed tr0 idx := hinv.fresh idx hst
  have hdepth : ∀ l, List.Chain (Function.swap (requires s)) name l → l.length < fuel := by
    intro l hl
    have := dependents_chain_length hac hl
    omega
  have h0 : (stop_service_with_deps os fuel s name).1 = Outcome.returned 0 := by
    rcases stop_returns os fuel s name (stop_terminates os s hac name fuel hfuel) with h | h
    · exact h
    · have := (hret idx hf (-1) h).2 (hinv.stopped_mono idx hst)
      exact absurd this (by decide)
  refine ⟨h0, ?_, svc_of_slot_eq (hinv.keep idx hnot), ext_of_slot_eq (hinv.keep idx hnot), ?_,
    hinv.same_or_stopped, ?_, ?_⟩
  · intro tr htr
    have : tr = tr0 := List.append_cancel_left (htr.symm.trans hinv.trace_eq)
    subst this
    exact hnot
  · intro tr htr
    have : tr = tr0 := List.append_cancel_left (htr.symm.trans hinv.trace_eq)
    subst this
    refine ⟨?_, ?_, hinv.sigterm, hinv.reap_kill⟩
    · intro a ha
      obtain ⟨i, hi, hs⟩ := stop_visits os fuel s name idx hf 0 h0 tr htr a ha.to_reflTransGen
      exact ⟨i, hi, hs, hinv.stop_iff i⟩
    · intro j hj
      have hreg := stop_kills_registered os fuel s name tr htr j hj
      refine ⟨hreg, ?_⟩
      rcases Relation.reflTransGen_iff_eq_or_transGen.1 (hreach j hj) with heq | htg
      · have hj2 : find_service_idx s name = some j := by
          rw [heq]
          exact hreg
        rw [hf] at hj2
        cases hj2
        exact absurd hj hnot
      · exact htg
  · intro hd
    exact (hdel hd idx hf 0 h0).1
  · intro hds
    exact stop_noop os fuel s name idx (by omega) hdepth hf hst hds

/-- C11, witness: B stopped while A, which requires it, is running; budget
3. -/
theorem C11_stop_of_stopped_witness :
    names_acyclic (pair SERVICE_RUNNING 7 SERVICE_STOPPED 8) ∧
    is_stopped (pair SERVICE_RUNNING 7 SERVICE_STOPPED 8) 1 ∧
    (stop_service_with_deps os_ok 3 (pair SERVICE_RUNNING 7 SERVICE_STOPPED 8) "B").1 = Outcome.returned 0 ∧
    (∀ tr, (stop_service_with_deps os_ok 3 (pair SERVICE_RUNNING 7 SERVICE_STOPPED 8) "B").2.trace = (pair SERVICE_RUNNING 7 SERVICE_STOPPED 8).trace ++ tr → ¬ killed tr 1) ∧
    svc (stop_service_with_deps os_ok 3 (pair SERVICE_RUNNING 7 SERVICE_STOPPED 8) "B").2 1 = svc (pair SERVICE_RUNNING 7 SERVICE_STOPPED 8) 1 ∧
    ext (stop_service_with_deps os_ok 3 (pair SERVICE_RUNNING 7 SERVICE_STOPPED 8) "B").2 1 = ext (pair SERVICE_RUNNING 7 SERVICE_STOPPED 8) 1 ∧
    (∀ tr, (stop_service_with_deps os_ok 3 (pair SERVICE_RUNNING 7 SERVICE_STOPPED 8) "B").2.trace = (pair SERVICE_RUNNING 7 SERVICE_STOPPED 8).trace ++ tr →
      (∀ a, Relation.TransGen (requires (pair SERVICE_RUNNING 7 SERVICE_STOPPED 8)) a "B" →
        ∃ i, find_service_idx (pair SERVICE_RUNNING 7 SERVICE_STOPPED 8) a = some i ∧ (is_stopped (pair SERVICE_RUNNING 7 SERVICE_STOPPED 8) i ∨ killed tr i) ∧
          (is_stopped (stop_service_with_deps os_ok 3 (pair SERVICE_RUNNING 7 SERVICE_STOPPED 8) "B").2 i ↔ (is_stopped (pair SERVICE_RUNNING 7 SERVICE_STOPPED 8) i ∨ reaped tr i))) ∧
      (∀ j, killed tr j →
        registered (pair SERVICE_RUNNING 7 SERVICE_STOPPED 8) j ∧ Relation.TransGen (requires (pair SERVICE_RUNNING 7 SERVICE_STOPPED 8)) (svc (pair SERVICE_RUNNING 7 SERVICE_STOPPED 8) j).name "B") ∧
      (∀ j pid sig rc, Event.kill j pid sig rc ∈ tr → sig = SIGTERM) ∧
      (∀ pre j pid status post, tr = pre ++ Event.waitpid j pid status :: post →
        Event.kill j pid SIGTERM 0 ∈ pre)) ∧
    (∀ j, (svc (stop_service_with_deps os_ok 3 (pair SERVICE_RUNNING 7 SERVICE_STOPPED 8) "B").2 j).status = (svc (pair SERVICE_RUNNING 7 SERVICE_STOPPED 8) j).status ∨ is_stopped (stop_service_with_deps os_ok 3 (pair SERVICE_RUNNING 7 SERVICE_STOPPED 8) "B").2 j) ∧
    (delivers os_ok → dependents_stopped (stop_service_with_deps os_ok 3 (pair SERVICE_RUNNING 7 SERVICE_STOPPED 8) "B").2 "B") ∧
    (dependents_stopped (pair SERVICE_RUNNING 7 SERVICE_STOPPED 8) "B" →
      (stop_service_with_deps os_ok 3 (pair SERVICE_RUNNING 7 SERVICE_STOPPED 8) "B") = (Outcome.returned 0, (pair SERVICE_RUNNING 7 SERVICE_STOPPED 8))) :=
  ⟨names_acyclic_of_rank_ok [2, 1] (by decide), rfl,
   C11_stop_of_stopped os_ok (pair SERVICE_RUNNING 7 SERVICE_STOPPED 8) "B" 1 3
     (names_acyclic_of_rank_ok [2, 1] (by decide)) rfl rfl (by decide)⟩

/-! ## C12: the order of a cascading stop -/

/-- C12.  Table whose relation between names is acyclic, signal delivery
succeeds, registered target B, recursion budget above `service_count`.
`stop_service_with_deps(B)` returns 0.  In the signals and reaps it makes,
whenever SIGTERM is issued for a service, every service that transitively
requires it was already STOPPED before the call or has been reaped earlier
in the call, and each reap comes after the SIGTERM of the same service; so
every dependent of B is signalled and reaped before SIGTERM is issued for B.
Afterwards B and every service that transitively requires B have status
STOPPED. -/
theorem C12_cascading_stop_order (os : OS) (s : State) (name : String) (idx fuel : Nat)
    (hac : names_acyclic s) (hdel : delivers os)
    (hf : find_service_idx s name = some idx)
    (hfuel : service_count s < fuel) :
    (stop_service_with_deps os fuel s name).1 = Outcome.returned 0 ∧
    (∀ tr, (stop_service_with_deps os fuel s name).2.trace = s.trace ++ tr →
      stop_order_ok s tr ∧
      ∀ pre j pid status post, tr = pre ++ Event.waitpid j pid status :: post →
        Event.kill j pid SIGTERM 0 ∈ pre) ∧
    is_stopped (stop_service_with_deps os fuel s name).2 idx ∧
    (∀ a, Relation.TransGen (requires s) a name →
      ∃ i, find_service_idx s a = some i ∧
        is_stopped (stop_service_with_deps os fuel s name).2 i) := by
  obtain ⟨tr0, hinv, hret, _, hpost, _⟩ := stop_inv os fuel s name
  have hterm := stop_terminates os s hac name fuel hfuel
  have hr : ∃ r, (stop_service_with_deps os fuel s name).1 = Outcome.returned r := by
    rcases stop_returns os fuel s name hterm with h | h
    · exact ⟨0, h⟩
    · exact ⟨-1, h⟩
  obtain ⟨r, hr⟩ := hr
  obtain ⟨hds, hst⟩ := hpost hdel idx hf r hr
  refine ⟨?_, ?_, hst, ?_⟩
  · have := (hret idx hf r hr).2 hst
    rw [hr, this]
  · intro tr htr
    have : tr = tr0 := List.append_cancel_left (htr.symm.trans hinv.trace_eq)
    subst this
    exact ⟨hinv.order hdel, hinv.reap_kill⟩
  · intro a ha
    rw [← requires_congr hinv.cfg_eq] at ha
    obtain ⟨i, hi, hsi⟩ := hds a ha
    exact ⟨i, by rw [← find_congr hinv.cfg_eq]; exact hi, hsi⟩

/-- C12, witness: A requires B, both running; stopping B signals and reaps A
(pid 7) first, then B (pid 8). -/
theorem C12_cascading_stop_order_witness :
    names_acyclic (pair SERVICE_RUNNING 7 SERVICE_RUNNING 8) ∧ delivers os_ok ∧
    (stop_service_with_deps os_ok 3 (pair SERVICE_RUNNING 7 SERVICE_RUNNING 8) "B").2.trace
      = [Event.kill 0 7 SIGTERM 0, Event.alarm 90, Event.waitpid 0 7 0, Event.alarm 0,
         Event.epoll_del 0,
         Event.kill 1 8 SIGTERM 0, Event.alarm 90, Event.waitpid 1 8 0, Event.alarm 0,
         Event.epoll_del 1] ∧
    (stop_service_with_deps os_ok 3 (pair SERVICE_RUNNING 7 SERVICE_RUNNING 8) "B").1
      = Outcome.returned 0 ∧
    (∀ tr, (stop_service_with_deps os_ok 3 (pair SERVICE_RUNNING 7 SERVICE_RUNNING 8) "B").2.trace
        = (pair SERVICE_RUNNING 7 SERVICE_RUNNING 8).trace ++ tr →
      stop_order_ok (pair SERVICE_RUNNING 7 SERVICE_RUNNING 8) tr ∧
      ∀ pre j pid status post, tr = pre ++ Event.waitpid j pid status :: post →
        Event.kill j pid SIGTERM 0 ∈ pre) ∧
    is_stopped (stop_service_with_deps os_ok 3 (pair SERVICE_RUNNING 7 SERVICE_RUNNING 8) "B").2 1 ∧
    (∀ a, Relation.TransGen (requires (pair SERVICE_RUNNING 7 SERVICE_RUNNING 8)) a "B" →
      ∃ i, find_service_idx (pair SERVICE_RUNNING 7 SERVICE_RUNNING 8) a = some i ∧
        is_stopped
          (stop_service_with_deps os_ok 3 (pair SERVICE_RUNNING 7 SERVICE_RUNNING 8) "B").2 i) :=
  ⟨names_acyclic_of_rank_ok [2, 1] (by decide), fun _ _ _ => rfl, by decide,
   C12_cascading_stop_order os_ok (pair SERVICE_RUNNING 7 SERVICE_RUNNING 8) "B" 1 3
     (names_acyclic_of_rank_ok [2, 1] (by decide)) (fun _ _ _ => rfl) rfl (by decide)⟩

/-! ## C13 and C14: conflicts and soft dependencies -/

theorem start_spawn_events (os : OS) (s : State) (i : Nat) :
    ∃ tr, (start_spawn os s i).2.trace = s.trace ++ tr ∧ ∀ e ∈ tr, is_start_event e := by
  unfold start_spawn
  split
  · exact ⟨[], by simp, by simp⟩
  · simp only
    split
    · exact ⟨[Event.fork i (os.fork s.tick)], by simp, by
        intro e he
        simp only [List.mem_singleton] at he
        exact Or.inl ⟨_, _, he⟩⟩
    · split
      · refine ⟨[Event.fork i (os.fork s.tick), Event.epoll_add i], by simp, ?_⟩
        intro e he
        simp only [List.mem_cons, List.mem_singleton, List.not_mem_nil, or_false] at he
        rcases he with he | he
        · exact Or.inl ⟨_, _, he⟩
        · exact Or.inr ⟨_, he⟩
      · exact ⟨[Event.fork i (os.fork s.tick)], by simp, by
          intro e he
          simp only [List.mem_singleton] at he
          exact Or.inl ⟨_, _, he⟩⟩

/-- A start adds only `fork()` and `epoll_ctl(EPOLL_CTL_ADD)` events to the
trace. -/
theorem start_events (os : OS) (fuel : Nat) (s : State) (name : String) :
    ∃ tr, (start_service_with_deps os fuel s name).2.trace = s.trace ++ tr ∧
      ∀ e ∈ tr, is_start_event e :=
  start_rel os (fun a b => ∃ tr, b.trace = a.trace ++ tr ∧ ∀ e ∈ tr, is_start_event e)
    (fun _ => ⟨[], by simp, by simp⟩)
    (fun a b c ⟨t1, h1, p1⟩ ⟨t2, h2, p2⟩ => ⟨t1 ++ t2, by rw [h2, h1, List.append_assoc], by
      intro e he
      rcases List.mem_append.1 he with he | he
      · exact p1 e he
      · exact p2 e he⟩)
    (fun s i => start_spawn_events os s i) fuel s name

/-- C13, counterexample.  X lists Y in its `conflicts`; X is stopped and Y is
RUNNING with pid 9; every `fork()` succeeds.  `start_service_with_deps("X")`
forks X and returns 0 without stopping Y: no signal is sent and Y is still
RUNNING with pid 9. -/
theorem C13_conflict_not_stopped :
    (ext conflict_pair 0).conflicts = ["Y"] ∧
    find_service_idx conflict_pair "Y" = some 1 ∧
    (svc conflict_pair 1).status = SERVICE_RUNNING ∧
    (start_service_with_deps os_ok 2 conflict_pair "X").1 = Outcome.returned 0 ∧
    (start_service_with_deps os_ok 2 conflict_pair "X").2.trace
      = [Event.fork 0 100, Event.epoll_add 0] ∧
    (svc (start_service_with_deps os_ok 2 conflict_pair "X").2 0).status = SERVICE_RUNNING ∧
    (svc (start_service_with_deps os_ok 2 conflict_pair "X").2 1).status = SERVICE_RUNNING ∧
    (svc (start_service_with_deps os_ok 2 conflict_pair "X").2 1).pid = 9 := by
  decide

/-- C13, amended.  `start_service_with_deps` does not consult the `conflicts`
lists and stops nothing: whatever the table, the only system calls it makes
are `fork()` and `epoll_ctl(EPOLL_CTL_ADD)` (no signal is sent), and every
service that is RUNNING before the call has its records unchanged after
it, a service listed in the target's `conflicts` included. -/
theorem C13_start_stops_nothing (os : OS) (fuel : Nat) (s : State) (target : String) :
    (∀ tr, (start_service_with_deps os fuel s target).2.trace = s.trace ++ tr →
      ∀ e ∈ tr, is_start_event e) ∧
    (∀ j, is_running s j →
      svc (start_service_with_deps os fuel s target).2 j = svc s j ∧
      ext (start_service_with_deps os fuel s target).2 j = ext s j) := by
  constructor
  · intro tr htr
    obtain ⟨tr0, h0, hp⟩ := start_events os fuel s target
    have : tr = tr0 := List.append_cancel_left (htr.symm.trans h0)
    subst this
    exact hp
  · intro j hj
    obtain ⟨tr0, hinv, _, _⟩ := start_inv os fuel s target
    have hnot := hinv.fresh j hj
    exact ⟨svc_of_slot_eq (hinv.keep j hnot), ext_of_slot_eq (hinv.keep j hnot)⟩

/-- C14, counterexample.  T lists W in its `wants` and has no `deps`; both
are stopped and W is registered; every `fork()` succeeds.
`start_service_with_deps("T")` forks T only and returns 0: W is not started,
its status is still STOPPED and its pid 0. -/
theorem C14_wants_not_started :
    (ext wants_pair 0).wants = ["W"] ∧
    find_service_idx wants_pair "W" = some 1 ∧
    (start_service_with_deps os_ok 2 wants_pair "T").1 = Outcome.returned 0 ∧
    (start_service_with_deps os_ok 2 wants_pair "T").2.trace
      = [Event.fork 0 100, Event.epoll_add 0] ∧
    (svc (start_service_with_deps os_ok 2 wants_pair "T").2 1).status = SERVICE_STOPPED ∧
    (svc (start_service_with_deps os_ok 2 wants_pair "T").2 1).pid = 0 := by
  decide

/-- C14, amended.  `start_service_with_deps` does not consult the `wants`
lists: every `fork()` it makes is for a service the target reaches through
`deps` edges, and every service the target does not reach through `deps`
edges has its records unchanged, a service listed in `wants` only
included. -/
theorem C14_only_hard_dependencies_started (os : OS) (fuel : Nat) (s : State) (target : String)
    (idx : Nat) (hf : find_service_idx s target = some idx) :
    (∀ tr, (start_service_with_deps os fuel s target).2.trace = s.trace ++ tr →
      ∀ j, forked tr j → Relation.ReflTransGen (depends_on s) idx j) ∧
    (∀ j, ¬ Relation.ReflTransGen (depends_on s) idx j →
      svc (start_service_with_deps os fuel s target).2 j = svc s j ∧
      ext (start_service_with_deps os fuel s target).2 j = ext s j) := by
  obtain ⟨tr0, hinv, _, hreach⟩ := start_inv os fuel s target
  have hr : ∀ j, forked tr0 j → Relation.ReflTransGen (depends_on s) idx j := by
    intro j hj
    obtain ⟨i, hi, hij⟩ := hreach j hj
    rw [hf] at hi
    cases hi
    exact hij
  constructor
  · intro tr htr
    have : tr = tr0 := List.append_cancel_left (htr.symm.trans hinv.trace_eq)
    subst this
    exact hr
  · intro j hj
    have hnot : ¬ forked tr0 j := fun h => hj (hr j h)
    exact ⟨svc_of_slot_eq (hinv.keep j hnot), ext_of_slot_eq (hinv.keep j hnot)⟩

/-- C14, witness: T with W in its `wants`; W, index 1, is not reached
through `deps` and is left as it is. -/
theorem C14_only_hard_dependencies_started_witness :
    find_service_idx wants_pair "T" = some 0 ∧
    (∀ tr, (start_service_with_deps os_ok 2 wants_pair "T").2.trace = wants_pair.trace ++ tr →
      ∀ j, forked tr j → Relation.ReflTransGen (depends_on wants_pair) 0 j) ∧
    (∀ j, ¬ Relation.ReflTransGen (depends_on wants_pair) 0 j →
      svc (start_service_with_deps os_ok 2 wants_pair "T").2 j = svc wants_pair j ∧
      ext (start_service_with_deps os_ok 2 wants_pair "T").2 j = ext wants_pair j) :=
  ⟨rfl, C14_only_hard_dependencies_started os_ok 2 wants_pair "T" 0 rfl⟩

/-! ## C15: the signals of a stop -/

theorem lt_length_of_status {s : State} {i : Nat} (h : (svc s i).status ≠ SERVICE_STOPPED) :
    i < s.table.length := by
  by_contra hge
  apply h
  unfold svc
  rw [List.getElem?_eq_none (Nat.le_of_not_lt hge)]
  rfl

/-- C15, counterexample.  One service A, RUNNING with pid 7.  Whatever `kill`
and `waitpid` return and whatever the recursion budget, the trace of
`stop_service_with_deps("A")` holds no `kill()` with a signal other than
SIGTERM, and so no SIGKILL; with signal delivery succeeding and `waitpid`
returning the system calls are exactly: SIGTERM, `alarm(90)`, `waitpid`,
`alarm(0)`, `epoll_ctl(EPOLL_CTL_DEL)`: nothing stands between the arming of
the timer and `waitpid`, and nothing but `alarm(0)` and the bookkeeping
follows it. -/
theorem C15_no_sigkill :
    (¬ ∃ (os : OS) (fuel j : Nat) (pid sig rc : Int),
      Event.kill j pid sig rc ∈ (stop_service_with_deps os fuel (single SERVICE_RUNNING 7) "A").2.trace
        ∧ sig ≠ SIGTERM) ∧
    (¬ ∃ (os : OS) (fuel j : Nat) (pid rc : Int),
      Event.kill j pid SIGKILL rc
        ∈ (stop_service_with_deps os fuel (single SERVICE_RUNNING 7) "A").2.trace) ∧
    (stop_service_with_deps os_ok 1 (single SERVICE_RUNNING 7) "A").2.trace
      = [Event.kill 0 7 SIGTERM 0, Event.alarm 90, Event.waitpid 0 7 0, Event.alarm 0,
         Event.epoll_del 0] := by
  have key : ∀ (os : OS) (fuel j : Nat) (pid sig rc : Int),
      Event.kill j pid sig rc
        ∈ (stop_service_with_deps os fuel (single SERVICE_RUNNING 7) "A").2.trace →
      sig = SIGTERM := by
    intro os fuel j pid sig rc hmem
    obtain ⟨tr, hinv, _⟩ := stop_inv os fuel (single SERVICE_RUNNING 7) "A"
    rw [hinv.trace_eq] at hmem
    exact hinv.sigterm j pid sig rc (by simpa [single, init] using hmem)
  refine ⟨?_, ?_, by decide⟩
  · rintro ⟨os, fuel, j, pid, sig, rc, hmem, hne⟩
    exact hne (key os fuel j pid sig rc hmem)
  · rintro ⟨os, fuel, j, pid, rc, hmem⟩
    exact absurd (key os fuel j pid SIGKILL rc hmem) (by decide)

/-- C15, amended.  `stop_service_with_deps` has no escalation step.  Whatever
`kill` and `waitpid` return, every `kill()` in the trace of a call carries
SIGTERM, none carries SIGKILL, the only system calls are `kill`, `alarm`,
`waitpid` and `epoll_ctl(EPOLL_CTL_DEL)`, and every `waitpid` is preceded by a
delivered SIGTERM for the same service and pid.  One execution of lines
176-195 makes no system call for a STOPPED service and exactly one
`kill(pid, SIGTERM)` for any other: when it is delivered and `waitpid`
returns, the calls that follow are exactly
`alarm(timeout_stop_usec / 1000000)`, `waitpid`, `alarm(0)`,
`epoll_ctl(EPOLL_CTL_DEL)` and the service is STOPPED; when it is not
delivered the result is -1 with no further call and no record written.  The
signal is sent once per visit, not once per service: in one stop of D in the
RUNNING diamond, with `kill` failing for A only, A is signalled twice. -/
theorem C15_only_sigterm (os : OS) (fuel : Nat) (s : State) (name : String) :
    (∀ tr, (stop_service_with_deps os fuel s name).2.trace = s.trace ++ tr →
      (∀ j pid sig rc, Event.kill j pid sig rc ∈ tr → sig = SIGTERM) ∧
      (∀ j pid rc, Event.kill j pid SIGKILL rc ∉ tr) ∧
      (∀ e ∈ tr, is_stop_event e = true) ∧
      (∀ pre j pid status post, tr = pre ++ Event.waitpid j pid status :: post →
        Event.kill j pid SIGTERM 0 ∈ pre)) ∧
    (∀ s1 i, (svc s1 i).status = SERVICE_STOPPED →
      stop_signal os s1 i = (Outcome.returned 0, s1)) ∧
    (∀ s1 i, (svc s1 i).status ≠ SERVICE_STOPPED →
      os.kill s1.tick (svc s1 i).pid SIGTERM = 0 →
      (stop_signal os s1 i).1 = Outcome.returned 0 ∧
      (stop_signal os s1 i).2.trace = s1.trace ++
        [Event.kill i (svc s1 i).pid SIGTERM 0,
         Event.alarm (Int.tdiv (ext s1 i).timeout_stop_usec 1000000),
         Event.waitpid i (svc s1 i).pid (os.waitpid (s1.tick + 1 + 1) (svc s1 i).pid),
         Event.alarm 0, Event.epoll_del i] ∧
      is_stopped (stop_signal os s1 i).2 i) ∧
    (∀ s1 i, (svc s1 i).status ≠ SERVICE_STOPPED →
      os.kill s1.tick (svc s1 i).pid SIGTERM ≠ 0 →
      (stop_signal os s1 i).1 = Outcome.returned (-1) ∧
      (stop_signal os s1 i).2.trace = s1.trace ++
        [Event.kill i (svc s1 i).pid SIGTERM (os.kill s1.tick (svc s1 i).pid SIGTERM)] ∧
      (stop_signal os s1 i).2.table = s1.table) ∧
    SIGTERM ≠ SIGKILL ∧
    (stop_service_with_deps (os_kill_fails 11) 5 diamond_running "D").2.trace
      = [Event.kill 0 11 SIGTERM (-1),
         Event.kill 1 12 SIGTERM 0, Event.alarm 90, Event.waitpid 1 12 0, Event.alarm 0,
         Event.epoll_del 1,
         Event.kill 0 11 SIGTERM (-1),
         Event.kill 2 13 SIGTERM 0, Event.alarm 90, Event.waitpid 2 13 0, Event.alarm 0,
         Event.epoll_del 2,
         Event.kill 3 14 SIGTERM 0, Event.alarm 90, Event.waitpid 3 14 0, Event.alarm 0,
         Event.epoll_del 3] := by
  refine ⟨?_, ?_, ?_, ?_, by decide, by decide⟩
  · intro tr htr
    obtain ⟨tr0, hinv, _⟩ := stop_inv os fuel s name
    have : tr = tr0 := List.append_cancel_left (htr.symm.trans hinv.trace_eq)
    subst this
    refine ⟨hinv.sigterm, ?_, hinv.events, hinv.reap_kill⟩
    intro j pid rc hmem
    exact absurd (hinv.sigterm j pid SIGKILL rc hmem) (by decide)
  · intro s1 i hs
    simp [stop_signal, hs]
  · intro s1 i hs hrc
    have h0 : (stop_signal os s1 i).1 = Outcome.returned 0 := by
      simp [stop_signal, hs, hrc]
    refine ⟨h0, ?_, stop_signal_ok os s1 i (lt_length_of_status hs) h0⟩
    simp [stop_signal, hs, hrc]
  · intro s1 i hs hrc
    simp [stop_signal, hs, hrc, syscall]

/-! ## The loop of an emergency shutdown -/

theorem names_acyclic_congr {s s' : State} (h : cfg s' = cfg s) (ha : names_acyclic s) :
    names_acyclic s' := by
  unfold names_acyclic
  rw [requires_congr h]
  exact ha

theorem service_count_congr {s s' : State} (h : cfg s' = cfg s) :
    service_count s' = service_count s :=
  length_of_cfg h

/-- With unique names every record of the table is the one its name
resolves to. -/
theorem registered_of_nodup {s : State} (h : (names s).Nodup) {i : Nat}
    (hi : i < service_count s) : registered s i := by
  have hlen : i < (names s).length := by simpa [names, service_count] using hi
  have hname : (names s)[i] = (svc s i).name := by
    have h1 : (names s)[i]? = some (svc s i).name := by
      rw [names, List.getElem?_map, slot_eta s i hi]
      rfl
    rw [List.getElem?_eq_getElem hlen, Option.some.injEq] at h1
    exact h1
  have hidx : (names s).indexOf (svc s i).name = i := by
    rw [← hname]
    exact List.indexOf_getElem h i hlen
  unfold registered find_service_idx
  rw [hidx]
  simp [hlen]

theorem not_running_of_ge {s : State} {i : Nat} (h : service_count s ≤ i) : ¬ is_running s i := by
  unfold is_running svc
  rw [List.getElem?_eq_none h]
  simp [service_zero]

/-- The loop of `emergency_shutdown` keeps the invariant of a stop; when
signals are delivered and the loop returns, every registered service of the
index list that was RUNNING at the start is STOPPED at the end. -/
theorem shutdown_loop_inv (os : OS) (fuel : Nat) :
    ∀ l s, ∃ tr,
      StopInv os s (shutdown_loop (stop_service_with_deps os fuel) l s).1
        (shutdown_loop (stop_service_with_deps os fuel) l s).2 tr ∧
      (delivers os → ∀ r, (shutdown_loop (stop_service_with_deps os fuel) l s).1
          = Outcome.returned r →
        ∀ i ∈ l, registered s i → is_running s i →
          is_stopped (shutdown_loop (stop_service_with_deps os fuel) l s).2 i) := by
  intro l
  induction l with
  | nil =>
    intro s
    exact ⟨[], StopInv.idle os s _ (Or.inr (Or.inl rfl)), fun _ _ _ i hi => by simp at hi⟩
  | cons i l ih =>
    intro s
    by_cases hr : (svc s i).status = SERVICE_RUNNING
    · obtain ⟨t1, h1, _, _, hdel1, _⟩ := stop_inv os fuel s (svc s i).name
      rcases hc : stop_service_with_deps os fuel s (svc s i).name with ⟨o, s1⟩
      rw [hc] at h1 hdel1
      simp only at h1 hdel1
      cases o with
      | returned rc =>
        have hstep : shutdown_loop (stop_service_with_deps os fuel) (i :: l) s
            = shutdown_loop (stop_service_with_deps os fuel) l s1 := by
          simp [shutdown_loop, hr, hc]
        rw [hstep]
        obtain ⟨t2, h2, hdel2⟩ := ih s1
        refine ⟨t1 ++ t2, h1.seq h2, ?_⟩
        intro hdel r hret k hk hreg hrun
        have hcase : is_stopped s1 k ∨ is_running s1 k := by
          rcases h1.same_or_stopped k with h | h
          · right
            unfold is_running
            rw [h]
            exact hrun
          · exact Or.inl h
        rcases List.mem_cons.1 hk with heq | hmem
        · subst heq
          exact h2.stopped_mono k (hdel1 hdel k hreg rc rfl).2
        · rcases hcase with h | h
          · exact h2.stopped_mono k h
          · exact hdel2 hdel r hret k hmem ((registered_congr h1.cfg_eq k).2 hreg) h
      | overflow =>
        have hstep : shutdown_loop (stop_service_with_deps os fuel) (i :: l) s
            = (Outcome.overflow, s1) := by
          simp [shutdown_loop, hr, hc]
        rw [hstep]
        exact ⟨t1, h1, fun _ r hret => by simp at hret⟩
      | child =>
        rcases h1.outcome with h | h | h <;> simp at h
      | exited st =>
        rcases h1.outcome with h | h | h <;> simp at h
    · have hstep : shutdown_loop (stop_service_with_deps os fuel) (i :: l) s
          = shutdown_loop (stop_service_with_deps os fuel) l s := by
        simp [shutdown_loop, hr]
      rw [hstep]
      obtain ⟨t2, h2, hdel2⟩ := ih s
      refine ⟨t2, h2, ?_⟩
      intro hdel r hret k hk hreg hrun
      rcases List.mem_cons.1 hk with heq | hmem
      · subst heq
        exact absurd hrun hr
      · exact hdel2 hdel r hret k hmem hreg hrun

theorem shutdown_loop_no_overflow (os : OS) (fuel : Nat) (s0 : State)
    (hno : ∀ s n, cfg s = cfg s0 → (stop_service_with_deps os fuel s n).1 ≠ Outcome.overflow) :
    ∀ l s, cfg s = cfg s0 →
      (shutdown_loop (stop_service_with_deps os fuel) l s).1 ≠ Outcome.overflow := by
  intro l
  induction l with
  | nil => intro s _; simp [shutdown_loop]
  | cons i l ih =>
    intro s hs
    by_cases hr : (svc s i).status = SERVICE_RUNNING
    · have h1 := hno s (svc s i).name hs
      have h2 := stop_cfg os fuel s (svc s i).name
      rcases hc : stop_service_with_deps os fuel s (svc s i).name with ⟨o, s1⟩
      rw [hc] at h1 h2
      simp only at h1 h2
      cases o with
      | returned rc =>
        have hstep : shutdown_loop (stop_service_with_deps os fuel) (i :: l) s
            = shutdown_loop (stop_service_with_deps os fuel) l s1 := by
          simp [shutdown_loop, hr, hc]
        rw [hstep]
        exact ih s1 (h2.trans hs)
      | overflow => exact absurd rfl h1
      | child => simp [shutdown_loop, hr, hc]
      | exited st => simp [shutdown_loop, hr, hc]
    · have hstep : shutdown_loop (stop_service_with_deps os fuel) (i :: l) s
          = shutdown_loop (stop_service_with_deps os fuel) l s := by
        simp [shutdown_loop, hr]
      rw [hstep]
      exact ih s hs

/-- What `emergency_shutdown` does, from the loop over the table: when the
loop returns the process exits with `EXIT_FAILURE`, in the state the loop
left. -/
theorem emergency_shutdown_exit (os : OS) (fuel : Nat) (s : State) (r : Int)
    (h : (shutdown_loop (stop_service_with_deps os fuel)
      (List.range (service_count s)).reverse { s with running := false }).1 = Outcome.returned r) :
    emergency_shutdown os fuel s = (Outcome.exited EXIT_FAILURE,
      (shutdown_loop (stop_service_with_deps os fuel)
        (List.range (service_count s)).reverse { s with running := false }).2) := by
  unfold emergency_shutdown
  rcases hc : shutdown_loop (stop_service_with_deps os fuel)
    (List.range (service_count s)).reverse { s with running := false } with ⟨o, s1⟩
  rw [hc] at h
  simp only at h
  subst h
  have hc1 : shutdown_loop (stop_service_with_deps os fuel)
      (List.range (service_count { s with running := false })).reverse { s with running := false }
      = (Outcome.returned r, s1) := hc
  simp only [hc1]

/-! ## C19: emergency shutdown -/

theorem shutdown_loop_rel (R : State → State → Prop) (hrefl : ∀ s, R s s)
    (htrans : ∀ a b c, R a b → R b c → R a c)
    (call : State → String → Outcome × State) (hcall : ∀ s d, R s (call s d).2) :
    ∀ l s, R s (shutdown_loop call l s).2 := by
  intro l
  induction l with
  | nil => intro s; exact hrefl s
  | cons i l ih =>
    intro s
    by_cases hr : (svc s i).status = SERVICE_RUNNING
    · have h1 := hcall s (svc s i).name
      rcases hc : call s (svc s i).name with ⟨o, s1⟩
      rw [hc] at h1
      cases o with
      | returned rc =>
        have hstep : shutdown_loop call (i :: l) s = shutdown_loop call l s1 := by
          simp [shutdown_loop, hr, hc]
        rw [hstep]
        exact htrans _ _ _ h1 (ih s1)
      | overflow => simpa [shutdown_loop, hr, hc] using h1
      | child => simpa [shutdown_loop, hr, hc] using h1
      | exited st => simpa [shutdown_loop, hr, hc] using h1
    · have hstep : shutdown_loop call (i :: l) s = shutdown_loop call l s := by
        simp [shutdown_loop, hr]
      rw [hstep]
      exact ih s

theorem stop_signal_running (os : OS) (s : State) (i : Nat) :
    (stop_signal os s i).2.running = s.running := by
  unfold stop_signal
  split
  · rfl
  · simp only
    split
    · simp [stop_reap, mark_stopped, set_slot]
    · rfl

theorem stop_running (os : OS) (fuel : Nat) (s : State) (name : String) :
    (stop_service_with_deps os fuel s name).2.running = s.running :=
  stop_rel os (fun a b => b.running = a.running) (fun _ => rfl)
    (fun _ _ _ h1 h2 => h2.trans h1) (fun s i => stop_signal_running os s i) fuel s name


/-- C19.  Table whose relation between names is acyclic, signal delivery
succeeds, recursion budget above `service_count`.  `emergency_shutdown`
reaches its exit and the exit status is `EXIT_FAILURE`, which is not 0; the
flag `running` is cleared; every registered service that was RUNNING at entry
is STOPPED at the exit (with unique names: every service that was RUNNING);
and whenever SIGTERM is issued for a service, every service that
transitively requires it was STOPPED at entry or has been reaped earlier. -/
theorem C19_emergency_shutdown_order (os : OS) (s : State) (fuel : Nat)
    (hac : names_acyclic s) (hdel : delivers os) (hfuel : service_count s < fuel) :
    (emergency_shutdown os fuel s).1 = Outcome.exited EXIT_FAILURE ∧
    EXIT_FAILURE ≠ 0 ∧
    (emergency_shutdown os fuel s).2.running = false ∧
    (∀ i, registered s i → is_running s i → is_stopped (emergency_shutdown os fuel s).2 i) ∧
    ((names s).Nodup → ∀ i, is_running s i → is_stopped (emergency_shutdown os fuel s).2 i) ∧
    (∀ tr, (emergency_shutdown os fuel s).2.trace = s.trace ++ tr → stop_order_ok s tr) := by
  have hcfg0 : cfg { s with running := false } = cfg s := rfl
  have hno : ∀ s1 n, cfg s1 = cfg { s with running := false } →
      (stop_service_with_deps os fuel s1 n).1 ≠ Outcome.overflow := by
    intro s1 n hs1
    refine stop_terminates os s1 (names_acyclic_congr (hs1.trans hcfg0) hac) n fuel ?_
    rw [service_count_congr (hs1.trans hcfg0)]
    exact hfuel
  have hterm := shutdown_loop_no_overflow os fuel { s with running := false } hno
    (List.range (service_count s)).reverse { s with running := false } rfl
  obtain ⟨tr0, hinv, hstop⟩ := shutdown_loop_inv os fuel
    (List.range (service_count s)).reverse { s with running := false }
  have hret : ∃ r, (shutdown_loop (stop_service_with_deps os fuel)
      (List.range (service_count s)).reverse { s with running := false }).1
        = Outcome.returned r := by
    rcases hinv.outcome with h | h | h
    · exact absurd h hterm
    · exact ⟨0, h⟩
    · exact ⟨-1, h⟩
  obtain ⟨r, hr⟩ := hret
  have hrun : (shutdown_loop (stop_service_with_deps os fuel)
      (List.range (service_count s)).reverse { s with running := false }).2.running = false := by
    have := shutdown_loop_rel (fun a b => b.running = a.running) (fun _ => rfl)
      (fun _ _ _ h1 h2 => h2.trans h1) (stop_service_with_deps os fuel)
      (fun a n => stop_running os fuel a n)
      (List.range (service_count s)).reverse { s with running := false }
    exact this
  have hreg : ∀ i, registered s i → is_running s i →
      is_stopped (shutdown_loop (stop_service_with_deps os fuel)
        (List.range (service_count s)).reverse { s with running := false }).2 i := by
    intro i hi hri
    have hlt : i < service_count s := by
      by_contra hge
      exact not_running_of_ge (Nat.le_of_not_lt hge) hri
    exact hstop hdel r hr i (by simp [hlt]) hi hri
  rw [emergency_shutdown_exit os fuel s r hr]
  refine ⟨rfl, by decide, hrun, hreg, ?_, ?_⟩
  · intro hnd i hri
    have hlt : i < service_count s := by
      by_contra hge
      exact not_running_of_ge (Nat.le_of_not_lt hge) hri
    exact hreg i (registered_of_nodup hnd hlt) hri
  · intro tr htr
    have h1 : (shutdown_loop (stop_service_with_deps os fuel)
        (List.range (service_count s)).reverse { s with running := false }).2.trace
          = s.trace ++ tr0 := hinv.trace_eq
    have : tr = tr0 := List.append_cancel_left (htr.symm.trans h1)
    subst this
    exact hinv.order hdel

/-- C19, witness: A requires B, both running (pids 7 and 8); the shutdown
signals and reaps A first, then B, and exits with status 1. -/
theorem C19_emergency_shutdown_order_witness :
    names_acyclic (pair SERVICE_RUNNING 7 SERVICE_RUNNING 8) ∧ delivers os_ok ∧
    (emergency_shutdown os_ok 3 (pair SERVICE_RUNNING 7 SERVICE_RUNNING 8)).2.trace
      = [Event.kill 0 7 SIGTERM 0, Event.alarm 90, Event.waitpid 0 7 0, Event.alarm 0,
         Event.epoll_del 0,
         Event.kill 1 8 SIGTERM 0, Event.alarm 90, Event.waitpid 1 8 0, Event.alarm 0,
         Event.epoll_del 1] ∧
    (emergency_shutdown os_ok 3 (pair SERVICE_RUNNING 7 SERVICE_RUNNING 8)).1
      = Outcome.exited EXIT_FAILURE ∧
    EXIT_FAILURE ≠ 0 ∧
    (emergency_shutdown os_ok 3 (pair SERVICE_RUNNING 7 SERVICE_RUNNING 8)).2.running = false ∧
    (∀ i, registered (pair SERVICE_RUNNING 7 SERVICE_RUNNING 8) i →
      is_running (pair SERVICE_RUNNING 7 SERVICE_RUNNING 8) i →
      is_stopped (emergency_shutdown os_ok 3 (pair SERVICE_RUNNING 7 SERVICE_RUNNING 8)).2 i) ∧
    ((names (pair SERVICE_RUNNING 7 SERVICE_RUNNING 8)).Nodup →
      ∀ i, is_running (pair SERVICE_RUNNING 7 SERVICE_RUNNING 8) i →
        is_stopped (emergency_shutdown os_ok 3 (pair SERVICE_RUNNING 7 SERVICE_RUNNING 8)).2 i) ∧
    (∀ tr, (emergency_shutdown os_ok 3 (pair SERVICE_RUNNING 7 SERVICE_RUNNING 8)).2.trace
        = (pair SERVICE_RUNNING 7 SERVICE_RUNNING 8).trace ++ tr →
      stop_order_ok (pair SERVICE_RUNNING 7 SERVICE_RUNNING 8) tr) :=
  ⟨names_acyclic_of_rank_ok [2, 1] (by decide), fun _ _ _ => rfl, by decide,
   C19_emergency_shutdown_order os_ok (pair SERVICE_RUNNING 7 SERVICE_RUNNING 8) 3
     (names_acyclic_of_rank_ok [2, 1] (by decide)) (fun _ _ _ => rfl) (by decide)⟩

/-! ## The restart counter and the restart delay -/

theorem ext_set_slot (s : State) (i j : Nat) (v : service_t) (e : service_extra_t) :
    ext (set_slot s i v e) j = ext s j ∨ (j = i ∧ i < s.table.length ∧ ext (set_slot s i v e) j = e) := by
  by_cases hij : i = j
  · subst hij
    by_cases hlt : i < s.table.length
    · exact Or.inr ⟨rfl, hlt, ext_set_slot_self s i v e hlt⟩
    · left
      simp [ext, set_slot, List.getElem?_set, hlt, List.getElem?_eq_none (Nat.le_of_not_lt hlt)]
  · exact Or.inl (ext_set_slot_ne s i j v e hij)

theorem mark_running_budget (s : State) (i j : Nat) (p n : Int) :
    (ext (mark_running s i p n) j).restart_attempts = (ext s j).restart_attempts ∧
    (ext (mark_running s i p n) j).restart_delay = (ext s j).restart_delay := by
  have h := ext_set_slot s i j { svc s i with pid := p, status := SERVICE_RUNNING }
    { ext s i with start_time := n }
  change ext (mark_running s i p n) j = ext s j ∨
    (j = i ∧ i < s.table.length ∧ ext (mark_running s i p n) j = _) at h
  rcases h with h | ⟨hj, _, h⟩
  · rw [h]
    exact ⟨rfl, rfl⟩
  · rw [h, hj]
    exact ⟨rfl, rfl⟩

theorem mark_stopped_budget (s : State) (i j : Nat) (p n : Int) :
    (ext (mark_stopped s i p n) j).restart_attempts = (ext s j).restart_attempts ∧
    (ext (mark_stopped s i p n) j).restart_delay = (ext s j).restart_delay := by
  have h := ext_set_slot s i j { svc s i with status := SERVICE_STOPPED, exit_code := p }
    { ext s i with stop_time := n }
  change ext (mark_stopped s i p n) j = ext s j ∨
    (j = i ∧ i < s.table.length ∧ ext (mark_stopped s i p n) j = _) at h
  rcases h with h | ⟨hj, _, h⟩
  · rw [h]
    exact ⟨rfl, rfl⟩
  · rw [h, hj]
    exact ⟨rfl, rfl⟩

theorem start_spawn_budget (os : OS) (s : State) (i j : Nat) :
    (ext (start_spawn os s i).2 j).restart_attempts = (ext s j).restart_attempts ∧
    (ext (start_spawn os s i).2 j).restart_delay = (ext s j).restart_delay := by
  unfold start_spawn
  split
  · exact ⟨rfl, rfl⟩
  · simp only
    split
    · exact ⟨rfl, rfl⟩
    · split
      · exact mark_running_budget (syscall s (Event.fork i (os.fork s.tick))) i j _ _
      · exact ⟨rfl, rfl⟩

theorem stop_reap_budget (os : OS) (s : State) (i j : Nat) (pid : Int) :
    (ext (stop_reap os s i pid) j).restart_attempts = (ext s j).restart_attempts ∧
    (ext (stop_reap os s i pid) j).restart_delay = (ext s j).restart_delay := by
  unfold stop_reap
  exact mark_stopped_budget (syscall (syscall (syscall s
      (Event.alarm (Int.tdiv (ext s i).timeout_stop_usec 1000000)))
      (Event.waitpid i pid (os.waitpid (syscall s
        (Event.alarm (Int.tdiv (ext s i).timeout_stop_usec 1000000))).tick pid)))
      (Event.alarm 0)) i j _ _

theorem stop_signal_budget (os : OS) (s : State) (i j : Nat) :
    (ext (stop_signal os s i).2 j).restart_attempts = (ext s j).restart_attempts ∧
    (ext (stop_signal os s i).2 j).restart_delay = (ext s j).restart_delay := by
  unfold stop_signal
  split
  · exact ⟨rfl, rfl⟩
  · simp only
    split
    · exact stop_reap_budget os _ i j _
    · exact ⟨rfl, rfl⟩

theorem restart_bump_budget (s : State) (i j : Nat) :
    (ext (restart_bump s i) j).restart_attempts
      = (ext s j).restart_attempts + (if j = i ∧ i < s.table.length then 1 else 0) ∧
    (ext (restart_bump s i) j).restart_delay = (ext s j).restart_delay := by
  unfold restart_bump
  simp only [ext_syscall]
  rcases ext_set_slot s i j (svc s i)
    { ext s i with restart_attempts := (ext s i).restart_attempts + 1 } with h | ⟨hj, hlt, h⟩
  · rw [h]
    have hnot : ¬ (j = i ∧ i < s.table.length) := by
      rintro ⟨hj, hlt⟩
      subst hj
      have h2 := ext_set_slot_self s j (svc s j)
        { ext s j with restart_attempts := (ext s j).restart_attempts + 1 } hlt
      rw [h] at h2
      have h3 := congrArg service_extra_t.restart_attempts h2
      simp at h3
    simp [hnot]
  · rw [h, hj]
    simp [hlt]

/-- A start leaves every restart counter and every restart delay as it
is. -/
theorem start_budget (os : OS) (fuel : Nat) (s : State) (name : String) (j : Nat) :
    (ext (start_service_with_deps os fuel s name).2 j).restart_attempts
      = (ext s j).restart_attempts ∧
    (ext (start_service_with_deps os fuel s name).2 j).restart_delay = (ext s j).restart_delay :=
  start_rel os (fun a b => (ext b j).restart_attempts = (ext a j).restart_attempts ∧
      (ext b j).restart_delay = (ext a j).restart_delay) (fun _ => ⟨rfl, rfl⟩)
    (fun _ _ _ h1 h2 => ⟨h2.1.trans h1.1, h2.2.trans h1.2⟩)
    (fun s i => start_spawn_budget os s i j) fuel s name

/-- A stop leaves every restart counter and every restart delay as it is. -/
theorem stop_budget (os : OS) (fuel : Nat) (s : State) (name : String) (j : Nat) :
    (ext (stop_service_with_deps os fuel s name).2 j).restart_attempts
      = (ext s j).restart_attempts ∧
    (ext (stop_service_with_deps os fuel s name).2 j).restart_delay = (ext s j).restart_delay :=
  stop_rel os (fun a b => (ext b j).restart_attempts = (ext a j).restart_attempts ∧
      (ext b j).restart_delay = (ext a j).restart_delay) (fun _ => ⟨rfl, rfl⟩)
    (fun _ _ _ h1 h2 => ⟨h2.1.trans h1.1, h2.2.trans h1.2⟩)
    (fun s i => stop_signal_budget os s i j) fuel s name

theorem emergency_shutdown_state (os : OS) (fuel : Nat) (s : State) :
    (emergency_shutdown os fuel s).2 = (shutdown_loop (stop_service_with_deps os fuel)
      (List.range (service_count s)).reverse { s with running := false }).2 := by
  unfold emergency_shutdown
  rcases hc : shutdown_loop (stop_service_with_deps os fuel)
    (List.range (service_count s)).reverse { s with running := false } with ⟨o, s1⟩
  have hc1 : shutdown_loop (stop_service_with_deps os fuel)
      (List.range (service_count { s with running := false })).reverse { s with running := false }
      = (o, s1) := hc
  simp only [hc1]
  cases o <;> rfl

/-- An emergency shutdown leaves every restart counter and every restart
delay as it is. -/
theorem emergency_shutdown_budget (os : OS) (fuel : Nat) (s : State) (j : Nat) :
    (ext (emergency_shutdown os fuel s).2 j).restart_attempts = (ext s j).restart_attempts ∧
    (ext (emergency_shutdown os fuel s).2 j).restart_delay = (ext s j).restart_delay := by
  rw [emergency_shutdown_state]
  exact shutdown_loop_rel (fun a b => (ext b j).restart_attempts = (ext a j).restart_attempts ∧
      (ext b j).restart_delay = (ext a j).restart_delay) (fun _ => ⟨rfl, rfl⟩)
    (fun _ _ _ h1 h2 => ⟨h2.1.trans h1.1, h2.2.trans h1.2⟩)
    (stop_service_with_deps os fuel) (fun a n => stop_budget os fuel a n j)
    (List.range (service_count s)).reverse { s with running := false }

/-- What `handle_status_change` is, case by case. -/
theorem handle_status_change_cases (os : OS) (fuel : Nat) (s : State) (idx : Nat) :
    ((svc s idx).status = SERVICE_FAILED ∧ (ext s idx).critical = true →
      handle_status_change os fuel s idx = emergency_shutdown os fuel s) ∧
    (restarts s idx →
      (handle_status_change os fuel s idx).2
        = (start_service_with_deps os fuel (restart_bump s idx) (svc s idx).name).2) ∧
    (¬ ((svc s idx).status = SERVICE_FAILED ∧ (ext s idx).critical = true) → ¬ restarts s idx →
      handle_status_change os fuel s idx = (Outcome.returned 0, s)) := by
  refine ⟨?_, ?_, ?_⟩
  · intro h
    simp [handle_status_change, h]
  · rintro ⟨hf, hc, ha⟩
    have h1 : ¬ ((svc s idx).status = SERVICE_FAILED ∧ (ext s idx).critical = true) := by
      rintro ⟨_, h⟩
      rw [hc] at h
      cases h
    have h2 : (svc s idx).status = SERVICE_FAILED ∧ (ext s idx).restart_attempts < 3 := ⟨hf, ha⟩
    have hname : (svc (restart_bump s idx) idx).name = (svc s idx).name := by
      rw [restart_bump_svc]
    unfold handle_status_change
    rw [if_neg h1, if_pos h2, hname]
    rcases hc1 : start_service_with_deps os fuel (restart_bump s idx) (svc s idx).name with ⟨o, s1⟩
    cases o <;> rfl
  · intro h1 h2
    have h3 : ¬ ((svc s idx).status = SERVICE_FAILED ∧ (ext s idx).restart_attempts < 3) := by
      rintro ⟨hf, ha⟩
      apply h2
      refine ⟨hf, ?_, ha⟩
      cases hcr : (ext s idx).critical with
      | false => rfl
      | true => exact absurd ⟨hf, hcr⟩ h1
    unfold handle_status_change
    rw [if_neg h1, if_neg h3]

/-- The restart counters after `handle_status_change`: the counter of the
service goes up by one exactly when the service is restarted, and no other
counter changes. -/
theorem handle_status_change_attempts (os : OS) (fuel : Nat) (s : State) (idx j : Nat) :
    attempts (handle_status_change os fuel s idx).2 j
      = attempts s j + (if j = idx ∧ restarts s idx then 1 else 0) := by
  obtain ⟨hA, hB, hC⟩ := handle_status_change_cases os fuel s idx
  unfold attempts
  by_cases h1 : (svc s idx).status = SERVICE_FAILED ∧ (ext s idx).critical = true
  · have hnr : ¬ restarts s idx := by
      rintro ⟨_, hc, _⟩
      rw [h1.2] at hc
      cases hc
    rw [hA h1, (emergency_shutdown_budget os fuel s j).1]
    simp [hnr]
  · by_cases h2 : restarts s idx
    · rw [hB h2, (start_budget os fuel _ _ j).1, (restart_bump_budget s idx j).1]
      have hlt : idx < s.table.length :=
        lt_length_of_status (by rw [h2.1]; decide)
      simp [hlt, h2]
    · rw [hC h1 h2]
      simp [h2]

theorem handle_status_change_delay (os : OS) (fuel : Nat) (s : State) (idx j : Nat) :
    (ext (handle_status_change os fuel s idx).2 j).restart_delay = (ext s j).restart_delay := by
  obtain ⟨hA, hB, hC⟩ := handle_status_change_cases os fuel s idx
  by_cases h1 : (svc s idx).status = SERVICE_FAILED ∧ (ext s idx).critical = true
  · rw [hA h1, (emergency_shutdown_budget os fuel s j).2]
  · by_cases h2 : restarts s idx
    · rw [hB h2, (start_budget os fuel _ _ j).2, (restart_bump_budget s idx j).2]
    · rw [hC h1 h2]


/-! ## C17: the restart budget -/

theorem run_call_attempts (os : OS) (fuel : Nat) (s : State) (c : Call) (j : Nat) :
    attempts (run_call os fuel s c).2 j
      = attempts s j + (if c = Call.status_change j ∧ restarts s j then 1 else 0) := by
  cases c with
  | start name =>
    have h := (start_budget os fuel s name j).1
    simpa [run_call, attempts] using h
  | stop name =>
    have h := (stop_budget os fuel s name j).1
    simpa [run_call, attempts] using h
  | status_change idx =>
    have h := handle_status_change_attempts os fuel s idx j
    by_cases hj : j = idx
    · subst hj
      simpa [run_call] using h
    · have hne : ¬ idx = j := fun e => hj e.symm
      simpa [run_call, hj, hne] using h

theorem run_calls_attempts (os : OS) (fuel : Nat) (j : Nat) :
    ∀ calls s, attempts (run_calls os fuel s calls).2 j
      = attempts s j + auto_restarts os fuel s calls j := by
  intro calls
  induction calls with
  | nil => intro s; simp [run_calls, auto_restarts]
  | cons c cs ih =>
    intro s
    have h1 := run_call_attempts os fuel s c j
    rcases hc : run_call os fuel s c with ⟨o, s1⟩
    rw [hc] at h1
    simp only at h1
    cases o with
    | returned rc =>
      have h2 := ih s1
      simp only [run_calls, auto_restarts, hc]
      rw [h2, h1]
      push_cast
      ring
    | overflow =>
      simp only [run_calls, auto_restarts, hc]
      rw [h1]
      simp
    | child =>
      simp only [run_calls, auto_restarts, hc]
      rw [h1]
      simp
    | exited st =>
      simp only [run_calls, auto_restarts, hc]
      rw [h1]
      simp

theorem run_calls_attempts_le (os : OS) (fuel : Nat) (j : Nat) :
    ∀ calls s, attempts s j ≤ 3 → attempts (run_calls os fuel s calls).2 j ≤ 3 := by
  intro calls
  induction calls with
  | nil => intro s h; simpa [run_calls] using h
  | cons c cs ih =>
    intro s h
    have h1 := run_call_attempts os fuel s c j
    have hle : attempts (run_call os fuel s c).2 j ≤ 3 := by
      rw [h1]
      by_cases hr : c = Call.status_change j ∧ restarts s j
      · have h3 : attempts s j < 3 := hr.2.2.2
        rw [if_pos hr]
        omega
      · rw [if_neg hr]
        omega
    rcases hc : run_call os fuel s c with ⟨o, s1⟩
    rw [hc] at hle
    simp only at hle
    cases o with
    | returned rc =>
      simp only [run_calls, hc]
      exact ih s1 hle
    | overflow => simpa [run_calls, hc] using hle
    | child => simpa [run_calls, hc] using hle
    | exited st => simpa [run_calls, hc] using hle

/-- C17.  Across every sequence of calls of `start_service_with_deps`,
`stop_service_with_deps` and `handle_status_change`, the counter
`restart_attempts` of a service is its value at entry plus the number of
automatic restarts of that service: it never decreases, a start and a stop
leave it as it is, one call of `handle_status_change` raises it by one exactly
when it restarts the service, and it stays at or below 3 when it starts at or
below 3.  For a FAILED service that is not critical and whose counter is 3 or
more, `handle_status_change` returns with the state unchanged: no system call,
no record touched, the service still FAILED. -/
theorem C17_restart_budget (os : OS) (fuel : Nat) (s : State) (calls : List Call) (j : Nat) :
    attempts (run_calls os fuel s calls).2 j = attempts s j + auto_restarts os fuel s calls j ∧
    attempts s j ≤ attempts (run_calls os fuel s calls).2 j ∧
    (attempts s j ≤ 3 → attempts (run_calls os fuel s calls).2 j ≤ 3) ∧
    (∀ name, attempts (start_service_with_deps os fuel s name).2 j = attempts s j ∧
      attempts (stop_service_with_deps os fuel s name).2 j = attempts s j) ∧
    (∀ idx, attempts (handle_status_change os fuel s idx).2 j
      = attempts s j + (if j = idx ∧ restarts s idx then 1 else 0)) ∧
    (∀ idx, (svc s idx).status = SERVICE_FAILED → (ext s idx).critical = false →
      3 ≤ attempts s idx →
      handle_status_change os fuel s idx = (Outcome.returned 0, s) ∧
      (svc (handle_status_change os fuel s idx).2 idx).status = SERVICE_FAILED ∧
      (handle_status_change os fuel s idx).2.trace = s.trace) := by
  have hsum := run_calls_attempts os fuel j calls s
  refine ⟨hsum, ?_, run_calls_attempts_le os fuel j calls s, ?_, ?_, ?_⟩
  · rw [hsum]
    omega
  · intro name
    exact ⟨(start_budget os fuel s name j).1, (stop_budget os fuel s name j).1⟩
  · intro idx
    exact handle_status_change_attempts os fuel s idx j
  · intro idx hf hc h3
    have h1 : ¬ ((svc s idx).status = SERVICE_FAILED ∧ (ext s idx).critical = true) := by
      rintro ⟨_, h⟩
      rw [hc] at h
      cases h
    have h2 : ¬ restarts s idx := by
      rintro ⟨_, _, ha⟩
      have : attempts s idx < 3 := ha
      omega
    have := (handle_status_change_cases os fuel s idx).2.2 h1 h2
    rw [this]
    exact ⟨rfl, hf, rfl⟩


/-! ## C16: what escalates to an emergency shutdown -/

theorem start_spawn_running (os : OS) (s : State) (i : Nat) :
    (start_spawn os s i).2.running = s.running := by
  unfold start_spawn
  split
  · rfl
  · simp only
    split
    · rfl
    · split
      · simp [mark_running, set_slot]
      · rfl

theorem start_running (os : OS) (fuel : Nat) (s : State) (name : String) :
    (start_service_with_deps os fuel s name).2.running = s.running :=
  start_rel os (fun a b => b.running = a.running) (fun _ => rfl)
    (fun _ _ _ h1 h2 => h2.trans h1) (fun s i => start_spawn_running os s i) fuel s name

theorem start_spawn_no_exit (os : OS) (s : State) (i : Nat) (st : Int) :
    (start_spawn os s i).1 ≠ Outcome.exited st := by
  unfold start_spawn
  split
  · simp
  · simp only
    split
    · simp
    · split <;> simp

theorem start_deps_no_exit (call : State → String → Outcome × State)
    (hcall : ∀ s d st, (call s d).1 ≠ Outcome.exited st) :
    ∀ ds s st, (start_deps call ds s).1 ≠ Outcome.exited st := by
  intro ds
  induction ds with
  | nil => intro s st; simp [start_deps]
  | cons d ds ih =>
    intro s st
    have h1 := hcall s d st
    rcases hc : call s d with ⟨o, s1⟩
    rw [hc] at h1
    cases o with
    | returned rc =>
      by_cases hrc : rc = 0
      · have hstep : start_deps call (d :: ds) s = start_deps call ds s1 := by
          simp [start_deps, hc, hrc]
        rw [hstep]
        exact ih s1 st
      · simp [start_deps, hc, hrc]
    | overflow => simp [start_deps, hc]
    | child => simp [start_deps, hc]
    | exited st1 => simpa [start_deps, hc] using h1

/-- A start never ends the supervisor: its outcome is never `exited`. -/
theorem start_no_exit (os : OS) :
    ∀ fuel s name st, (start_service_with_deps os fuel s name).1 ≠ Outcome.exited st := by
  intro fuel
  induction fuel with
  | zero => intro s name st; simp [start_service_with_deps]
  | succ fuel ih =>
    intro s name st
    cases hf : find_service_idx s name with
    | none => simp [start_service_with_deps, hf]
    | some idx =>
      have h1 := start_deps_no_exit (start_service_with_deps os fuel) ih (ext s idx).deps s st
      rcases hc : start_deps (start_service_with_deps os fuel) (ext s idx).deps s with ⟨o, s1⟩
      rw [hc] at h1
      cases o with
      | returned rc =>
        by_cases hrc : rc = 0
        · have hst : start_service_with_deps os (fuel + 1) s name = start_spawn os s1 idx := by
            simp [start_service_with_deps, hf, hc, hrc]
          rw [hst]
          exact start_spawn_no_exit os s1 idx st
        · simp [start_service_with_deps, hf, hc, hrc]
      | overflow => simp [start_service_with_deps, hf, hc]
      | child => simp [start_service_with_deps, hf, hc]
      | exited st1 => simpa [start_service_with_deps, hf, hc] using h1

theorem restart_bump_trace (s : State) (i : Nat) :
    (restart_bump s i).trace = s.trace ++ [Event.sleep (ext s i).restart_delay] := by
  have h : (ext (set_slot s i (svc s i)
      { ext s i with restart_attempts := (ext s i).restart_attempts + 1 }) i).restart_delay
        = (ext s i).restart_delay := by
    rcases ext_set_slot s i i (svc s i)
      { ext s i with restart_attempts := (ext s i).restart_attempts + 1 } with h | ⟨_, _, h⟩
    · rw [h]
    · rw [h]
  unfold restart_bump
  simp only [trace_syscall, h]
  rfl

theorem restart_bump_running (s : State) (i : Nat) : (restart_bump s i).running = s.running := rfl

/-- An emergency shutdown clears the flag `running` and makes only the system
calls of a stop. -/
theorem emergency_shutdown_events (os : OS) (fuel : Nat) (s : State) :
    (emergency_shutdown os fuel s).2.running = false ∧
    ∃ tr, (emergency_shutdown os fuel s).2.trace = s.trace ++ tr ∧
      ∀ e ∈ tr, is_stop_event e = true := by
  rw [emergency_shutdown_state]
  refine ⟨?_, ?_⟩
  · exact shutdown_loop_rel (fun a b => b.running = a.running) (fun _ => rfl)
      (fun _ _ _ h1 h2 => h2.trans h1) (stop_service_with_deps os fuel)
      (fun a n => stop_running os fuel a n)
      (List.range (service_count s)).reverse { s with running := false }
  · obtain ⟨tr, hinv, _⟩ := shutdown_loop_inv os fuel
      (List.range (service_count s)).reverse { s with running := false }
    exact ⟨tr, hinv.trace_eq, hinv.events⟩

/-- With an acyclic relation between names and a recursion budget above
`service_count`, an emergency shutdown reaches `exit(EXIT_FAILURE)`. -/
theorem emergency_shutdown_exits (os : OS) (s : State) (fuel : Nat)
    (hac : names_acyclic s) (hfuel : service_count s < fuel) :
    (emergency_shutdown os fuel s).1 = Outcome.exited EXIT_FAILURE := by
  have hcfg0 : cfg { s with running := false } = cfg s := rfl
  have hno : ∀ s1 n, cfg s1 = cfg { s with running := false } →
      (stop_service_with_deps os fuel s1 n).1 ≠ Outcome.overflow := by
    intro s1 n hs1
    refine stop_terminates os s1 (names_acyclic_congr (hs1.trans hcfg0) hac) n fuel ?_
    rw [service_count_congr (hs1.trans hcfg0)]
    exact hfuel
  have hterm := shutdown_loop_no_overflow os fuel { s with running := false } hno
    (List.range (service_count s)).reverse { s with running := false } rfl
  obtain ⟨tr0, hinv, _⟩ := shutdown_loop_inv os fuel
    (List.range (service_count s)).reverse { s with running := false }
  rcases hinv.outcome with h | h | h
  · exact absurd h hterm
  · rw [emergency_shutdown_exit os fuel s 0 h]
  · rw [emergency_shutdown_exit os fuel s (-1) h]

/-- The restart branch of `handle_status_change`: one `sleep(restart_delay)`,
then the system calls of a start. -/
theorem handle_status_change_restart (os : OS) (fuel : Nat) (s : State) (idx : Nat)
    (h : restarts s idx) :
    (handle_status_change os fuel s idx).2.running = s.running ∧
    (∀ st, (handle_status_change os fuel s idx).1 ≠ Outcome.exited st) ∧
    ∃ tr, (handle_status_change os fuel s idx).2.trace
        = s.trace ++ Event.sleep (ext s idx).restart_delay :: tr ∧
      ∀ e ∈ tr, is_start_event e := by
  have h1 : ¬ ((svc s idx).status = SERVICE_FAILED ∧ (ext s idx).critical = true) := by
    rintro ⟨_, hc⟩
    rw [h.2.1] at hc
    cases hc
  have h2 : (svc s idx).status = SERVICE_FAILED ∧ (ext s idx).restart_attempts < 3 :=
    ⟨h.1, h.2.2⟩
  have hname : (svc (restart_bump s idx) idx).name = (svc s idx).name := by
    rw [restart_bump_svc]
  have hrun := start_running os fuel (restart_bump s idx) (svc s idx).name
  have hex := start_no_exit os fuel (restart_bump s idx) (svc s idx).name
  obtain ⟨tr, htr, hev⟩ := start_events os fuel (restart_bump s idx) (svc s idx).name
  rw [restart_bump_trace] at htr
  unfold handle_status_change
  rw [if_neg h1, if_pos h2, hname]
  rcases hc1 : start_service_with_deps os fuel (restart_bump s idx) (svc s idx).name with ⟨o, s1⟩
  rw [hc1] at hrun hex htr
  simp only at hrun hex htr
  have hrun1 : s1.running = s.running := hrun
  have htr1 : s1.trace = s.trace ++ Event.sleep (ext s idx).restart_delay :: tr := by
    rw [htr]
    simp
  cases o with
  | returned rc => exact ⟨hrun1, fun st => by simp, tr, htr1, hev⟩
  | overflow => exact ⟨hrun1, fun st => by simp, tr, htr1, hev⟩
  | child => exact ⟨hrun1, fun st => by simp, tr, htr1, hev⟩
  | exited st1 => exact absurd rfl (hex st1)

/-- C16, counterexample.  One service A: FAILED, marked critical, with
`restart_attempts` 0, so the whole restart budget is left.  A call of
`handle_status_change(0)` is a call of `emergency_shutdown`: the flag
`running` is cleared and the process ends in `exit(EXIT_FAILURE)`; no
`fork()` and no `sleep()` is made (the trace stays empty), A is still FAILED
and its `restart_attempts` is still 0. -/
theorem C16_critical_failure_escalates_at_once :
    (svc (critical_failed 0) 0).status = SERVICE_FAILED ∧
    (ext (critical_failed 0) 0).critical = true ∧
    attempts (critical_failed 0) 0 = 0 ∧
    handle_status_change os_ok 2 (critical_failed 0) 0
      = emergency_shutdown os_ok 2 (critical_failed 0) ∧
    (handle_status_change os_ok 2 (critical_failed 0) 0).1 = Outcome.exited EXIT_FAILURE ∧
    (handle_status_change os_ok 2 (critical_failed 0) 0).2.running = false ∧
    (handle_status_change os_ok 2 (critical_failed 0) 0).2.trace = [] ∧
    (svc (handle_status_change os_ok 2 (critical_failed 0) 0).2 0).status = SERVICE_FAILED ∧
    attempts (handle_status_change os_ok 2 (critical_failed 0) 0).2 0 = 0 := by
  refine ⟨rfl, rfl, rfl, rfl, ?_, ?_, ?_, ?_, ?_⟩ <;> decide

/-- C16, amended.  `handle_status_change` calls `emergency_shutdown` exactly
when the service is FAILED and marked critical, whatever its
`restart_attempts`.  In that case the call is the emergency shutdown: the flag
`running` is cleared, only the system calls of a stop are made (no `fork()`,
no `sleep()`: the service is not restarted), no restart counter changes, and
with an acyclic table and enough recursion budget the process ends in
`exit(EXIT_FAILURE)`.  In every other case the flag `running` is left as it
is, the process does not exit, and no system call of a stop is made. -/
theorem C16_escalation_iff_failed_critical (os : OS) (fuel : Nat) (s : State) (idx : Nat) :
    ((svc s idx).status = SERVICE_FAILED ∧ (ext s idx).critical = true →
      handle_status_change os fuel s idx = emergency_shutdown os fuel s ∧
      (handle_status_change os fuel s idx).2.running = false ∧
      (∀ j, attempts (handle_status_change os fuel s idx).2 j = attempts s j) ∧
      (∃ tr, (handle_status_change os fuel s idx).2.trace = s.trace ++ tr ∧
        ∀ e ∈ tr, is_stop_event e = true) ∧
      (names_acyclic s → service_count s < fuel →
        (handle_status_change os fuel s idx).1 = Outcome.exited EXIT_FAILURE)) ∧
    (¬ ((svc s idx).status = SERVICE_FAILED ∧ (ext s idx).critical = true) →
      (handle_status_change os fuel s idx).2.running = s.running ∧
      (∀ st, (handle_status_change os fuel s idx).1 ≠ Outcome.exited st) ∧
      (∃ tr, (handle_status_change os fuel s idx).2.trace = s.trace ++ tr ∧
        ∀ e ∈ tr, is_stop_event e = false)) := by
  obtain ⟨hA, _, hC⟩ := handle_status_change_cases os fuel s idx
  refine ⟨fun h => ?_, fun h => ?_⟩
  · have hnr : ¬ restarts s idx := by
      rintro ⟨_, hc, _⟩
      rw [h.2] at hc
      cases hc
    refine ⟨hA h, ?_, ?_, ?_, ?_⟩
    · rw [hA h]
      exact (emergency_shutdown_events os fuel s).1
    · intro j
      rw [handle_status_change_attempts]
      simp [hnr]
    · rw [hA h]
      exact (emergency_shutdown_events os fuel s).2
    · intro hac hfuel
      rw [hA h]
      exact emergency_shutdown_exits os s fuel hac hfuel
  · by_cases h2 : restarts s idx
    · obtain ⟨hrun, hex, tr, htr, hev⟩ := handle_status_change_restart os fuel s idx h2
      refine ⟨hrun, hex, _, htr, ?_⟩
      intro e he
      rcases List.mem_cons.1 he with he | he
      · rw [he]
        rfl
      · rcases hev e he with ⟨j, p, hj⟩ | ⟨j, hj⟩ <;> rw [hj] <;> rfl
    · rw [hC h h2]
      exact ⟨rfl, fun st => by simp, [], by simp, by simp⟩


/-! ## C18: the delay before an automatic restart -/

theorem run_calls_rel (os : OS) (fuel : Nat) (R : State → State → Prop) (hrefl : ∀ s, R s s)
    (htrans : ∀ a b c, R a b → R b c → R a c)
    (hcall : ∀ s c, R s (run_call os fuel s c).2) :
    ∀ cs s, R s (run_calls os fuel s cs).2 := by
  intro cs
  induction cs with
  | nil => intro s; exact hrefl s
  | cons c cs ih =>
    intro s
    have h1 := hcall s c
    rcases hc : run_call os fuel s c with ⟨o, s1⟩
    rw [hc] at h1
    cases o with
    | returned rc =>
      have hstep : run_calls os fuel s (c :: cs) = run_calls os fuel s1 cs := by
        simp [run_calls, hc]
      rw [hstep]
      exact htrans _ _ _ h1 (ih s1)
    | overflow => simpa [run_calls, hc] using h1
    | child => simpa [run_calls, hc] using h1
    | exited st => simpa [run_calls, hc] using h1

theorem run_call_delay (os : OS) (fuel : Nat) (s : State) (c : Call) (j : Nat) :
    (ext (run_call os fuel s c).2 j).restart_delay = (ext s j).restart_delay := by
  cases c with
  | start name => exact (start_budget os fuel s name j).2
  | stop name => exact (stop_budget os fuel s name j).2
  | status_change idx => exact handle_status_change_delay os fuel s idx j

/-- Every `sleep()` of one call waits the `restart_delay` of a service of the
table. -/
theorem run_call_sleeps (os : OS) (fuel : Nat) (s : State) (c : Call) :
    ∃ tr, (run_call os fuel s c).2.trace = s.trace ++ tr ∧
      ∀ d, Event.sleep d ∈ tr → ∃ j, j < service_count s ∧ d = (ext s j).restart_delay := by
  cases c with
  | start name =>
    obtain ⟨tr, htr, hev⟩ := start_events os fuel s name
    refine ⟨tr, htr, fun d hd => ?_⟩
    rcases hev _ hd with ⟨j, p, hj⟩ | ⟨j, hj⟩ <;> cases hj
  | stop name =>
    obtain ⟨tr, hinv, _⟩ := stop_inv os fuel s name
    refine ⟨tr, hinv.trace_eq, fun d hd => ?_⟩
    have := hinv.events _ hd
    cases this
  | status_change idx =>
    obtain ⟨hA, _, hC⟩ := handle_status_change_cases os fuel s idx
    by_cases h1 : (svc s idx).status = SERVICE_FAILED ∧ (ext s idx).critical = true
    · obtain ⟨_, tr, htr, hev⟩ := emergency_shutdown_events os fuel s
      refine ⟨tr, ?_, fun d hd => ?_⟩
      · show (handle_status_change os fuel s idx).2.trace = s.trace ++ tr
        rw [hA h1]
        exact htr
      · have := hev _ hd
        cases this
    · by_cases h2 : restarts s idx
      · obtain ⟨_, _, tr, htr, hev⟩ := handle_status_change_restart os fuel s idx h2
        refine ⟨_, htr, fun d hd => ?_⟩
        rcases List.mem_cons.1 hd with hd | hd
        · have hlt : idx < s.table.length := lt_length_of_status (by rw [h2.1]; decide)
          refine ⟨idx, hlt, ?_⟩
          cases hd
          rfl
        · rcases hev _ hd with ⟨j, p, hj⟩ | ⟨j, hj⟩ <;> cases hj
      · refine ⟨[], ?_, fun d hd => by simp at hd⟩
        show (handle_status_change os fuel s idx).2.trace = s.trace ++ []
        rw [hC h1 h2]
        simp

/-- C18, counterexample.  One service A, FAILED, not critical, with
`restart_delay` 1 and `restart_attempts` 0, and an operating system in which
every `fork()` fails, so that A stays FAILED.  Two calls of
`handle_status_change(0)` in a row make two automatic restarts; the delay
before the first is 1 and the delay before the second is 1 again: the second
is not greater than the first.  The counter goes from 0 to 2 and the field
`restart_delay` is still 1. -/
theorem C18_second_delay_not_greater :
    (ext (single SERVICE_FAILED 0) 0).restart_delay = 1 ∧
    (run_calls os_fail 2 (single SERVICE_FAILED 0)
        [Call.status_change 0, Call.status_change 0]).2.trace
      = [Event.sleep 1, Event.fork 0 (-1), Event.sleep 1, Event.fork 0 (-1)] ∧
    attempts (run_calls os_fail 2 (single SERVICE_FAILED 0)
        [Call.status_change 0, Call.status_change 0]).2 0 = 2 ∧
    (ext (run_calls os_fail 2 (single SERVICE_FAILED 0)
        [Call.status_change 0, Call.status_change 0]).2 0).restart_delay = 1 := by
  refine ⟨?_, ?_, ?_, ?_⟩ <;> decide

/-- C18, amended.  The delay before every automatic restart of a service is
the constant `restart_delay` of that service; there is no backoff.  No
sequence of starts, stops and status changes alters a `restart_delay`; when
`handle_status_change` restarts `services[idx]` the first system call it makes
is `sleep(restart_delay)` with the value of the field at entry, followed only
by the system calls of the start; and every `sleep()` made along a sequence of
calls waits the `restart_delay` that some service of the table had when the
sequence began. -/
theorem C18_constant_restart_delay (os : OS) (fuel : Nat) (s : State) :
    (∀ calls j, (ext (run_calls os fuel s calls).2 j).restart_delay = (ext s j).restart_delay) ∧
    (∀ idx, restarts s idx →
      ∃ tr, (handle_status_change os fuel s idx).2.trace
          = s.trace ++ Event.sleep (ext s idx).restart_delay :: tr ∧
        ∀ d, Event.sleep d ∉ tr) ∧
    (∀ calls, ∃ tr, (run_calls os fuel s calls).2.trace = s.trace ++ tr ∧
      ∀ d, Event.sleep d ∈ tr → ∃ j, j < service_count s ∧ d = (ext s j).restart_delay) := by
  refine ⟨?_, ?_, ?_⟩
  · intro calls j
    exact run_calls_rel os fuel (fun a b => (ext b j).restart_delay = (ext a j).restart_delay)
      (fun _ => rfl) (fun _ _ _ h1 h2 => h2.trans h1) (fun a c => run_call_delay os fuel a c j)
      calls s
  · intro idx h
    obtain ⟨_, _, tr, htr, hev⟩ := handle_status_change_restart os fuel s idx h
    refine ⟨tr, htr, fun d hd => ?_⟩
    rcases hev _ hd with ⟨j, p, hj⟩ | ⟨j, hj⟩ <;> cases hj
  · intro calls
    have h := run_calls_rel os fuel
      (fun a b => service_count b = service_count a ∧
        (∀ j, (ext b j).restart_delay = (ext a j).restart_delay) ∧
        ∃ tr, b.trace = a.trace ++ tr ∧
          ∀ d, Event.sleep d ∈ tr → ∃ j, j < service_count a ∧ d = (ext a j).restart_delay)
      (fun a => ⟨rfl, fun _ => rfl, [], by simp, fun d hd => by simp at hd⟩)
      (fun a b c ⟨hl1, hd1, t1, ht1, hs1⟩ ⟨hl2, hd2, t2, ht2, hs2⟩ =>
        ⟨hl2.trans hl1, fun j => (hd2 j).trans (hd1 j), t1 ++ t2,
          by rw [ht2, ht1, List.append_assoc], fun d hd => by
            rcases List.mem_append.1 hd with hd | hd
            · exact hs1 d hd
            · obtain ⟨j, hj, hdj⟩ := hs2 d hd
              exact ⟨j, hl1 ▸ hj, hdj.trans (hd1 j)⟩⟩)
      (fun a c => ⟨length_of_reach (run_call_reach os fuel a c),
        fun j => run_call_delay os fuel a c j, run_call_sleeps os fuel a c⟩)
      calls s
    exact h.2.2


/-! ## C20: termination of the recursion -/

theorem start_deps_fuel (call call2 : State → String → Outcome × State)
    (h : ∀ s d, (call s d).1 ≠ Outcome.overflow → call2 s d = call s d) :
    ∀ ds s, (start_deps call ds s).1 ≠ Outcome.overflow →
      start_deps call2 ds s = start_deps call ds s := by
  intro ds
  induction ds with
  | nil => intro s _; rfl
  | cons d ds ih =>
    intro s hno
    have h1 := h s d
    rcases hc : call s d with ⟨o, s1⟩
    rw [hc] at h1
    cases o with
    | returned rc =>
      have h2 : call2 s d = (Outcome.returned rc, s1) := h1 (by simp)
      by_cases hrc : rc = 0
      · have hstep : start_deps call (d :: ds) s = start_deps call ds s1 := by
          simp [start_deps, hc, hrc]
        have hstep2 : start_deps call2 (d :: ds) s = start_deps call2 ds s1 := by
          simp [start_deps, h2, hrc]
        rw [hstep] at hno
        rw [hstep, hstep2]
        exact ih s1 hno
      · simp [start_deps, hc, h2, hrc]
    | overflow => exact absurd (by simp [start_deps, hc]) hno
    | child =>
      have h2 : call2 s d = (Outcome.child, s1) := h1 (by simp)
      simp [start_deps, hc, h2]
    | exited st =>
      have h2 : call2 s d = (Outcome.exited st, s1) := h1 (by simp)
      simp [start_deps, hc, h2]

/-- A start that does not run out of recursion budget gives the same result
with one more unit of budget. -/
theorem start_fuel_succ (os : OS) :
    ∀ fuel s name, (start_service_with_deps os fuel s name).1 ≠ Outcome.overflow →
      start_service_with_deps os (fuel + 1) s name = start_service_with_deps os fuel s name := by
  intro fuel
  induction fuel with
  | zero => intro s name hno; exact absurd rfl hno
  | succ fuel ih =>
    intro s name hno
    cases hf : find_service_idx s name with
    | none => simp [start_service_with_deps, hf]
    | some idx =>
      have hdeps : (start_deps (start_service_with_deps os fuel) (ext s idx).deps s).1
          ≠ Outcome.overflow := by
        intro hov
        apply hno
        rcases hc : start_deps (start_service_with_deps os fuel) (ext s idx).deps s with ⟨o, s1⟩
        rw [hc] at hov
        simp only at hov
        subst hov
        simp [start_service_with_deps, hf, hc]
      have heq := start_deps_fuel (start_service_with_deps os fuel)
        (start_service_with_deps os (fuel + 1)) ih (ext s idx).deps s hdeps
      have e1 : start_service_with_deps os (fuel + 1 + 1) s name
          = match start_deps (start_service_with_deps os (fuel + 1)) (ext s idx).deps s with
            | (Outcome.returned rc, s1) =>
              if rc ≠ 0 then (Outcome.returned (-1), s1) else start_spawn os s1 idx
            | (o, s1) => (o, s1) := by
        simp [start_service_with_deps, hf]
      have e2 : start_service_with_deps os (fuel + 1) s name
          = match start_deps (start_service_with_deps os fuel) (ext s idx).deps s with
            | (Outcome.returned rc, s1) =>
              if rc ≠ 0 then (Outcome.returned (-1), s1) else start_spawn os s1 idx
            | (o, s1) => (o, s1) := by
        simp [start_service_with_deps, hf]
      rw [e1, e2, heq]

theorem start_fuel_le (os : OS) (s : State) (name : String) (fuel : Nat)
    (hno : (start_service_with_deps os fuel s name).1 ≠ Outcome.overflow) :
    ∀ fuel2, fuel ≤ fuel2 →
      start_service_with_deps os fuel2 s name = start_service_with_deps os fuel s name := by
  intro fuel2 hle
  induction fuel2, hle using Nat.le_induction with
  | base => rfl
  | succ n _ ih =>
    rw [← ih]
    apply start_fuel_succ
    rw [ih]
    exact hno

theorem stop_dependents_fuel (call call2 : State → String → Outcome × State)
    (h : ∀ s d, (call s d).1 ≠ Outcome.overflow → call2 s d = call s d) :
    ∀ ns s, (stop_dependents call ns s).1 ≠ Outcome.overflow →
      stop_dependents call2 ns s = stop_dependents call ns s := by
  intro ns
  induction ns with
  | nil => intro s _; rfl
  | cons n ns ih =>
    intro s hno
    have h1 := h s n
    rcases hc : call s n with ⟨o, s1⟩
    rw [hc] at h1
    cases o with
    | returned rc =>
      have h2 : call2 s n = (Outcome.returned rc, s1) := h1 (by simp)
      have hstep : stop_dependents call (n :: ns) s = stop_dependents call ns s1 := by
        simp [stop_dependents, hc]
      have hstep2 : stop_dependents call2 (n :: ns) s = stop_dependents call2 ns s1 := by
        simp [stop_dependents, h2]
      rw [hstep] at hno
      rw [hstep, hstep2]
      exact ih s1 hno
    | overflow => exact absurd (by simp [stop_dependents, hc]) hno
    | child =>
      have h2 : call2 s n = (Outcome.child, s1) := h1 (by simp)
      simp [stop_dependents, hc, h2]
    | exited st =>
      have h2 : call2 s n = (Outcome.exited st, s1) := h1 (by simp)
      simp [stop_dependents, hc, h2]

/-- A stop that does not run out of recursion budget gives the same result
with one more unit of budget. -/
theorem stop_fuel_succ (os : OS) :
    ∀ fuel s name, (stop_service_with_deps os fuel s name).1 ≠ Outcome.overflow →
      stop_service_with_deps os (fuel + 1) s name = stop_service_with_deps os fuel s name := by
  intro fuel
  induction fuel with
  | zero => intro s name hno; exact absurd rfl hno
  | succ fuel ih =>
    intro s name hno
    cases hf : find_service_idx s name with
    | none => simp [stop_service_with_deps, hf]
    | some idx =>
      have hdeps : (stop_dependents (stop_service_with_deps os fuel) (dependents s name) s).1
          ≠ Outcome.overflow := by
        intro hov
        apply hno
        rcases hc : stop_dependents (stop_service_with_deps os fuel) (dependents s name) s
          with ⟨o, s1⟩
        rw [hc] at hov
        simp only at hov
        subst hov
        simp [stop_service_with_deps, hf, hc]
      have heq := stop_dependents_fuel (stop_service_with_deps os fuel)
        (stop_service_with_deps os (fuel + 1)) ih (dependents s name) s hdeps
      have e1 : stop_service_with_deps os (fuel + 1 + 1) s name
          = match stop_dependents (stop_service_with_deps os (fuel + 1)) (dependents s name) s with
            | (Outcome.returned _, s1) => stop_signal os s1 idx
            | (o, s1) => (o, s1) := by
        simp [stop_service_with_deps, hf]
      have e2 : stop_service_with_deps os (fuel + 1) s name
          = match stop_dependents (stop_service_with_deps os fuel) (dependents s name) s with
            | (Outcome.returned _, s1) => stop_signal os s1 idx
            | (o, s1) => (o, s1) := by
        simp [stop_service_with_deps, hf]
      rw [e1, e2, heq]

theorem stop_fuel_le (os : OS) (s : State) (name : String) (fuel : Nat)
    (hno : (stop_service_with_deps os fuel s name).1 ≠ Outcome.overflow) :
    ∀ fuel2, fuel ≤ fuel2 →
      stop_service_with_deps os fuel2 s name = stop_service_with_deps os fuel s name := by
  intro fuel2 hle
  induction fuel2, hle using Nat.le_induction with
  | base => rfl
  | succ n _ ih =>
    rw [← ih]
    apply stop_fuel_succ
    rw [ih]
    exact hno

/-- With unique names, an edge between names whose target is registered is an
edge between the records the names resolve to. -/
theorem depends_on_of_requires {s : State} (hnd : (names s).Nodup) {a b : String} {k : Nat}
    (h : requires s a b) (hk : find_service_idx s b = some k) :
    ∃ i, find_service_idx s a = some i ∧ depends_on s i k := by
  obtain ⟨r, hr, ha, hb⟩ := h
  obtain ⟨i, hi, hri⟩ := List.getElem_of_mem hr
  have hslot := slot_eta s i hi
  rw [List.getElem?_eq_getElem hi, hri, Option.some.injEq] at hslot
  have hsvc : svc s i = r.1 := (congrArg Prod.fst hslot).symm
  have hext : ext s i = r.2 := (congrArg Prod.snd hslot).symm
  have hreg : find_service_idx s (svc s i).name = some i := registered_of_nodup hnd hi
  rw [hsvc, ha] at hreg
  refine ⟨i, hreg, b, ?_, hk⟩
  rw [hext]
  exact hb

/-- With unique names the two readings of acyclicity agree: a table whose
records form no cycle has no cycle between names. -/
theorem names_acyclic_of_nodup {s : State} (hnd : (names s).Nodup) (h : acyclic s) :
    names_acyclic s := by
  have key : ∀ a c, Relation.TransGen (requires s) a c → ∀ k, find_service_idx s c = some k →
      ∃ i, find_service_idx s a = some i ∧ Relation.TransGen (depends_on s) i k := by
    intro a c hac
    induction hac using Relation.TransGen.head_induction_on with
    | base hab =>
      intro k hk
      obtain ⟨i, hi, hd⟩ := depends_on_of_requires hnd hab hk
      exact ⟨i, hi, Relation.TransGen.single hd⟩
    | ih hab _ ih =>
      intro k hk
      obtain ⟨j, hj, hjk⟩ := ih k hk
      obtain ⟨i, hi, hd⟩ := depends_on_of_requires hnd hab hj
      exact ⟨i, hi, Relation.TransGen.head hd hjk⟩
  intro a haa
  obtain ⟨b, hab, _⟩ := Relation.TransGen.head'_iff.1 haa
  obtain ⟨k, hk⟩ := requires_find hab
  obtain ⟨i, hi, hik⟩ := key a a haa k hk
  rw [hk] at hi
  cases hi
  exact h k hik

/-- C20.  Table whose hard-dependency relation between names is acyclic,
recursion budget above `service_count`, any name, any behaviour of `fork`,
`kill` and `waitpid`.  Both `start_service_with_deps(name)` and
`stop_service_with_deps(name)` end without running out of budget: the start
returns 0 or -1 or is the forked child, the stop returns 0 or -1.  Their
results do not depend on the budget once it is above `service_count`, so the
budget is no part of what is computed, and the relation the start recurses
along is well founded.  A name that resolves to no service makes the call
return -1 at once with the state unchanged, and a start of a service one of
whose dependency names resolves to no service does not return 0. -/
theorem C20_dependency_recursion_terminates (os : OS) (s : State) (hac : names_acyclic s)
    (name : String) (fuel : Nat) (hfuel : service_count s < fuel) :
    ((start_service_with_deps os fuel s name).1 = Outcome.returned 0 ∨
      (start_service_with_deps os fuel s name).1 = Outcome.returned (-1) ∨
      (start_service_with_deps os fuel s name).1 = Outcome.child) ∧
    ((stop_service_with_deps os fuel s name).1 = Outcome.returned 0 ∨
      (stop_service_with_deps os fuel s name).1 = Outcome.returned (-1)) ∧
    (∀ fuel2, fuel ≤ fuel2 →
      start_service_with_deps os fuel2 s name = start_service_with_deps os fuel s name ∧
      stop_service_with_deps os fuel2 s name = stop_service_with_deps os fuel s name) ∧
    WellFounded (fun j i => depends_on s i j) ∧
    (∀ d, find_service_idx s d = none →
      start_service_with_deps os fuel s d = (Outcome.returned (-1), s) ∧
      stop_service_with_deps os fuel s d = (Outcome.returned (-1), s)) ∧
    (∀ idx d, find_service_idx s name = some idx → d ∈ (ext s idx).deps →
      find_service_idx s d = none →
      (start_service_with_deps os fuel s name).1 ≠ Outcome.returned 0) := by
  have hstart := start_terminates os s (acyclic_of_names_acyclic hac) name fuel hfuel
  have hstop := stop_terminates os s hac name fuel hfuel
  obtain ⟨tr1, hinv1, hpost1, _⟩ := start_inv os fuel s name
  obtain ⟨tr2, hinv2, _⟩ := stop_inv os fuel s name
  refine ⟨?_, ?_, ?_, acyclic_wf (acyclic_of_names_acyclic hac), ?_, ?_⟩
  · have hex := start_no_exit os fuel s name
    rcases ho : (start_service_with_deps os fuel s name).1 with rc | _ | _ | st
    · rcases hinv1.rc rc ho with h | h
      · exact Or.inl (by rw [h])
      · exact Or.inr (Or.inl (by rw [h]))
    · exact absurd ho hstart
    · exact Or.inr (Or.inr rfl)
    · exact absurd ho (hex st)
  · rcases hinv2.outcome with h | h | h
    · exact absurd h hstop
    · exact Or.inl h
    · exact Or.inr h
  · intro fuel2 hle
    exact ⟨start_fuel_le os s name fuel hstart fuel2 hle, stop_fuel_le os s name fuel hstop fuel2 hle⟩
  · intro d hd
    obtain ⟨f, rfl⟩ : ∃ f, fuel = f + 1 := ⟨fuel - 1, by omega⟩
    constructor
    · simp [start_service_with_deps, hd]
    · simp [stop_service_with_deps, hd]
  · intro idx d hf hd hmiss h0
    obtain ⟨idx1, hf1, _, hclosed⟩ := hpost1 h0
    rw [hf] at hf1
    cases hf1
    have hd1 : d ∈ (ext (start_service_with_deps os fuel s name).2 idx).deps := by
      rw [deps_congr hinv1.cfg_eq]
      exact hd
    obtain ⟨i, hi, _⟩ := hclosed idx Relation.ReflTransGen.refl d hd1
    rw [find_congr hinv1.cfg_eq, hmiss] at hi
    cases hi

/-- C20, witness: the diamond A requires B and C, B and C require D, every
`fork()` succeeds, budget 5; the start of A forks D, B, C, A in that order
and returns 0, a stop of D returns 0, and Z is not registered. -/
theorem C20_dependency_recursion_terminates_witness :
    names_acyclic diamond ∧ service_count diamond < 5 ∧
    (start_service_with_deps os_ok 5 diamond "A").1 = Outcome.returned 0 ∧
    (stop_service_with_deps os_ok 5 diamond "D").1 = Outcome.returned 0 ∧
    find_service_idx diamond "Z" = none ∧
    ((start_service_with_deps os_ok 5 diamond "A").1 = Outcome.returned 0 ∨
      (start_service_with_deps os_ok 5 diamond "A").1 = Outcome.returned (-1) ∨
      (start_service_with_deps os_ok 5 diamond "A").1 = Outcome.child) ∧
    ((stop_service_with_deps os_ok 5 diamond "A").1 = Outcome.returned 0 ∨
      (stop_service_with_deps os_ok 5 diamond "A").1 = Outcome.returned (-1)) ∧
    (∀ fuel2, 5 ≤ fuel2 →
      start_service_with_deps os_ok fuel2 diamond "A" = start_service_with_deps os_ok 5 diamond "A" ∧
      stop_service_with_deps os_ok fuel2 diamond "A" = stop_service_with_deps os_ok 5 diamond "A") ∧
    WellFounded (fun j i => depends_on diamond i j) ∧
    (∀ d, find_service_idx diamond d = none →
      start_service_with_deps os_ok 5 diamond d = (Outcome.returned (-1), diamond) ∧
      stop_service_with_deps os_ok 5 diamond d = (Outcome.returned (-1), diamond)) ∧
    (∀ idx d, find_service_idx diamond "A" = some idx → d ∈ (ext diamond idx).deps →
      find_service_idx diamond d = none →
      (start_service_with_deps os_ok 5 diamond "A").1 ≠ Outcome.returned 0) :=
  ⟨names_acyclic_of_rank_ok [2, 1, 1, 0] (by decide), by decide, by decide, by decide, by decide,
   C20_dependency_recursion_terminates os_ok diamond
     (names_acyclic_of_rank_ok [2, 1, 1, 0] (by decide)) "A" 5 (by decide)⟩


/-! ## C21: the result of a stop -/

/-- Lines 176-195 case by case: the result is 0 exactly when the service is
STOPPED already or `kill` returns 0; otherwise the result is -1, the only
system call is the failed `kill`, and no record is written. -/
theorem stop_signal_result (os : OS) (s : State) (i : Nat) :
    ((stop_signal os s i).1 = Outcome.returned 0 ↔
      (is_stopped s i ∨ os.kill s.tick (svc s i).pid SIGTERM = 0)) ∧
    (¬ (is_stopped s i ∨ os.kill s.tick (svc s i).pid SIGTERM = 0) →
      (stop_signal os s i).1 = Outcome.returned (-1) ∧
      (stop_signal os s i).2.table = s.table ∧
      (stop_signal os s i).2.trace = s.trace ++
        [Event.kill i (svc s i).pid SIGTERM (os.kill s.tick (svc s i).pid SIGTERM)]) := by
  by_cases hs : (svc s i).status = SERVICE_STOPPED
  · simp [stop_signal, is_stopped, hs]
  · by_cases hrc : os.kill s.tick (svc s i).pid SIGTERM = 0
    · simp [stop_signal, is_stopped, hs, hrc]
    · simp [stop_signal, is_stopped, hs, hrc, syscall]

/-- With an acyclic relation between names and enough recursion budget, a stop
of a registered service is the cascade over its dependents followed by lines
176-195 on the target, whatever the cascade returned; and the cascade leaves
the records of the target as they were. -/
theorem stop_is_cascade_then_signal (os : OS) (s : State) (name : String) (idx fuel : Nat)
    (hac : names_acyclic s) (hf : find_service_idx s name = some idx)
    (hfuel : service_count s ≤ fuel) :
    stop_service_with_deps os (fuel + 1) s name
      = stop_signal os
          (stop_dependents (stop_service_with_deps os fuel) (dependents s name) s).2 idx ∧
    svc (stop_dependents (stop_service_with_deps os fuel) (dependents s name) s).2 idx
      = svc s idx ∧
    ext (stop_dependents (stop_service_with_deps os fuel) (dependents s name) s).2 idx
      = ext s idx := by
  obtain ⟨tr, hinv, _, hkilled⟩ := stop_dependents_inv os (stop_service_with_deps os fuel)
    (fun a d => stop_inv os fuel a d) (dependents s name) s
  have hno := stop_terminates os s hac name (fuel + 1) (by omega)
  have hnk : ¬ killed tr idx := by
    intro hk
    obtain ⟨m, hm, hreach⟩ := hkilled idx hk
    rw [find_name hf] at hreach
    have hreq := (mem_dependents s m name).1 hm
    exact hac name (Relation.TransGen.tail' hreach hreq)
  have hslot := hinv.keep idx hnk
  have hout := hinv.outcome
  have e : stop_service_with_deps os (fuel + 1) s name
      = match stop_dependents (stop_service_with_deps os fuel) (dependents s name) s with
        | (Outcome.returned _, s1) => stop_signal os s1 idx
        | (o, s1) => (o, s1) := by
    simp [stop_service_with_deps, hf]
  refine ⟨?_, svc_of_slot_eq hslot, ext_of_slot_eq hslot⟩
  rw [e] at hno ⊢
  rcases hc : stop_dependents (stop_service_with_deps os fuel) (dependents s name) s with ⟨o, s1⟩
  rw [hc] at hno hout
  simp only at hout
  rcases hout with h | h | h
  · subst h
    exact absurd rfl hno
  · subst h
    rfl
  · subst h
    rfl

/-- C21.  Table whose hard-dependency relation between names is acyclic,
registered target, recursion budget above `service_count`.  The call
`stop_service_with_deps(target)` is the cascade over the dependents followed
by lines 176-195 on the target, whatever the stops of the dependents returned,
and the cascade leaves the target's records (status, pid, exit code, stop
time) as they were.  So the call returns 0 if and only if the target is
STOPPED after the cascade or the `kill(pid, SIGTERM)` for the target returns
0; otherwise it returns -1 and the target's records are as at entry, the
failed `kill` being the only system call made after the cascade.  The results
of the dependents are discarded: with A requiring B, both RUNNING, `kill`
failing for A and succeeding for B, the stop of B returns 0 and leaves A
RUNNING while B, which A requires, is STOPPED. -/
theorem C21_stop_result_is_the_targets (os : OS) (s : State) (name : String) (idx fuel : Nat)
    (hac : names_acyclic s) (hf : find_service_idx s name = some idx)
    (hfuel : service_count s ≤ fuel) :
    stop_service_with_deps os (fuel + 1) s name
      = stop_signal os
          (stop_dependents (stop_service_with_deps os fuel) (dependents s name) s).2 idx ∧
    svc (stop_dependents (stop_service_with_deps os fuel) (dependents s name) s).2 idx
      = svc s idx ∧
    ext (stop_dependents (stop_service_with_deps os fuel) (dependents s name) s).2 idx
      = ext s idx ∧
    ((stop_service_with_deps os (fuel + 1) s name).1 = Outcome.returned 0 ↔
      (is_stopped (stop_dependents (stop_service_with_deps os fuel) (dependents s name) s).2 idx ∨
       os.kill (stop_dependents (stop_service_with_deps os fuel) (dependents s name) s).2.tick
         (svc s idx).pid SIGTERM = 0)) ∧
    (is_stopped (stop_dependents (stop_service_with_deps os fuel) (dependents s name) s).2 idx
      ↔ is_stopped s idx) ∧
    (¬ (is_stopped s idx ∨
        os.kill (stop_dependents (stop_service_with_deps os fuel) (dependents s name) s).2.tick
          (svc s idx).pid SIGTERM = 0) →
      (stop_service_with_deps os (fuel + 1) s name).1 = Outcome.returned (-1) ∧
      svc (stop_service_with_deps os (fuel + 1) s name).2 idx = svc s idx ∧
      ext (stop_service_with_deps os (fuel + 1) s name).2 idx = ext s idx ∧
      (stop_service_with_deps os (fuel + 1) s name).2.table
        = (stop_dependents (stop_service_with_deps os fuel) (dependents s name) s).2.table) ∧
    (depends_on (pair SERVICE_RUNNING 7 SERVICE_RUNNING 8) 0 1 ∧
      (stop_service_with_deps (os_kill_fails 7) 3 (pair SERVICE_RUNNING 7 SERVICE_RUNNING 8) "A").1
        = Outcome.returned (-1) ∧
      (stop_service_with_deps (os_kill_fails 7) 3 (pair SERVICE_RUNNING 7 SERVICE_RUNNING 8) "B").1
        = Outcome.returned 0 ∧
      (svc (stop_service_with_deps (os_kill_fails 7) 3
        (pair SERVICE_RUNNING 7 SERVICE_RUNNING 8) "B").2 0).status = SERVICE_RUNNING ∧
      (svc (stop_service_with_deps (os_kill_fails 7) 3
        (pair SERVICE_RUNNING 7 SERVICE_RUNNING 8) "B").2 1).status = SERVICE_STOPPED ∧
      (stop_service_with_deps (os_kill_fails 7) 3
        (pair SERVICE_RUNNING 7 SERVICE_RUNNING 8) "B").2.trace
        = [Event.kill 0 7 SIGTERM (-1), Event.kill 1 8 SIGTERM 0, Event.alarm 90,
           Event.waitpid 1 8 0, Event.alarm 0, Event.epoll_del 1]) := by
  obtain ⟨hstep, hsvc, hext⟩ := stop_is_cascade_then_signal os s name idx fuel hac hf hfuel
  obtain ⟨hiff, hfail⟩ := stop_signal_result os
    (stop_dependents (stop_service_with_deps os fuel) (dependents s name) s).2 idx
  rw [hsvc] at hiff hfail
  have hst : is_stopped (stop_dependents (stop_service_with_deps os fuel) (dependents s name) s).2 idx
      ↔ is_stopped s idx := by
    unfold is_stopped
    rw [hsvc]
  refine ⟨hstep, hsvc, hext, ?_, hst, ?_, ?_⟩
  · rw [hstep]
    exact hiff
  · intro hnot
    rw [← hst] at hnot
    obtain ⟨h1, h2, _⟩ := hfail hnot
    rw [hstep]
    refine ⟨h1, ?_, ?_, h2⟩
    · rw [← hsvc]
      exact svc_of_slot_eq (by rw [h2])
    · rw [← hext]
      exact ext_of_slot_eq (by rw [h2])
  · refine ⟨⟨"B", by decide, by decide⟩, ?_, ?_, ?_, ?_, ?_⟩ <;> decide

/-- C21, witness: A requires B, both RUNNING (pids 7 and 8), `kill` fails for
pid 7 only; the stop of B at budget 3 returns 0. -/
theorem C21_stop_result_is_the_targets_witness :
    names_acyclic (pair SERVICE_RUNNING 7 SERVICE_RUNNING 8) ∧
    find_service_idx (pair SERVICE_RUNNING 7 SERVICE_RUNNING 8) "B" = some 1 ∧
    service_count (pair SERVICE_RUNNING 7 SERVICE_RUNNING 8) ≤ 2 ∧
    (stop_service_with_deps (os_kill_fails 7) (2 + 1) (pair SERVICE_RUNNING 7 SERVICE_RUNNING 8) "B").1 = Outcome.returned 0 ∧
    ((stop_service_with_deps (os_kill_fails 7) (2 + 1) (pair SERVICE_RUNNING 7 SERVICE_RUNNING 8) "B")
      = stop_signal (os_kill_fails 7)
          (stop_dependents (stop_service_with_deps (os_kill_fails 7) 2) (dependents (pair SERVICE_RUNNING 7 SERVICE_RUNNING 8) "B") (pair SERVICE_RUNNING 7 SERVICE_RUNNING 8)).2 1 ∧
    svc (stop_dependents (stop_service_with_deps (os_kill_fails 7) 2) (dependents (pair SERVICE_RUNNING 7 SERVICE_RUNNING 8) "B") (pair SERVICE_RUNNING 7 SERVICE_RUNNING 8)).2 1
      = svc (pair SERVICE_RUNNING 7 SERVICE_RUNNING 8) 1 ∧
    ext (stop_dependents (stop_service_with_deps (os_kill_fails 7) 2) (dependents (pair SERVICE_RUNNING 7 SERVICE_RUNNING 8) "B") (pair SERVICE_RUNNING 7 SERVICE_RUNNING 8)).2 1
      = ext (pair SERVICE_RUNNING 7 SERVICE_RUNNING 8) 1 ∧
    ((stop_service_with_deps (os_kill_fails 7) (2 + 1) (pair SERVICE_RUNNING 7 SERVICE_RUNNING 8) "B").1 = Outcome.returned 0 ↔
      (is_stopped (stop_dependents (stop_service_with_deps (os_kill_fails 7) 2) (dependents (pair SERVICE_RUNNING 7 SERVICE_RUNNING 8) "B") (pair SERVICE_RUNNING 7 SERVICE_RUNNING 8)).2 1 ∨
       (os_kill_fails 7).kill (stop_dependents (stop_service_with_deps (os_kill_fails 7) 2) (dependents (pair SERVICE_RUNNING 7 SERVICE_RUNNING 8) "B") (pair SERVICE_RUNNING 7 SERVICE_RUNNING 8)).2.tick
         (svc (pair SERVICE_RUNNING 7 SERVICE_RUNNING 8) 1).pid SIGTERM = 0)) ∧
    (is_stopped (stop_dependents (stop_service_with_deps (os_kill_fails 7) 2) (dependents (pair SERVICE_RUNNING 7 SERVICE_RUNNING 8) "B") (pair SERVICE_RUNNING 7 SERVICE_RUNNING 8)).2 1
      ↔ is_stopped (pair SERVICE_RUNNING 7 SERVICE_RUNNING 8) 1) ∧
    (¬ (is_stopped (pair SERVICE_RUNNING 7 SERVICE_RUNNING 8) 1 ∨
        (os_kill_fails 7).kill (stop_dependents (stop_service_with_deps (os_kill_fails 7) 2) (dependents (pair SERVICE_RUNNING 7 SERVICE_RUNNING 8) "B") (pair SERVICE_RUNNING 7 SERVICE_RUNNING 8)).2.tick
          (svc (pair SERVICE_RUNNING 7 SERVICE_RUNNING 8) 1).pid SIGTERM = 0) →
      (stop_service_with_deps (os_kill_fails 7) (2 + 1) (pair SERVICE_RUNNING 7 SERVICE_RUNNING 8) "B").1 = Outcome.returned (-1) ∧
      svc (stop_service_with_deps (os_kill_fails 7) (2 + 1) (pair SERVICE_RUNNING 7 SERVICE_RUNNING 8) "B").2 1 = svc (pair SERVICE_RUNNING 7 SERVICE_RUNNING 8) 1 ∧
      ext (stop_service_with_deps (os_kill_fails 7) (2 + 1) (pair SERVICE_RUNNING 7 SERVICE_RUNNING 8) "B").2 1 = ext (pair SERVICE_RUNNING 7 SERVICE_RUNNING 8) 1 ∧
      (stop_service_with_deps (os_kill_fails 7) (2 + 1) (pair SERVICE_RUNNING 7 SERVICE_RUNNING 8) "B").2.table
        = (stop_dependents (stop_service_with_deps (os_kill_fails 7) 2) (dependents (pair SERVICE_RUNNING 7 SERVICE_RUNNING 8) "B") (pair SERVICE_RUNNING 7 SERVICE_RUNNING 8)).2.table) ∧
    (depends_on (pair SERVICE_RUNNING 7 SERVICE_RUNNING 8) 0 1 ∧
      (stop_service_with_deps (os_kill_fails 7) 3 (pair SERVICE_RUNNING 7 SERVICE_RUNNING 8) "A").1
        = Outcome.returned (-1) ∧
      (stop_service_with_deps (os_kill_fails 7) 3 (pair SERVICE_RUNNING 7 SERVICE_RUNNING 8) "B").1
        = Outcome.returned 0 ∧
      (svc (stop_service_with_deps (os_kill_fails 7) 3
        (pair SERVICE_RUNNING 7 SERVICE_RUNNING 8) "B").2 0).status = SERVICE_RUNNING ∧
      (svc (stop_service_with_deps (os_kill_fails 7) 3
        (pair SERVICE_RUNNING 7 SERVICE_RUNNING 8) "B").2 1).status = SERVICE_STOPPED ∧
      (stop_service_with_deps (os_kill_fails 7) 3
        (pair SERVICE_RUNNING 7 SERVICE_RUNNING 8) "B").2.trace
        = [Event.kill 0 7 SIGTERM (-1), Event.kill 1 8 SIGTERM 0, Event.alarm 90,
           Event.waitpid 1 8 0, Event.alarm 0, Event.epoll_del 1])) :=
  ⟨names_acyclic_of_rank_ok [2, 1] (by decide), by decide, by decide, by decide,
   C21_stop_result_is_the_targets (os_kill_fails 7) (pair SERVICE_RUNNING 7 SERVICE_RUNNING 8)
     "B" 1 2 (names_acyclic_of_rank_ok [2, 1] (by decide)) (by decide) (by decide)⟩

end Neoinit
